import Mathlib

/-!
# Coverage counter restoration (`cmd/covdata/restorer.go`)

A shallow embedding of the restorer of `go tool covdata`: the reachability
propagation `recoverCounters` over the implication graph `upstream`, and the
partitioning of a function body into coverable units that builds that graph.

Conventions of the embedding.

* `uint32`, `int` and `token.Pos` values are natural numbers. Lines, columns and
  statement counts of a parsed file are far below `2 ^ 32`, so the conversions of
  `createCoverableUnit` are the identity on them.
* A Go map is a partial function: a key is present when the function returns
  `some`. Reading an absent key yields the zero value of the element type.
* A slice is a list. An index out of range is a run-time panic; operations that
  can panic return `Option`, with `none` for the panic.
-/

namespace Covdata

/-- The record `coverage.CoverableUnit`: a source span and its statement count. -/
structure CoverableUnit where
  StLine : Nat
  StCol : Nat
  EnLine : Nat
  EnCol : Nat
  NxStmts : Nat
deriving DecidableEq, Repr

/-- The part of `coverage.FuncDesc` the restorer reads: the ordered unit list. -/
structure FuncDesc where
  Units : List CoverableUnit
deriving DecidableEq, Repr

/-- The mutable fields of `restorer` that the analysis reads and writes.
`fset` stands for `c.fset.Position`, from a `token.Pos` to (line, column). -/
structure restorer where
  fset : Nat → Nat × Nat
  coverableUnits : Nat → Option (List CoverableUnit)
  upstream : CoverableUnit → Option (List CoverableUnit)

/-! ## recoverCounters -/

/-- The first loop of `recoverCounters`: `counterIdx[unit] = i` for each unit in
turn, starting at index `i` from the map `m`. -/
def buildCounterIdx : List CoverableUnit → Nat → (CoverableUnit → Option Nat) →
    (CoverableUnit → Option Nat)
  | [], _, m => m
  | unit :: rest, i, m => buildCounterIdx rest (i + 1) (fun x => if x = unit then some i else m x)

/-- The read `counterIdx[u]`: an absent key yields `0`. -/
def lookupIdx (counterIdx : CoverableUnit → Option Nat) (u : CoverableUnit) : Nat :=
  (counterIdx u).getD 0

/-- The second loop of `recoverCounters`: the indices of the nonzero counters, in
order, `i` being the index of the head of the list. -/
def seedQueue : List Nat → Nat → List Nat
  | [], _ => []
  | val :: rest, i => if val ≠ 0 then i :: seedQueue rest (i + 1) else seedQueue rest (i + 1)

/-- The variables of the work-queue loop. -/
structure LoopState where
  queue : List Nat
  newCounters : List Nat
deriving DecidableEq, Repr

/-- What one evaluation of the loop does: leave the loop, panic on an index out
of range, or go round with a new state. -/
inductive LoopStep where
  | exit (out : List Nat)
  | fault
  | next (s : LoopState)
deriving DecidableEq, Repr

/-- One round of `for len(queue) > 0 { ... }` in `recoverCounters`. -/
def loopBody (c : restorer) (fd : FuncDesc) (counterIdx : CoverableUnit → Option Nat)
    (s : LoopState) : LoopStep :=
  match s.queue with
  | [] => .exit s.newCounters
  | idx :: queue =>
    match s.newCounters[idx]? with
    | none => .fault
    | some v =>
      if v = 1 then .next ⟨queue, s.newCounters⟩
      else
        let newCounters := s.newCounters.set idx 1
        match fd.Units[idx]? with
        | none => .fault
        | some unit =>
          match c.upstream unit with
          | none => .next ⟨queue, newCounters⟩
          | some units => .next ⟨queue ++ units.map (lookupIdx counterIdx), newCounters⟩

/-- Number of entries of the output array that are not yet marked. -/
def unmarked (newCounters : List Nat) : Nat :=
  newCounters.countP (fun v => decide (v ≠ 1))

/-- The loop `for len(queue) > 0 { ... }` of `recoverCounters`, run to its end:
the output array, or `none` for a panic. -/
def runLoop (c : restorer) (fd : FuncDesc) (counterIdx : CoverableUnit → Option Nat)
    (s : LoopState) : Option (List Nat) :=
  match h : loopBody c fd counterIdx s with
  | .exit out => some out
  | .fault => none
  | .next s' => runLoop c fd counterIdx s'
termination_by (unmarked s.newCounters, s.queue.length)
decreasing_by
  have hset : ∀ (l : List Nat) (idx v : Nat), l[idx]? = some v → v ≠ 1 →
      unmarked (l.set idx 1) < unmarked l := by
    intro l
    induction l with
    | nil => intro idx v hv; simp at hv
    | cons a l ih =>
      intro idx v hv hne
      cases idx with
      | zero =>
        simp at hv
        subst hv
        simp [unmarked, List.countP_cons, hne]
      | succ idx =>
        simp at hv
        have ih2 := ih idx v hv hne
        simp only [unmarked, List.set_cons_succ, List.countP_cons] at ih2 ⊢
        omega
  unfold loopBody at h
  split at h
  · simp at h
  · rename_i idx queue hq
    split at h
    · simp at h
    · rename_i v hv
      split at h
      · simp at h
        subst h
        simp only [hq, List.length_cons]
        exact Prod.Lex.right _ (Nat.lt_succ_self _)
      · rename_i hne
        have hlt := hset s.newCounters idx v hv hne
        split at h
        · simp at h
        · split at h <;> (simp at h; subst h; exact Prod.Lex.left _ _ hlt)

/-- The method `recoverCounters` of `restorer`. -/
def recoverCounters (c : restorer) (counters : List Nat) (fd : FuncDesc) : Option (List Nat) :=
  let counterIdx := buildCounterIdx fd.Units 0 (fun _ => none)
  let queue := seedQueue counters 0
  let newCounters := List.replicate fd.Units.length 0
  runLoop c fd counterIdx ⟨queue, newCounters⟩

/-- The loop of `recoverCounters` cut off after `n` evaluations of its condition:
`next s` when it is still running in state `s`. -/
def iterLoop (c : restorer) (fd : FuncDesc) (counterIdx : CoverableUnit → Option Nat) :
    Nat → LoopState → LoopStep
  | 0, s => .next s
  | n + 1, s =>
    match loopBody c fd counterIdx s with
    | .next s' => iterLoop c fd counterIdx n s'
    | r => r

/-! ## VisitFunc -/

/-- The key type `pkfunc` of the counter map of `dstate`. -/
structure pkfunc where
  pk : Nat
  fcn : Nat
deriving DecidableEq, Repr

/-- Modelled from the spec: `decodecounter.FuncPayload`, not among the sources:
the per-function counter data, of which `VisitFunc` replaces `Counters`. -/
structure FuncPayload where
  PkgIdx : Nat
  FuncIdx : Nat
  Counters : List Nat
deriving DecidableEq, Repr

/-- Modelled from the spec: the wrapped consumer `dstate`, not among the
sources: its counter map `mm` and, as `rest`, whatever else it holds. -/
structure dstate (σ : Type) where
  mm : pkfunc → Option FuncPayload
  rest : σ

/-- The method `VisitFunc` of `restorer`. The call `c.op.VisitFunc` of the
wrapped consumer is the parameter `opVisitFunc`; `none` is a panic of
`recoverCounters`. -/
def VisitFunc {σ : Type} (c : restorer)
    (opVisitFunc : dstate σ → Nat → Nat → FuncDesc → dstate σ) (op : dstate σ)
    (pkgIdx fnIdx : Nat) (fd : FuncDesc) : Option (dstate σ) :=
  let key : pkfunc := ⟨pkgIdx, fnIdx⟩
  match op.mm key with
  | some v =>
    match recoverCounters c v.Counters fd with
    | none => none
    | some counters =>
      some (opVisitFunc
        { op with mm := fun k => if k = key then some { v with Counters := counters } else op.mm k }
        pkgIdx fnIdx fd)
  | none => some (opVisitFunc op pkgIdx fnIdx fd)

/-! ## The syntax tree

The statements of `go/ast` as far as the restorer tells them apart. Positions
are the `token.Pos` fields of the nodes. The body of an `if` or a `for` is a
`*ast.BlockStmt`; its fields `Lbrace`, `Rbrace` and `List` are fields of the node
here. -/

/-- Modelled from the spec: the node types of `go/ast` are not among the
sources. The statement kinds are the five of the design notes (block /
conditional / loop / labeled / other): `*ast.BlockStmt`, `*ast.IfStmt`,
`*ast.ForStmt`, `*ast.LabeledStmt`, and any other statement with its `Pos()` and
`End()`. The `else` branch of an `if` is absent, a block or another `if`. -/
inductive Stmt where
  | BlockStmt (Lbrace Rbrace : Nat) (List : List Stmt)
  | IfStmt (If : Nat) (Lbrace Rbrace : Nat) (List : List Stmt) (Else : Option Stmt)
  | ForStmt (For : Nat) (Lbrace Rbrace : Nat) (List : List Stmt)
  | LabeledStmt (Label : Nat) (Stmt : Stmt)
  | Other (Pos End : Nat)

/-- Modelled from the spec: the method `Pos()` of `go/ast`, not among the
sources, gives where a statement starts: the opening brace of a block, the
keyword of an `if` or a `for`, the label of a labeled statement. -/
def Stmt.Pos : Stmt → Nat
  | .BlockStmt lb _ _ => lb
  | .IfStmt p _ _ _ _ => p
  | .ForStmt p _ _ _ => p
  | .LabeledStmt p _ => p
  | .Other p _ => p

/-- Modelled from the spec: the method `End()` of `go/ast`, not among the
sources, gives the position just past a statement: past the closing brace of a
block or of the body of a loop, past the `else` branch of an `if` or, without
one, past its body, and past the statement a label is on. -/
def Stmt.End : Stmt → Nat
  | .BlockStmt _ rb _ => rb + 1
  | .IfStmt _ _ rb _ els =>
    match els with
    | some e => e.End
    | none => rb + 1
  | .ForStmt _ _ rb _ => rb + 1
  | .LabeledStmt _ s => s.End
  | .Other _ e => e

/-- Modelled from the spec: `*ast.FuncDecl`, not among the sources, as far as
`Visit` reads it: the braces and the statements of `n.Body`. -/
structure FuncDecl where
  Lbrace : Nat
  Rbrace : Nat
  List : List Stmt

/-- Modelled from the spec: `*ast.File`, not among the sources, as far as the
walk of the restorer meets blocks in it: its function declarations, in order. -/
structure File where
  Decls : List FuncDecl

/-! ## Partitioning into coverable units -/

/-- The method `endsBasicSourceBlock`: a type switch on the statement itself. -/
def endsBasicSourceBlock : Stmt → Bool
  | .BlockStmt .. => true
  | .IfStmt .. => true
  | .ForStmt .. => true
  | _ => false

/-- The method `createCoverableUnit`. -/
def createCoverableUnit (c : restorer) (start end_ numStmt : Nat) : CoverableUnit :=
  let stpos := c.fset start
  let enpos := c.fset end_
  { StLine := stpos.1, StCol := stpos.2, EnLine := enpos.1, EnCol := enpos.2, NxStmts := numStmt }

/-- The method `getCoverableUnits`; a read of an absent key of `coverableUnits`
yields the nil slice. -/
def getCoverableUnits (c : restorer) : Stmt → List CoverableUnit
  | .BlockStmt lb _ _ => (c.coverableUnits lb).getD []
  | .IfStmt _ lb _ _ els =>
    (c.coverableUnits lb).getD [] ++
      (match els with
       | some e => getCoverableUnits c e
       | none => [])
  | .ForStmt _ lb _ _ => (c.coverableUnits lb).getD []
  | _ => []

/-- The method `statementBoundary`. -/
def statementBoundary : Stmt → Nat
  | .IfStmt _ lb _ _ _ => lb
  | .BlockStmt lb _ _ => lb
  | .ForStmt _ lb _ _ => lb
  | .LabeledStmt _ s => statementBoundary s
  | .Other _ e => e

/-- The statement `c.upstream[key] = append(c.upstream[key], unit)`. -/
def appendUpstream (c : restorer) (key unit : CoverableUnit) : restorer :=
  { c with upstream := fun u =>
      if u = key then some ((c.upstream key).getD [] ++ [unit]) else c.upstream u }

/-- The end of one round of the outer loop of `generateCoverableUnits`, from
`if pos != end` to `units = append(units, unit)`: the new `units` and the state. -/
def closeRegion (c : restorer) (pos end_ last : Nat) (providers units : List CoverableUnit) :
    List CoverableUnit × restorer :=
  if pos ≠ end_ then
    let unit := createCoverableUnit c pos end_ last
    let c1 := providers.foldl (fun c u => appendUpstream c u unit) c
    let c2 := match units.getLast? with
      | some prev => appendUpstream c1 unit prev
      | none => c1
    (units ++ [unit], c2)
  else (units, c)

/-- The inner loop `for last = 0; last < len(list); last++` of
`generateCoverableUnits`, on the statements from index `last` on: the values of
`last` and `end` when the loop is left, and the statement that ended the basic
block, if one did (`last` is then already incremented past it). -/
def scanBasicBlock : List Stmt → Nat → Nat → Nat × Nat × Option Stmt
  | [], last, end_ => (last, end_, none)
  | stmt :: rest, last, _ =>
    if endsBasicSourceBlock stmt then (last + 1, statementBoundary stmt, some stmt)
    else scanBasicBlock rest (last + 1) (statementBoundary stmt)

/-! `Walk c node` is `ast.Walk(c, node)` with the visitor `c.Visit`;
`VisitBlockStmt` is the case `*ast.BlockStmt` of `Visit`; `generateLoop` is the
outer `for` of `generateCoverableUnits`, with `units` as built so far. A walk of a
statement of another kind visits no block. -/
mutual
/-- The method `Visit` on a statement, run the way `ast.Walk(c, node)` runs it:
`c.Visit(node)` first and, only where `Visit` returns the visitor itself (no case
of its switch applies), the walk of the children of the node. -/
def Walk (c : restorer) (node : Stmt) : restorer :=
  match node with
  | .BlockStmt lb rb list => VisitBlockStmt c lb rb list
  | .IfStmt _ lb rb list els =>
    let c1 := VisitBlockStmt c lb rb list
    match els with
    | some e => Walk c1 e
    | none => c1
  | .ForStmt _ lb rb list => VisitBlockStmt c lb rb list
  | .LabeledStmt _ s => Walk c s
  | .Other _ _ => c
termination_by (sizeOf node, 0)
decreasing_by
  all_goals simp_wf
  all_goals apply Prod.Lex.left
  all_goals omega
/-- The case `*ast.BlockStmt` of the method `Visit`, on the fields of the block. -/
def VisitBlockStmt (c : restorer) (Lbrace Rbrace : Nat) (list : List Stmt) : restorer :=
  let r := generateCoverableUnits c Lbrace (Lbrace + 1) (Rbrace + 1) list true
  { r.2 with coverableUnits := fun p => if p = Lbrace then some r.1 else r.2.coverableUnits p }
termination_by (sizeOf list, 3)
decreasing_by
  exact Prod.Lex.right _ (by decide)
/-- The method `generateCoverableUnits`: the units of the block and the state. -/
def generateCoverableUnits (c : restorer) (pos insertPos blockEnd : Nat) (list : List Stmt)
    (extendToClosingBrace : Bool) : List CoverableUnit × restorer :=
  if list.length = 0 then ([createCoverableUnit c insertPos blockEnd 0], c)
  else generateLoop c pos blockEnd list extendToClosingBrace []
termination_by (sizeOf list, 2)
decreasing_by
  exact Prod.Lex.right _ (by decide)
/-- The outer loop `for { ... }` of `generateCoverableUnits`, entered with a
non-empty `list` and the `units` emitted so far. -/
def generateLoop (c : restorer) (pos blockEnd : Nat) (list : List Stmt)
    (extendToClosingBrace : Bool) (units : List CoverableUnit) : List CoverableUnit × restorer :=
  match h : scanBasicBlock list 0 blockEnd with
  | (last, end_, some stmt) =>
    let c1 := Walk c stmt
    let providers := getCoverableUnits c1 stmt
    let r := closeRegion c1 pos end_ last providers units
    match h2 : list.drop last with
    | [] => r
    | next :: _ => generateLoop r.2 next.Pos blockEnd (list.drop last) false r.1
  | (last, end_, none) =>
    let r := closeRegion c pos (if extendToClosingBrace then blockEnd else end_) last [] units
    match h2 : list.drop last with
    | [] => r
    | next :: _ => generateLoop r.2 next.Pos blockEnd (list.drop last) extendToClosingBrace r.1
termination_by (sizeOf list, 1)
decreasing_by
  all_goals
    have hscan : ∀ (l : List Stmt) (n0 e0 n e : Nat) (found : Option Stmt),
        scanBasicBlock l n0 e0 = (n, e, found) →
        (∀ s, found = some s → sizeOf s < sizeOf l ∧ n0 < n) ∧
        (found = none → n = n0 + l.length) := by
      intro l
      induction l with
      | nil =>
        intro n0 e0 n e found hs
        simp only [scanBasicBlock, Prod.mk.injEq] at hs
        obtain ⟨h1, _, h3⟩ := hs
        subst h3
        simp [h1]
      | cons a l ih =>
        intro n0 e0 n e found hs
        rw [scanBasicBlock] at hs
        split at hs
        · simp only [Prod.mk.injEq] at hs
          obtain ⟨h1, _, h3⟩ := hs
          subst h3
          simp
          omega
        · obtain ⟨ih1, ih2⟩ := ih _ _ _ _ _ hs
          refine ⟨fun s hs2 => ?_, fun hn => ?_⟩
          · have := ih1 s hs2
            simp only [List.cons.sizeOf_spec]
            omega
          · have := ih2 hn
            simp only [List.length_cons]
            omega
    have hdrop : ∀ (l : List Stmt) (k : Nat), sizeOf (l.drop k) ≤ sizeOf l := by
      intro l
      induction l with
      | nil => intro k; simp
      | cons a l ih =>
        intro k
        cases k with
        | zero => simp
        | succ k =>
          have := ih k
          simp only [List.drop_succ_cons, List.cons.sizeOf_spec]
          omega
    have hdrop2 : ∀ (l : List Stmt) (k : Nat), 0 < k → l.drop k ≠ [] →
        sizeOf (l.drop k) < sizeOf l := by
      intro l k hk hne
      cases l with
      | nil => simp at hne
      | cons a l =>
        cases k with
        | zero => omega
        | succ k =>
          have := hdrop l k
          simp only [List.drop_succ_cons, List.cons.sizeOf_spec]
          omega
  · exact Prod.Lex.left _ _ ((hscan _ _ _ _ _ _ h).1 _ rfl).1
  · exact Prod.Lex.left _ _ (hdrop2 _ _ (by have := ((hscan _ _ _ _ _ _ h).1 _ rfl).2; omega)
      (by rw [h2]; simp))
  · exfalso
    have h3 := (hscan _ _ _ _ _ _ h).2 rfl
    rw [h3] at h2
    simp at h2
end


/-- The method `generateUpstreamMapping`, from the result of `parser.ParseFile`
on: an error is returned as it is, a file is walked. -/
def generateUpstreamMapping (c : restorer) (parsed : Except String File) :
    Except String restorer :=
  match parsed with
  | .error err => .error err
  | .ok f => .ok (f.Decls.foldl (fun c n => VisitBlockStmt c n.Lbrace n.Rbrace n.List) c)

/-- The state `makeCleanerOp` and the test build: both maps empty. -/
def newRestorer (fset : Nat → Nat × Nat) : restorer :=
  { fset := fset, coverableUnits := fun _ => none, upstream := fun _ => none }

/-! ## Function bodies of the shape of the test -/

/-- Statements of other kinds (assignments, calls, ...), from their `Pos()` and
`End()`. -/
def plain (ps : List (Nat × Nat)) : List Stmt :=
  ps.map (fun p => Stmt.Other p.1 p.2)

/-- The statement list `pre...; if cond { body... }; post...` with plain
statements `pre`, `body` and `post` and no `else`. -/
def ifShape (pre : List (Nat × Nat)) (ifPos ifLbrace ifRbrace : Nat) (body post : List (Nat × Nat)) :
    List Stmt :=
  plain pre ++ Stmt.IfStmt ifPos ifLbrace ifRbrace (plain body) none :: plain post

/-- The `End()` of the last of the statements `p :: ps`. -/
def lastEnd (p : Nat × Nat) (ps : List (Nat × Nat)) : Nat :=
  (((p :: ps).map Prod.snd).getLast?).getD 0

/-- The unit of the span from `start` to `end_` holding `numStmt` statements,
under the position table `fset`. -/
def spanUnit (fset : Nat → Nat × Nat) (start end_ numStmt : Nat) : CoverableUnit :=
  { StLine := (fset start).1, StCol := (fset start).2, EnLine := (fset end_).1,
    EnCol := (fset end_).2, NxStmts := numStmt }

/-- The position table of the fixtures: position `100 * line + column`. -/
def gridPos (p : Nat) : Nat × Nat := (p / 100, p % 100)

/-! ## Specification vocabulary for the partitioning -/

/-- No statement of the list ends a basic block. -/
def NonEnding (list : List Stmt) : Prop :=
  ∀ s ∈ list, endsBasicSourceBlock s = false

/-- The `statementBoundary` of the last statement of the list, `e0` for the
empty list: the value of `end` when the inner loop has run over the list. -/
def lastBoundary (list : List Stmt) (e0 : Nat) : Nat :=
  (list.getLast?.map statementBoundary).getD e0

/-- The statements `pre` before a region: none, or statements of which the last
one ends a basic block. -/
def AtRegionStart (pre : List Stmt) : Prop :=
  ∀ t, pre.getLast? = some t → endsBasicSourceBlock t = true

/-- Where the region after the statements `pre` starts: at `pos`, the start the
loop was entered with, when `pre` is empty, else at the first of the statements
`rest` that follow. -/
def regionPos (pos : Nat) (pre rest : List Stmt) : Nat :=
  match pre, rest with
  | [], _ => pos
  | _ :: _, s :: _ => s.Pos
  | _ :: _, [] => pos

/-- The value of `extendToClosingBrace` in the region after the statements
`pre`: as the loop was entered when `pre` is empty, false after that. -/
def regionExt (ext : Bool) (pre : List Stmt) : Bool :=
  match pre with
  | [] => ext
  | _ :: _ => false

/-- The unit `u` is the unit of a region of `list`, for a loop entered at `pos`
with `extendToClosingBrace` as `ext`: either of a region `seg ++ [t]` closed by
the region-ending statement `t`, which ends at the boundary of `t` and counts
the statements of `seg` and `t`, or of the trailing region `seg`, which counts
the statements of `seg`. -/
def RegionUnit (fset : Nat → Nat × Nat) (pos blockEnd : Nat) (ext : Bool) (list : List Stmt)
    (u : CoverableUnit) : Prop :=
  (∃ pre seg t post, list = pre ++ (seg ++ t :: post) ∧ AtRegionStart pre ∧ NonEnding seg ∧
    endsBasicSourceBlock t = true ∧
    u = spanUnit fset (regionPos pos pre (seg ++ t :: post)) (statementBoundary t)
      (seg.length + 1)) ∨
  (∃ pre seg, list = pre ++ seg ∧ AtRegionStart pre ∧ NonEnding seg ∧ seg ≠ [] ∧
    u = spanUnit fset (regionPos pos pre seg)
      (if regionExt ext pre = true then blockEnd else lastBoundary seg blockEnd) seg.length)

/-- The unit list of the block with braces `lb`, `rb` and statements `l`: what
`generateCoverableUnits` returns for it as `Visit` calls it. The list depends on
the state only through the position table, so it is taken from the empty state. -/
def blockUnits (fset : Nat → Nat × Nat) (lb rb : Nat) (l : List Stmt) : List CoverableUnit :=
  (generateCoverableUnits (newRestorer fset) lb (lb + 1) (rb + 1) l true).1

/-- The unit list of the nested body of a statement: the units of a block, of
the body of a loop, and for an `if` the units of its body followed by the units
of its `else` branch, through the chain of `else if`. -/
def nestedUnits (fset : Nat → Nat × Nat) : Stmt → List CoverableUnit
  | .BlockStmt lb rb l => blockUnits fset lb rb l
  | .IfStmt _ lb rb l els =>
    blockUnits fset lb rb l ++
      (match els with
       | some e => nestedUnits fset e
       | none => [])
  | .ForStmt _ lb rb l => blockUnits fset lb rb l
  | _ => []

mutual
/-- The opening braces of the blocks in a statement. -/
def braces : Stmt → List Nat
  | .BlockStmt lb _ l => lb :: bracesList l
  | .IfStmt _ lb _ l els =>
    lb :: (bracesList l ++
      (match els with
       | some e => braces e
       | none => []))
  | .ForStmt _ lb _ l => lb :: bracesList l
  | .LabeledStmt _ s => braces s
  | .Other _ _ => []
/-- The opening braces of the blocks in a statement list. -/
def bracesList : List Stmt → List Nat
  | [] => []
  | s :: rest => braces s ++ bracesList rest
end

/-- The opening brace of the body of an `if` is not an opening brace in its
`else` branch, through the chain of `else if`: in a parsed file no two braces
share a position. -/
def ElseBracesDistinct : Stmt → Prop
  | .IfStmt _ lb _ _ els =>
    match els with
    | some e => lb ∉ braces e ∧ ElseBracesDistinct e
    | none => True
  | _ => True

mutual
/-- The positions of a statement are well-formed: the braces of a nested body
lie inside the statement, in order, the statements of the body lie between the
braces, an `else` branch starts after the body, a label comes before its
statement, and a plain statement ends after it starts. -/
def WellFormed : Stmt → Prop
  | .BlockStmt lb rb l => lb < rb ∧ WellFormedList (lb + 1) rb l
  | .IfStmt p lb rb l els =>
    p < lb ∧ lb < rb ∧ WellFormedList (lb + 1) rb l ∧
      (match els with
       | some e => rb < e.Pos ∧ WellFormed e
       | none => True)
  | .ForStmt p lb rb l => p < lb ∧ lb < rb ∧ WellFormedList (lb + 1) rb l
  | .LabeledStmt p s => p < s.Pos ∧ WellFormed s
  | .Other p e => p < e
/-- The statements of a list are well-formed and lie between `lo` and `hi`, each
starting at or after the end of the one before. -/
def WellFormedList : Nat → Nat → List Stmt → Prop
  | _, _, [] => True
  | lo, hi, s :: rest => lo ≤ s.Pos ∧ WellFormed s ∧ s.End ≤ hi ∧ WellFormedList s.End hi rest
end

/-- The edge `u → p` goes backward in the source: both are units of spans, and
`p` ends at or before the position where `u` starts and starts strictly before
it. -/
def EdgeBackward (fset : Nat → Nat × Nat) (u p : CoverableUnit) : Prop :=
  ∃ s e n s2 e2 n2, u = spanUnit fset s e n ∧ p = spanUnit fset s2 e2 n2 ∧ e2 ≤ s ∧ s2 < s

/-- The unit `u` is the unit of a span that starts at or after `lo`. -/
def SpanFrom (fset : Nat → Nat × Nat) (lo : Nat) (u : CoverableUnit) : Prop :=
  ∃ s e n, u = spanUnit fset s e n ∧ lo ≤ s

/-- The unit `p` is the unit of a span that starts at or after `lo` and lies
before `pos`. -/
def SpanBefore (fset : Nat → Nat × Nat) (lo pos : Nat) (p : CoverableUnit) : Prop :=
  ∃ s e n, p = spanUnit fset s e n ∧ e ≤ pos ∧ s < pos ∧ lo ≤ s

/-! ## Specification vocabulary for the propagation -/

/-- The implied units of `unit`: the entry `c.upstream[unit]`, empty when absent. -/
def implied (c : restorer) (unit : CoverableUnit) : List CoverableUnit :=
  (c.upstream unit).getD []

/-- A direct edge of the implication graph: `b` is in the entry of `a`. -/
def Implies (c : restorer) (a b : CoverableUnit) : Prop :=
  ∃ units, c.upstream a = some units ∧ b ∈ units

/-- A direct edge or a chain of edges of the implication graph from `a` to `b`. -/
def Reachable (c : restorer) (a b : CoverableUnit) : Prop :=
  Relation.TransGen (Implies c) a b

/-- A direct edge or a chain of edges from `a` to `b` that only passes through
units of the list of `fd` (every unit reached on the way, `b` included, is listed). -/
def ReachableListed (c : restorer) (fd : FuncDesc) (a b : CoverableUnit) : Prop :=
  Relation.TransGen (fun x y => Implies c x y ∧ y ∈ fd.Units) a b

/-- The graph only grows: an edge of the state before is an edge of the state
after. -/
def UpMono (c c2 : restorer) : Prop :=
  ∀ u p, p ∈ implied c u → p ∈ implied c2 u

/-- Every unit implied by a listed unit is itself in the list. -/
def Closed (c : restorer) (fd : FuncDesc) : Prop :=
  ∀ u ∈ fd.Units, ∀ p, Implies c u p → p ∈ fd.Units

/-- Position `j` has a nonzero input counter. -/
def IsSeed (counters : List Nat) (j : Nat) : Prop :=
  ∃ v, counters[j]? = some v ∧ v ≠ 0

/-- What the loop does with a marked position `a`: it enqueues the index that
`counterIdx` gives for each implied unit of the unit at `a`. -/
def IdxEdge (c : restorer) (fd : FuncDesc) (a b : Nat) : Prop :=
  ∃ unit, fd.Units[a]? = some unit ∧
    ∃ u ∈ implied c unit, b = lookupIdx (buildCounterIdx fd.Units 0 (fun _ => none)) u

/-- Position `i` is a seed or is enqueued, directly or in a chain, from a seed. -/
def IdxReached (c : restorer) (fd : FuncDesc) (counters : List Nat) (i : Nat) : Prop :=
  ∃ j, IsSeed counters j ∧ Relation.ReflTransGen (IdxEdge c fd) j i

/-- Edges still to enqueue: the sum of the numbers of implied units over the
positions not yet marked. -/
def pending (c : restorer) : List Nat → List CoverableUnit → Nat
  | v :: newCounters, unit :: units =>
    (if v = 1 then 0 else (implied c unit).length) + pending c newCounters units
  | _, _ => 0

/-- The invariant of the partitioning under the position table `fset`: every
edge of the graph goes backward, and the units stored for a block start at or
after its opening brace. -/
structure Backward (fset : Nat → Nat × Nat) (c : restorer) : Prop where
  table : c.fset = fset
  edges : ∀ u p, p ∈ implied c u → EdgeBackward fset u p
  keys : ∀ key units, c.coverableUnits key = some units → ∀ u ∈ units, SpanFrom fset key u

/-- The loop invariant of `recoverCounters` for a counter array `counters`. -/
structure Inv (c : restorer) (fd : FuncDesc) (counters : List Nat) (s : LoopState) : Prop where
  len : s.newCounters.length = fd.Units.length
  bit : ∀ (i v : Nat), s.newCounters[i]? = some v → v = 0 ∨ v = 1
  qlt : ∀ q ∈ s.queue, q < fd.Units.length
  qreach : ∀ q ∈ s.queue, IdxReached c fd counters q
  mreach : ∀ i : Nat, s.newCounters[i]? = some 1 → IdxReached c fd counters i
  seeds : ∀ j : Nat, IsSeed counters j → s.newCounters[j]? = some 1 ∨ j ∈ s.queue
  closed : ∀ a b : Nat, s.newCounters[a]? = some 1 → IdxEdge c fd a b →
    s.newCounters[b]? = some 1 ∨ b ∈ s.queue

/-! ## Fixtures -/

/-- The leading unit of `testdata/inf1.go` in `TestGenerateUpstreamMapping`. -/
def leadUnit : CoverableUnit := ⟨5, 13, 7, 22, 2⟩

/-- The if-body unit of the test fixture. -/
def bodyUnit : CoverableUnit := ⟨7, 22, 9, 3, 1⟩

/-- The trailing unit of the test fixture. -/
def trailUnit : CoverableUnit := ⟨10, 2, 10, 18, 1⟩

/-- A unit that is in no unit list below. -/
def strayUnit : CoverableUnit := ⟨20, 1, 21, 1, 1⟩

/-- The implication graph the test expects: both the if-body unit and the
trailing unit imply the leading unit. -/
def wantGraph : restorer where
  fset := fun _ => (0, 0)
  coverableUnits := fun _ => none
  upstream := fun u =>
    if u = bodyUnit then some [leadUnit] else if u = trailUnit then some [leadUnit] else none

/-- The unit list of the fixture function, in source order. -/
def wantFd : FuncDesc := ⟨[leadUnit, bodyUnit, trailUnit]⟩

/-- A graph with a chain through a unit outside the unit list:
`leadUnit → strayUnit → bodyUnit`. -/
def strayChainGraph : restorer where
  fset := fun _ => (0, 0)
  coverableUnits := fun _ => none
  upstream := fun u =>
    if u = leadUnit then some [strayUnit] else if u = strayUnit then some [bodyUnit] else none

/-- A graph whose only edge leaves the unit list: `bodyUnit → strayUnit`. -/
def strayEdgeGraph : restorer where
  fset := fun _ => (0, 0)
  coverableUnits := fun _ => none
  upstream := fun u => if u = bodyUnit then some [strayUnit] else none

/-- A graph with a cycle and a duplicate edge:
`leadUnit → bodyUnit` twice and `bodyUnit → leadUnit`. -/
def cycleGraph : restorer where
  fset := fun _ => (0, 0)
  coverableUnits := fun _ => none
  upstream := fun u =>
    if u = leadUnit then some [bodyUnit, bodyUnit]
    else if u = bodyUnit then some [leadUnit] else none

/-- The two-unit list used with the graphs above. -/
def pairFd : FuncDesc := ⟨[leadUnit, bodyUnit]⟩

/-- A counter map with one entry, for function 2 of package 1, with counters
`[0, 4, 0]`. -/
def oneEntry : dstate Unit where
  mm := fun k => if k = ⟨1, 2⟩ then some ⟨1, 2, [0, 4, 0]⟩ else none
  rest := ()

/-- The statement list of the function body of `testdata/inf1.go`, laid out on
the grid: an assignment, an `if` with one call in its body, a call. -/
def inf1Body : List Stmt :=
  ifShape [(602, 620)] 702 722 902 [(803, 820)] [(1002, 1018)]

/-- A loop with one call in its body. -/
def loopStmt : Stmt := .ForStmt 609 620 802 [.Other 703 710]

/-- The statement list `L: for ... { A() }; B()`. -/
def labeledLoopBody : List Stmt := [.LabeledStmt 602 loopStmt, .Other 902 910]

/-- The statement list `for ... { A() }; B()`. -/
def loopBody2 : List Stmt := [loopStmt, .Other 902 910]

/-- The parsed file of the fixture: one function, its body from `5:13` to
`11:1`. -/
def inf1File : File := ⟨[⟨513, 1101, inf1Body⟩]⟩

/-! ## The index map -/

theorem buildCounterIdx_not_mem : ∀ (units : List CoverableUnit) (i : Nat)
    (m : CoverableUnit → Option Nat) (u : CoverableUnit), u ∉ units →
    buildCounterIdx units i m u = m u
  | [], _, _, _, _ => rfl
  | a :: rest, i, m, u, h => by
    simp only [List.mem_cons, not_or] at h
    rw [buildCounterIdx, buildCounterIdx_not_mem rest _ _ u h.2]
    simp [h.1]

theorem buildCounterIdx_range : ∀ (units : List CoverableUnit) (i : Nat)
    (m : CoverableUnit → Option Nat) (u : CoverableUnit) (k : Nat),
    buildCounterIdx units i m u = some k → m u = some k ∨ (i ≤ k ∧ k < i + units.length)
  | [], _, _, _, _, h => Or.inl h
  | a :: rest, i, m, u, k, h => by
    rw [buildCounterIdx] at h
    rcases buildCounterIdx_range rest _ _ u k h with h1 | h1
    · by_cases hu : u = a
      · simp [hu] at h1
        right
        simp only [List.length_cons]
        omega
      · simp [hu] at h1
        exact Or.inl h1
    · right
      simp only [List.length_cons]
      omega

theorem buildCounterIdx_mem : ∀ (units : List CoverableUnit) (i : Nat)
    (m : CoverableUnit → Option Nat) (u : CoverableUnit), u ∈ units →
    ∃ k, buildCounterIdx units i m u = some (i + k) ∧ units[k]? = some u
  | [], _, _, _, h => by simp at h
  | a :: rest, i, m, u, h => by
    rw [buildCounterIdx]
    by_cases hr : u ∈ rest
    · obtain ⟨k, hk, hk2⟩ := buildCounterIdx_mem rest (i + 1) _ u hr
      refine ⟨k + 1, ?_, by simpa using hk2⟩
      rw [hk]
      congr 1
      omega
    · have hua : u = a := by
        rcases List.mem_cons.1 h with h1 | h1
        · exact h1
        · exact absurd h1 hr
      refine ⟨0, ?_, by simp [hua]⟩
      rw [buildCounterIdx_not_mem rest _ _ u hr]
      simp [hua]

theorem buildCounterIdx_nodup : ∀ (units : List CoverableUnit) (i : Nat)
    (m : CoverableUnit → Option Nat) (u : CoverableUnit) (k : Nat), units.Nodup →
    units[k]? = some u → buildCounterIdx units i m u = some (i + k)
  | [], _, _, _, _, _, h => by simp at h
  | a :: rest, i, m, u, 0, hnd, h => by
    simp at h
    subst h
    rw [buildCounterIdx, buildCounterIdx_not_mem rest _ _ a (List.nodup_cons.1 hnd).1]
    simp
  | a :: rest, i, m, u, k + 1, hnd, h => by
    simp at h
    rw [buildCounterIdx, buildCounterIdx_nodup rest (i + 1) _ u k (List.nodup_cons.1 hnd).2 h]
    congr 1
    omega

theorem lookupIdx_lt (units : List CoverableUnit) (u : CoverableUnit) (h : 0 < units.length) :
    lookupIdx (buildCounterIdx units 0 (fun _ => none)) u < units.length := by
  unfold lookupIdx
  cases hb : buildCounterIdx units 0 (fun _ => none) u with
  | none => simpa using h
  | some k =>
    rcases buildCounterIdx_range units 0 _ u k hb with h1 | h1
    · simp at h1
    · simp only [Option.getD_some]
      omega

theorem lookupIdx_mem (units : List CoverableUnit) (u : CoverableUnit) (h : u ∈ units) :
    units[lookupIdx (buildCounterIdx units 0 (fun _ => none)) u]? = some u := by
  obtain ⟨k, hk, hk2⟩ := buildCounterIdx_mem units 0 (fun _ => none) u h
  simp [lookupIdx, hk, hk2]

theorem lookupIdx_nodup (units : List CoverableUnit) (u : CoverableUnit) (k : Nat)
    (hnd : units.Nodup) (h : units[k]? = some u) :
    lookupIdx (buildCounterIdx units 0 (fun _ => none)) u = k := by
  simp [lookupIdx, buildCounterIdx_nodup units 0 (fun _ => none) u k hnd h]

/-! ## The seed queue -/

theorem mem_seedQueue : ∀ (counters : List Nat) (i q : Nat),
    q ∈ seedQueue counters i ↔ ∃ k, q = i + k ∧ IsSeed counters k
  | [], i, q => by simp [seedQueue, IsSeed]
  | val :: rest, i, q => by
    have ih := mem_seedQueue rest (i + 1) q
    have key : (∃ k, q = i + k ∧ IsSeed (val :: rest) k) ↔
        ((val ≠ 0 ∧ q = i) ∨ ∃ k, q = i + 1 + k ∧ IsSeed rest k) := by
      constructor
      · rintro ⟨k, hk, v, hv, hne⟩
        cases k with
        | zero =>
          simp at hv
          subst hv
          exact Or.inl ⟨hne, by omega⟩
        | succ k =>
          simp at hv
          exact Or.inr ⟨k, by omega, v, hv, hne⟩
      · rintro (⟨hne, hq⟩ | ⟨k, hk, v, hv, hne⟩)
        · exact ⟨0, by omega, val, by simp, hne⟩
        · exact ⟨k + 1, by omega, v, by simpa using hv, hne⟩
    rw [key, seedQueue]
    by_cases hval : val = 0
    · simp [hval, ih]
    · simp [hval, ih]

theorem mem_seedQueue_zero (counters : List Nat) (q : Nat) :
    q ∈ seedQueue counters 0 ↔ IsSeed counters q := by
  rw [mem_seedQueue]
  constructor
  · rintro ⟨k, hk, h⟩
    have : q = k := by omega
    subst this
    exact h
  · intro h
    exact ⟨q, by omega, h⟩

theorem seedQueue_length_le : ∀ (counters : List Nat) (i : Nat),
    (seedQueue counters i).length ≤ counters.length
  | [], _ => by simp [seedQueue]
  | val :: rest, i => by
    have ih := seedQueue_length_le rest (i + 1)
    rw [seedQueue]
    split <;> simp only [List.length_cons] <;> omega

/-! ## The loop body in normal form -/

theorem loopBody_exit_iff {c : restorer} {fd : FuncDesc} {m : CoverableUnit → Option Nat}
    {s : LoopState} {out : List Nat} :
    loopBody c fd m s = .exit out ↔ s.queue = [] ∧ out = s.newCounters := by
  unfold loopBody
  split
  · rename_i hq
    simp [hq, eq_comm]
  · rename_i idx queue hq
    simp only [hq]
    constructor
    · intro h
      split at h
      · simp at h
      · split at h
        · simp at h
        · split at h
          · simp at h
          · split at h <;> simp at h
    · intro h
      simp at h

theorem loopBody_cons {c : restorer} {fd : FuncDesc} {m : CoverableUnit → Option Nat}
    {s : LoopState} {idx v : Nat} {queue : List Nat} {unit : CoverableUnit}
    (hq : s.queue = idx :: queue) (hv : s.newCounters[idx]? = some v)
    (hu : fd.Units[idx]? = some unit) :
    loopBody c fd m s = .next (if v = 1 then ⟨queue, s.newCounters⟩
      else ⟨queue ++ (implied c unit).map (lookupIdx m), s.newCounters.set idx 1⟩) := by
  unfold loopBody
  simp only [hq, hv, hu]
  by_cases h1 : v = 1
  · simp [h1]
  · simp only [h1, if_false, implied]
    cases hup : c.upstream unit <;> simp

theorem runLoop_of_iterLoop {c : restorer} {fd : FuncDesc} {m : CoverableUnit → Option Nat} :
    ∀ (n : Nat) (s : LoopState) (out : List Nat),
      iterLoop c fd m n s = .exit out → runLoop c fd m s = some out
  | 0, s, out, h => by simp [iterLoop] at h
  | n + 1, s, out, h => by
    rw [iterLoop] at h
    rw [runLoop]
    split
    · rename_i out2 h2
      rw [h2] at h
      simpa using h
    · rename_i h2
      rw [h2] at h
      simp at h
    · rename_i s2 h2
      rw [h2] at h
      exact runLoop_of_iterLoop n s2 out h

/-! ## Invariant and termination of the loop -/

theorem marked_set (l : List Nat) (idx j : Nat) (h : idx < l.length) :
    (l.set idx 1)[j]? = some 1 ↔ j = idx ∨ l[j]? = some 1 := by
  rw [List.getElem?_set]
  by_cases hij : idx = j
  · subst hij
    simp [h]
  · simp only [hij, if_false]
    constructor
    · exact Or.inr
    · rintro (h1 | h1)
      · exact absurd h1.symm hij
      · exact h1

theorem pending_set (c : restorer) : ∀ (l : List Nat) (units : List CoverableUnit)
    (idx v : Nat) (unit : CoverableUnit), l[idx]? = some v → v ≠ 1 → units[idx]? = some unit →
    pending c (l.set idx 1) units + (implied c unit).length = pending c l units
  | [], _, _, _, _, h, _, _ => by simp at h
  | _ :: _, [], _, _, _, _, _, h => by simp at h
  | a :: l, u :: units, 0, v, unit, h, hv, hu => by
    simp at h hu
    subst h
    subst hu
    simp [pending, hv]
    omega
  | a :: l, u :: units, idx + 1, v, unit, h, hv, hu => by
    simp at h hu
    have ih := pending_set c l units idx v unit h hv hu
    simp only [List.set_cons_succ, pending]
    omega

theorem pending_replicate (c : restorer) : ∀ (units : List CoverableUnit),
    pending c (List.replicate units.length 0) units = (units.map (fun u => (implied c u).length)).sum
  | [] => by simp [pending]
  | u :: units => by
    simp [List.replicate_succ, pending, pending_replicate c units]

theorem inv_init (c : restorer) (fd : FuncDesc) (counters : List Nat)
    (hlen : counters.length = fd.Units.length) :
    Inv c fd counters ⟨seedQueue counters 0, List.replicate fd.Units.length 0⟩ where
  len := by simp
  bit := by
    intro i v h
    rw [List.getElem?_replicate] at h
    split at h <;> simp at h
    exact Or.inl h.symm
  qlt := by
    intro q hq
    obtain ⟨v, hv, _⟩ := (mem_seedQueue_zero counters q).1 hq
    obtain ⟨h, _⟩ := List.getElem?_eq_some.1 hv
    omega
  qreach := fun q hq => ⟨q, (mem_seedQueue_zero counters q).1 hq, Relation.ReflTransGen.refl⟩
  mreach := by
    intro i h
    rw [List.getElem?_replicate] at h
    split at h <;> simp at h
  seeds := fun j hj => Or.inr ((mem_seedQueue_zero counters j).2 hj)
  closed := by
    intro a b h
    rw [List.getElem?_replicate] at h
    split at h <;> simp at h

theorem inv_next {c : restorer} {fd : FuncDesc} {counters : List Nat} {s : LoopState}
    {idx : Nat} {queue : List Nat} (hinv : Inv c fd counters s) (hq : s.queue = idx :: queue) :
    ∃ s', loopBody c fd (buildCounterIdx fd.Units 0 (fun _ => none)) s = .next s' ∧
      Inv c fd counters s' ∧
      s'.queue.length + pending c s'.newCounters fd.Units + 1 =
        s.queue.length + pending c s.newCounters fd.Units := by
  have hidx : idx < fd.Units.length := hinv.qlt idx (by simp [hq])
  have hidx2 : idx < s.newCounters.length := by rw [hinv.len]; exact hidx
  obtain ⟨v, hv⟩ : ∃ v, s.newCounters[idx]? = some v := ⟨_, List.getElem?_eq_getElem hidx2⟩
  obtain ⟨unit, hu⟩ : ∃ u, fd.Units[idx]? = some u := ⟨_, List.getElem?_eq_getElem hidx⟩
  refine ⟨_, loopBody_cons hq hv hu, ?_⟩
  have hreach : IdxReached c fd counters idx := hinv.qreach idx (by simp [hq])
  by_cases h1 : v = 1
  · subst h1
    simp only [if_true]
    refine ⟨⟨hinv.len, hinv.bit, ?_, ?_, hinv.mreach, ?_, ?_⟩, ?_⟩
    · intro q hq2
      exact hinv.qlt q (by simp [hq, hq2])
    · intro q hq2
      exact hinv.qreach q (by simp [hq, hq2])
    · intro j hj
      rcases hinv.seeds j hj with h | h
      · exact Or.inl h
      · rw [hq, List.mem_cons] at h
        rcases h with h | h
        · subst h
          exact Or.inl hv
        · exact Or.inr h
    · intro a b ha hab
      rcases hinv.closed a b ha hab with h | h
      · exact Or.inl h
      · rw [hq, List.mem_cons] at h
        rcases h with h | h
        · subst h
          exact Or.inl hv
        · exact Or.inr h
    · simp only [hq, List.length_cons]
      omega
  · simp only [h1, if_false]
    have hmark : ∀ j, (s.newCounters.set idx 1)[j]? = some 1 ↔ j = idx ∨ s.newCounters[j]? = some 1 :=
      fun j => marked_set s.newCounters idx j hidx2
    refine ⟨⟨?_, ?_, ?_, ?_, ?_, ?_, ?_⟩, ?_⟩
    · simpa using hinv.len
    · intro i w hw
      rw [List.getElem?_set] at hw
      split at hw
      · simp only [hidx2, if_true, Option.some.injEq] at hw
        exact Or.inr hw.symm
      · exact hinv.bit i w hw
    · intro q hq2
      simp only [List.mem_append, List.mem_map] at hq2
      rcases hq2 with h | ⟨u, _, rfl⟩
      · exact hinv.qlt q (by simp [hq, h])
      · exact lookupIdx_lt fd.Units u (by omega)
    · intro q hq2
      simp only [List.mem_append, List.mem_map] at hq2
      rcases hq2 with h | ⟨u, hmem, rfl⟩
      · exact hinv.qreach q (by simp [hq, h])
      · obtain ⟨j, hj, hji⟩ := hreach
        exact ⟨j, hj, hji.tail ⟨unit, hu, u, hmem, rfl⟩⟩
    · intro i hi
      rcases (hmark i).1 hi with h | h
      · subst h
        exact hreach
      · exact hinv.mreach i h
    · intro j hj
      rcases hinv.seeds j hj with h | h
      · exact Or.inl ((hmark j).2 (Or.inr h))
      · rw [hq, List.mem_cons] at h
        rcases h with h | h
        · exact Or.inl ((hmark j).2 (Or.inl h))
        · exact Or.inr (by simp [h])
    · intro a b ha hab
      rcases (hmark a).1 ha with h | h
      · subst h
        obtain ⟨unit2, hu2, u, hmem, hb⟩ := hab
        rw [hu] at hu2
        cases hu2
        right
        simp only [List.mem_append, List.mem_map]
        exact Or.inr ⟨u, hmem, hb.symm⟩
      · rcases hinv.closed a b h hab with h2 | h2
        · exact Or.inl ((hmark b).2 (Or.inr h2))
        · rw [hq, List.mem_cons] at h2
          rcases h2 with h2 | h2
          · exact Or.inl ((hmark b).2 (Or.inl h2))
          · exact Or.inr (by simp [h2])
    · have hp := pending_set c s.newCounters fd.Units idx v unit hv h1 hu
      simp only [hq, List.length_cons, List.length_append, List.length_map]
      omega

theorem inv_terminates {c : restorer} {fd : FuncDesc} {counters : List Nat} :
    ∀ (n : Nat) (s : LoopState), Inv c fd counters s →
      s.queue.length + pending c s.newCounters fd.Units ≤ n →
      ∃ out, iterLoop c fd (buildCounterIdx fd.Units 0 (fun _ => none)) (n + 1) s = .exit out ∧
        Inv c fd counters ⟨[], out⟩ := by
  intro n
  induction n with
  | zero =>
    intro s hinv hle
    have hq : s.queue = [] := List.length_eq_zero.1 (by omega)
    refine ⟨s.newCounters, ?_, ?_⟩
    · simp [iterLoop, loopBody_exit_iff.2 ⟨hq, rfl⟩]
    · rw [← hq]
      exact hinv
  | succ n ih =>
    intro s hinv hle
    cases hq : s.queue with
    | nil =>
      refine ⟨s.newCounters, ?_, ?_⟩
      · simp [iterLoop, loopBody_exit_iff.2 ⟨hq, rfl⟩]
      · rw [← hq]
        exact hinv
    | cons idx queue =>
      obtain ⟨s2, hstep, hinv2, hdec⟩ := inv_next hinv hq
      obtain ⟨out, hout, hfin⟩ := ih s2 hinv2 (by omega)
      refine ⟨out, ?_, hfin⟩
      rw [iterLoop, hstep]
      exact hout

/-! ## What `recoverCounters` returns -/

theorem recoverCounters_run (c : restorer) (fd : FuncDesc) (counters : List Nat)
    (hlen : counters.length = fd.Units.length) :
    ∃ out, iterLoop c fd (buildCounterIdx fd.Units 0 (fun _ => none))
        ((seedQueue counters 0).length + (fd.Units.map (fun u => (implied c u).length)).sum + 1)
        ⟨seedQueue counters 0, List.replicate fd.Units.length 0⟩ = .exit out ∧
      recoverCounters c counters fd = some out ∧ Inv c fd counters ⟨[], out⟩ := by
  obtain ⟨out, hout, hinv⟩ := inv_terminates
    ((seedQueue counters 0).length + (fd.Units.map (fun u => (implied c u).length)).sum)
    ⟨seedQueue counters 0, List.replicate fd.Units.length 0⟩ (inv_init c fd counters hlen)
    (by simp [pending_replicate])
  exact ⟨out, hout, runLoop_of_iterLoop _ _ _ hout, hinv⟩

theorem inv_final_marked {c : restorer} {fd : FuncDesc} {counters out : List Nat}
    (hinv : Inv c fd counters ⟨[], out⟩) (i : Nat) :
    out[i]? = some 1 ↔ IdxReached c fd counters i := by
  constructor
  · exact hinv.mreach i
  · rintro ⟨j, hj, hji⟩
    induction hji with
    | refl =>
      rcases hinv.seeds j hj with h | h
      · exact h
      · simp at h
    | tail _ hab ih =>
      rcases hinv.closed _ _ ih hab with h | h
      · exact h
      · simp at h

theorem inv_final_unmarked {c : restorer} {fd : FuncDesc} {counters out : List Nat}
    (hinv : Inv c fd counters ⟨[], out⟩) (i : Nat) (hi : i < fd.Units.length) :
    out[i]? = some 0 ↔ ¬ IdxReached c fd counters i := by
  have hlt : i < out.length := by
    have := hinv.len
    simp only at this
    omega
  have hget : out[i]? = some out[i] := List.getElem?_eq_getElem hlt
  rw [← inv_final_marked hinv i]
  rcases hinv.bit i out[i] hget with h | h
  · rw [hget, h]
    simp
  · rw [hget, h]
    simp

/-- The characterisation of the result by positions: with arrays of equal
length the call returns, and position `i` is `1` when some seed position leads to
it through the indices the loop enqueues, and `0` otherwise. -/
theorem recoverCounters_spec (c : restorer) (fd : FuncDesc) (counters : List Nat)
    (hlen : counters.length = fd.Units.length) :
    ∃ out, recoverCounters c counters fd = some out ∧ out.length = fd.Units.length ∧
      (∀ i : Nat, out[i]? = some 1 ↔ IdxReached c fd counters i) ∧
      (∀ i : Nat, i < fd.Units.length → (out[i]? = some 0 ↔ ¬ IdxReached c fd counters i)) := by
  obtain ⟨out, _, hout, hinv⟩ := recoverCounters_run c fd counters hlen
  exact ⟨out, hout, hinv.len, inv_final_marked hinv, inv_final_unmarked hinv⟩

theorem mem_implied {c : restorer} {a b : CoverableUnit} : b ∈ implied c a ↔ Implies c a b := by
  unfold implied Implies
  cases h : c.upstream a <;> simp

theorem isSeed_lt {counters : List Nat} {j : Nat} (h : IsSeed counters j) : j < counters.length := by
  obtain ⟨v, hv, _⟩ := h
  exact (List.getElem?_eq_some.1 hv).1

/-- In a closed graph an index edge is a graph edge between the units at its ends. -/
theorem idxEdge_implies {c : restorer} {fd : FuncDesc} (hclosed : Closed c fd) {a b : Nat}
    (h : IdxEdge c fd a b) :
    ∃ ua ub, fd.Units[a]? = some ua ∧ fd.Units[b]? = some ub ∧ Implies c ua ub := by
  obtain ⟨ua, hua, u, hmem, hb⟩ := h
  have himp : Implies c ua u := mem_implied.1 hmem
  have hul : u ∈ fd.Units := hclosed ua (List.mem_iff_getElem?.2 ⟨a, hua⟩) u himp
  exact ⟨ua, u, hua, hb ▸ lookupIdx_mem fd.Units u hul, himp⟩

/-- In a closed graph, a position reached from the seed position `j` is `j` or
holds a unit reachable from the unit at `j`. -/
theorem idxReach_reachable {c : restorer} {fd : FuncDesc} (hclosed : Closed c fd) {j i : Nat}
    {seed unit : CoverableUnit} (hj : fd.Units[j]? = some seed)
    (h : Relation.ReflTransGen (IdxEdge c fd) j i) (hi : fd.Units[i]? = some unit) :
    i = j ∨ Reachable c seed unit := by
  induction h generalizing unit with
  | refl => exact Or.inl rfl
  | tail _ hab ih =>
    obtain ⟨ua, ub, hua, hub, himp⟩ := idxEdge_implies hclosed hab
    rw [hi] at hub
    cases hub
    rcases ih hua with h | h
    · subst h
      rw [hj] at hua
      cases hua
      exact Or.inr (Relation.TransGen.single himp)
    · exact Or.inr (Relation.TransGen.tail h himp)

/-- A chain through listed units is followed by the loop: the index map sends
each unit of the chain to a position enqueued from the position before. -/
theorem reachableListed_idxReach {c : restorer} {fd : FuncDesc} {a : Nat} {x y : CoverableUnit}
    (hx : fd.Units[a]? = some x) (h : ReachableListed c fd x y) :
    y ∈ fd.Units ∧ Relation.ReflTransGen (IdxEdge c fd) a
      (lookupIdx (buildCounterIdx fd.Units 0 (fun _ => none)) y) := by
  induction h with
  | single hxy =>
    exact ⟨hxy.2, Relation.ReflTransGen.single ⟨x, hx, _, mem_implied.2 hxy.1, rfl⟩⟩
  | tail _ hyz ih =>
    exact ⟨hyz.2, ih.2.tail ⟨_, lookupIdx_mem fd.Units _ ih.1, _, mem_implied.2 hyz.1, rfl⟩⟩

theorem reachable_listed {c : restorer} {fd : FuncDesc} (hclosed : Closed c fd)
    {x y : CoverableUnit} (hx : x ∈ fd.Units) (h : Reachable c x y) :
    ReachableListed c fd x y := by
  have key : ReachableListed c fd x y ∧ y ∈ fd.Units := by
    induction h with
    | single hxy =>
      exact ⟨Relation.TransGen.single ⟨hxy, hclosed x hx _ hxy⟩, hclosed x hx _ hxy⟩
    | tail _ hyz ih =>
      exact ⟨Relation.TransGen.tail ih.1 ⟨hyz, hclosed _ ih.2 _ hyz⟩, hclosed _ ih.2 _ hyz⟩
  exact key.1

theorem wantGraph_closed : Closed wantGraph wantFd := by
  intro u _ p hp
  obtain ⟨units, hu, hmem⟩ := hp
  simp only [wantGraph] at hu
  split at hu
  · cases hu
    simp at hmem
    simp [hmem, wantFd]
  · split at hu
    · cases hu
      simp at hmem
      simp [hmem, wantFd]
    · simp at hu

/-! ## Claims -/

/-- C1: for pairwise distinct units, a graph closed over the list and a counter
array of the same length, `recoverCounters` returns an array whose entry at
position `i` is `1` exactly when position `i` has a nonzero input counter or its
unit is reachable through graph edges from the unit of a nonzero-input position,
and `0` exactly when not. -/
theorem recoverCounters_reachability (c : restorer) (fd : FuncDesc) (counters : List Nat)
    (hnodup : fd.Units.Nodup) (hclosed : Closed c fd)
    (hlen : counters.length = fd.Units.length) :
    ∃ out, recoverCounters c counters fd = some out ∧
      ∀ (i : Nat) (unit : CoverableUnit), fd.Units[i]? = some unit →
        (out[i]? = some 1 ↔ (IsSeed counters i ∨
          ∃ j seed, IsSeed counters j ∧ fd.Units[j]? = some seed ∧ Reachable c seed unit)) ∧
        (out[i]? = some 0 ↔ ¬ (IsSeed counters i ∨
          ∃ j seed, IsSeed counters j ∧ fd.Units[j]? = some seed ∧ Reachable c seed unit)) := by
  obtain ⟨out, hout, _, h1, h0⟩ := recoverCounters_spec c fd counters hlen
  refine ⟨out, hout, ?_⟩
  intro i unit hi
  have hilt : i < fd.Units.length := (List.getElem?_eq_some.1 hi).1
  have key : IdxReached c fd counters i ↔ (IsSeed counters i ∨
      ∃ j seed, IsSeed counters j ∧ fd.Units[j]? = some seed ∧ Reachable c seed unit) := by
    constructor
    · rintro ⟨j, hj, hji⟩
      have hjlt : j < fd.Units.length := hlen ▸ isSeed_lt hj
      rcases idxReach_reachable hclosed (List.getElem?_eq_getElem hjlt) hji hi with h | h
      · subst h
        exact Or.inl hj
      · exact Or.inr ⟨j, _, hj, List.getElem?_eq_getElem hjlt, h⟩
    · rintro (h | ⟨j, seed, hj, hseed, hr⟩)
      · exact ⟨i, h, Relation.ReflTransGen.refl⟩
      · have hl := reachable_listed hclosed (List.mem_iff_getElem?.2 ⟨j, hseed⟩) hr
        have hidx := (reachableListed_idxReach hseed hl).2
        rw [lookupIdx_nodup fd.Units unit i hnodup hi] at hidx
        exact ⟨j, hj, hidx⟩
  exact ⟨(h1 i).trans key, (h0 i hilt).trans (not_congr key)⟩

/-- Witness of C1 on the fixture of the test: three distinct units, the closed
graph the test expects, counters `[0, 1, 0]`. -/
theorem recoverCounters_reachability_witness :
    wantFd.Units.Nodup ∧ Closed wantGraph wantFd ∧ [0, 1, 0].length = wantFd.Units.length ∧
    ∃ out, recoverCounters wantGraph [0, 1, 0] wantFd = some out ∧
      ∀ (i : Nat) (unit : CoverableUnit), wantFd.Units[i]? = some unit →
        (out[i]? = some 1 ↔ (IsSeed [0, 1, 0] i ∨
          ∃ j seed, IsSeed [0, 1, 0] j ∧ wantFd.Units[j]? = some seed ∧
            Reachable wantGraph seed unit)) ∧
        (out[i]? = some 0 ↔ ¬ (IsSeed [0, 1, 0] i ∨
          ∃ j seed, IsSeed [0, 1, 0] j ∧ wantFd.Units[j]? = some seed ∧
            Reachable wantGraph seed unit)) :=
  ⟨by decide, wantGraph_closed, rfl,
    recoverCounters_reachability wantGraph wantFd [0, 1, 0] (by decide) wantGraph_closed rfl⟩

/-- C2, as stated, fails: `leadUnit` and `bodyUnit` are listed and distinct, the
graph has the chain `leadUnit → strayUnit → bodyUnit`, the output at `leadUnit`
is `1` and the output at `bodyUnit` is `0`. -/
theorem soundness_unlisted_chain_counterexample :
    pairFd.Units.Nodup ∧ [1, 0].length = pairFd.Units.length ∧
    pairFd.Units[0]? = some leadUnit ∧ pairFd.Units[1]? = some bodyUnit ∧
    Reachable strayChainGraph leadUnit bodyUnit ∧
    recoverCounters strayChainGraph [1, 0] pairFd = some [1, 0] := by
  refine ⟨by decide, rfl, rfl, rfl, ?_, ?_⟩
  · have h1 : Implies strayChainGraph leadUnit strayUnit := ⟨[strayUnit], by decide, by simp⟩
    have h2 : Implies strayChainGraph strayUnit bodyUnit := ⟨[bodyUnit], by decide, by simp⟩
    exact Relation.TransGen.tail (Relation.TransGen.single h1) h2
  · exact runLoop_of_iterLoop 3 _ _ (by decide)

/-- C2, amended: for pairwise distinct units and a counter array of the same
length, if the graph has a direct edge or a chain of edges from the listed unit
`A` to the listed unit `B` passing only through listed units, and the output at
the position of `A` is `1`, then the output at the position of `B` is `1`. -/
theorem recoverCounters_soundness_listed (c : restorer) (fd : FuncDesc) (counters : List Nat)
    (a b : Nat) (A B : CoverableUnit) (hnodup : fd.Units.Nodup)
    (hlen : counters.length = fd.Units.length)
    (hA : fd.Units[a]? = some A) (hB : fd.Units[b]? = some B)
    (hchain : ReachableListed c fd A B) :
    ∃ out, recoverCounters c counters fd = some out ∧
      (out[a]? = some 1 → out[b]? = some 1) := by
  obtain ⟨out, hout, _, h1, _⟩ := recoverCounters_spec c fd counters hlen
  refine ⟨out, hout, ?_⟩
  intro ha
  obtain ⟨j, hj, hja⟩ := (h1 a).1 ha
  have hab := (reachableListed_idxReach hA hchain).2
  rw [lookupIdx_nodup fd.Units B b hnodup hB] at hab
  exact (h1 b).2 ⟨j, hj, hja.trans hab⟩

/-- Witness of amended C2: the edge `bodyUnit → leadUnit` of the fixture. -/
theorem recoverCounters_soundness_listed_witness :
    wantFd.Units.Nodup ∧ [0, 1, 0].length = wantFd.Units.length ∧
    wantFd.Units[1]? = some bodyUnit ∧ wantFd.Units[0]? = some leadUnit ∧
    ReachableListed wantGraph wantFd bodyUnit leadUnit ∧
    ∃ out, recoverCounters wantGraph [0, 1, 0] wantFd = some out ∧
      (out[1]? = some 1 → out[0]? = some 1) :=
  have hchain : ReachableListed wantGraph wantFd bodyUnit leadUnit :=
    Relation.TransGen.single ⟨⟨[leadUnit], by decide, by simp⟩, by decide⟩
  ⟨by decide, rfl, rfl, rfl, hchain,
    recoverCounters_soundness_listed wantGraph wantFd [0, 1, 0] 1 0 bodyUnit leadUnit
      (by decide) rfl rfl rfl hchain⟩

/-- With a graph closed over the list, a position with a zero input counter whose
unit no seed unit reaches stays `0`; the units need not be distinct. -/
theorem recoverCounters_closed_no_false_positive (c : restorer) (fd : FuncDesc)
    (counters : List Nat) (i : Nat) (unit : CoverableUnit) (hclosed : Closed c fd)
    (hlen : counters.length = fd.Units.length) (hi : fd.Units[i]? = some unit)
    (hzero : ¬ IsSeed counters i)
    (hfar : ∀ j seed, IsSeed counters j → fd.Units[j]? = some seed → ¬ Reachable c seed unit) :
    ∃ out, recoverCounters c counters fd = some out ∧ out[i]? = some 0 := by
  obtain ⟨out, hout, _, _, h0⟩ := recoverCounters_spec c fd counters hlen
  refine ⟨out, hout, (h0 i (List.getElem?_eq_some.1 hi).1).2 ?_⟩
  rintro ⟨j, hj, hji⟩
  have hjlt : j < fd.Units.length := hlen ▸ isSeed_lt hj
  rcases idxReach_reachable hclosed (List.getElem?_eq_getElem hjlt) hji hi with h | h
  · subst h
    exact hzero hj
  · exact hfar j _ hj (List.getElem?_eq_getElem hjlt) h

/-- C3 on the failing input: with units `[leadUnit, bodyUnit]`, the single edge
`bodyUnit → strayUnit` and counters `[0, 1]`, position `0` has a zero counter and
its unit is reachable from no seed unit, yet `recoverCounters` returns `[1, 1]`:
the read of the absent key `strayUnit` in `counterIdx` yields index `0`. -/
theorem recoverCounters_absent_unit_marks_zero :
    [0, 1].length = pairFd.Units.length ∧ pairFd.Units[0]? = some leadUnit ∧
    ¬ IsSeed [0, 1] 0 ∧
    (∀ j seed, IsSeed [0, 1] j → pairFd.Units[j]? = some seed →
      ¬ Reachable strayEdgeGraph seed leadUnit) ∧
    recoverCounters strayEdgeGraph [0, 1] pairFd = some [1, 1] := by
  refine ⟨rfl, rfl, ?_, ?_, ?_⟩
  · rintro ⟨v, hv, hne⟩
    simp at hv
    exact hne hv.symm
  · intro j seed _ _ hr
    have hall : ∀ a b, Reachable strayEdgeGraph a b → b = strayUnit := by
      intro a b hab
      have hedge : ∀ x y, Implies strayEdgeGraph x y → y = strayUnit := by
        rintro x y ⟨units, hu, hmem⟩
        simp only [strayEdgeGraph] at hu
        split at hu
        · cases hu
          simpa using hmem
        · simp at hu
      cases hab with
      | single h => exact hedge _ _ h
      | tail _ h => exact hedge _ _ h
    have := hall _ _ hr
    revert this
    decide
  · exact runLoop_of_iterLoop 4 _ _ (by decide)

/-- C4: for every unit list, graph and counter array of the same length, a
position whose input counter is nonzero has output `1`. -/
theorem recoverCounters_monotone (c : restorer) (fd : FuncDesc) (counters : List Nat) (i : Nat)
    (hlen : counters.length = fd.Units.length) (hseed : IsSeed counters i) :
    ∃ out, recoverCounters c counters fd = some out ∧ out[i]? = some 1 := by
  obtain ⟨out, hout, _, h1, _⟩ := recoverCounters_spec c fd counters hlen
  exact ⟨out, hout, (h1 i).2 ⟨i, hseed, Relation.ReflTransGen.refl⟩⟩

/-- Witness of C4: counter `7` at position `2` of the fixture, in a graph with an
edge that leaves the list. -/
theorem recoverCounters_monotone_witness :
    [0, 0, 7].length = wantFd.Units.length ∧ IsSeed [0, 0, 7] 2 ∧
    ∃ out, recoverCounters strayEdgeGraph [0, 0, 7] wantFd = some out ∧ out[2]? = some 1 :=
  ⟨rfl, ⟨7, rfl, by decide⟩,
    recoverCounters_monotone strayEdgeGraph wantFd [0, 0, 7] 2 rfl ⟨7, rfl, by decide⟩⟩

/-- C5: for every unit list, graph and counter array of the same length, the
call returns an array of that length whose entries are all `0` or `1`. -/
theorem recoverCounters_shape (c : restorer) (fd : FuncDesc) (counters : List Nat)
    (hlen : counters.length = fd.Units.length) :
    ∃ out, recoverCounters c counters fd = some out ∧ out.length = counters.length ∧
      out.length = fd.Units.length ∧ ∀ v ∈ out, v = 0 ∨ v = 1 := by
  obtain ⟨out, _, hout, hinv⟩ := recoverCounters_run c fd counters hlen
  refine ⟨out, hout, hlen ▸ hinv.len, hinv.len, ?_⟩
  intro v hv
  obtain ⟨i, hi⟩ := List.mem_iff_getElem?.1 hv
  exact hinv.bit i v hi

/-- Witness of C5: the fixture with counters `[3, 0, 9]`. -/
theorem recoverCounters_shape_witness :
    [3, 0, 9].length = wantFd.Units.length ∧
    ∃ out, recoverCounters wantGraph [3, 0, 9] wantFd = some out ∧
      out.length = [3, 0, 9].length ∧ out.length = wantFd.Units.length ∧
      ∀ v ∈ out, v = 0 ∨ v = 1 :=
  ⟨rfl, recoverCounters_shape wantGraph wantFd [3, 0, 9] rfl⟩

/-- C6: for every unit list, every graph (cycles, duplicate edges and fan-in
included) and every counter array of the same length, the work-queue loop leaves
through its exit after at most `s + e` rounds, `s` the number of seeds and `e` the
number of edges stored for the listed positions, because each position is marked
once and its edges are enqueued only then; the array at the exit is what
`recoverCounters` returns. -/
theorem recoverCounters_terminates (c : restorer) (fd : FuncDesc) (counters : List Nat)
    (hlen : counters.length = fd.Units.length) :
    ∃ out, iterLoop c fd (buildCounterIdx fd.Units 0 (fun _ => none))
        ((seedQueue counters 0).length + (fd.Units.map (fun u => (implied c u).length)).sum + 1)
        ⟨seedQueue counters 0, List.replicate fd.Units.length 0⟩ = .exit out ∧
      (seedQueue counters 0).length ≤ counters.length ∧
      recoverCounters c counters fd = some out := by
  obtain ⟨out, hiter, hout, _⟩ := recoverCounters_run c fd counters hlen
  exact ⟨out, hiter, seedQueue_length_le counters 0, hout⟩

/-- Witness of C6: a graph with a cycle and a duplicate edge. -/
theorem recoverCounters_terminates_witness :
    [0, 5].length = pairFd.Units.length ∧
    ∃ out, iterLoop cycleGraph pairFd (buildCounterIdx pairFd.Units 0 (fun _ => none))
        ((seedQueue [0, 5] 0).length +
          (pairFd.Units.map (fun u => (implied cycleGraph u).length)).sum + 1)
        ⟨seedQueue [0, 5] 0, List.replicate pairFd.Units.length 0⟩ = .exit out ∧
      (seedQueue [0, 5] 0).length ≤ [0, 5].length ∧
      recoverCounters cycleGraph [0, 5] pairFd = some out :=
  ⟨rfl, recoverCounters_terminates cycleGraph pairFd [0, 5] rfl⟩

/-- C7: for every unit list, graph and counter array of the same length,
`recoverCounters` applied to the array it returned returns that array. -/
theorem recoverCounters_idempotent (c : restorer) (fd : FuncDesc) (counters : List Nat)
    (hlen : counters.length = fd.Units.length) :
    ∃ out, recoverCounters c counters fd = some out ∧ recoverCounters c out fd = some out := by
  obtain ⟨out, hout, hl, h1, h0⟩ := recoverCounters_spec c fd counters hlen
  obtain ⟨out2, hout2, hl2, g1, g0⟩ := recoverCounters_spec c fd out hl
  refine ⟨out, hout, ?_⟩
  rw [hout2]
  congr 1
  have key : ∀ i, IdxReached c fd out i ↔ IdxReached c fd counters i := by
    intro i
    constructor
    · rintro ⟨j, ⟨v, hv, hne⟩, hji⟩
      have hjlt : j < fd.Units.length := hl ▸ (List.getElem?_eq_some.1 hv).1
      have hreach : IdxReached c fd counters j := by
        by_contra hnot
        have hz := (h0 j hjlt).2 hnot
        rw [hv] at hz
        exact hne (by simpa using hz)
      obtain ⟨k, hk, hkj⟩ := hreach
      exact ⟨k, hk, hkj.trans hji⟩
    · intro h
      exact ⟨i, ⟨1, (h1 i).2 h, by decide⟩, Relation.ReflTransGen.refl⟩
  apply List.ext_getElem?
  intro i
  by_cases hi : i < fd.Units.length
  · by_cases hr : IdxReached c fd counters i
    · rw [(g1 i).2 ((key i).2 hr), (h1 i).2 hr]
    · rw [(g0 i hi).2 (fun h => hr ((key i).1 h)), (h0 i hi).2 hr]
  · rw [List.getElem?_eq_none (by omega), List.getElem?_eq_none (by omega)]

/-- Witness of C7: the cyclic graph with counters `[0, 5]`. -/
theorem recoverCounters_idempotent_witness :
    [0, 5].length = pairFd.Units.length ∧
    ∃ out, recoverCounters cycleGraph [0, 5] pairFd = some out ∧
      recoverCounters cycleGraph out pairFd = some out :=
  ⟨rfl, recoverCounters_idempotent cycleGraph pairFd [0, 5] rfl⟩

/-- C8, as stated, fails on the fixture of the test: `leadUnit` has no entry in
`upstream` and a zero input counter, and its output is `1`, since `bodyUnit`
implies it. -/
theorem no_entry_zero_counterexample :
    [0, 1, 0].length = wantFd.Units.length ∧ wantFd.Units[0]? = some leadUnit ∧
    [0, 1, 0][0]? = some 0 ∧ wantGraph.upstream leadUnit = none ∧
    recoverCounters wantGraph [0, 1, 0] wantFd = some [1, 1, 0] :=
  ⟨rfl, rfl, rfl, by decide, runLoop_of_iterLoop 4 _ _ (by decide)⟩

/-- C8, amended: for every unit list, every graph closed over the list and every
counter array of the same length, a position whose input counter is zero and
whose unit is implied by no listed unit (no listed unit has it in its `upstream`
entry) has output `0`. -/
theorem recoverCounters_unimplied_zero (c : restorer) (fd : FuncDesc) (counters : List Nat)
    (i : Nat) (unit : CoverableUnit) (hclosed : Closed c fd)
    (hlen : counters.length = fd.Units.length) (hi : fd.Units[i]? = some unit)
    (hzero : counters[i]? = some 0) (hno : ∀ u ∈ fd.Units, ¬ Implies c u unit) :
    ∃ out, recoverCounters c counters fd = some out ∧ out[i]? = some 0 := by
  obtain ⟨out, hout, _, _, h0⟩ := recoverCounters_spec c fd counters hlen
  refine ⟨out, hout, (h0 i (List.getElem?_eq_some.1 hi).1).2 ?_⟩
  rintro ⟨j, hj, hji⟩
  cases hji with
  | refl =>
    obtain ⟨v, hv, hne⟩ := hj
    rw [hzero] at hv
    exact hne (by simpa using hv.symm)
  | tail _ hab =>
    obtain ⟨ua, ub, hua, hub, himp⟩ := idxEdge_implies hclosed hab
    rw [hi] at hub
    cases hub
    exact hno ua (List.mem_iff_getElem?.2 ⟨_, hua⟩) himp

/-- Witness of amended C8: the trailing unit of the fixture, implied by no unit,
with only the if-body unit seeded. -/
theorem recoverCounters_unimplied_zero_witness :
    Closed wantGraph wantFd ∧ [0, 1, 0].length = wantFd.Units.length ∧
    wantFd.Units[2]? = some trailUnit ∧ [0, 1, 0][2]? = some 0 ∧
    (∀ u ∈ wantFd.Units, ¬ Implies wantGraph u trailUnit) ∧
    ∃ out, recoverCounters wantGraph [0, 1, 0] wantFd = some out ∧ out[2]? = some 0 :=
  have hno : ∀ u ∈ wantFd.Units, ¬ Implies wantGraph u trailUnit := by
    rintro u _ ⟨units, hu, hmem⟩
    simp only [wantGraph] at hu
    split at hu
    · cases hu
      revert hmem
      decide
    · split at hu
      · cases hu
        revert hmem
        decide
      · simp at hu
  ⟨wantGraph_closed, rfl, rfl, rfl, hno,
    recoverCounters_unimplied_zero wantGraph wantFd [0, 1, 0] 2 trailUnit wantGraph_closed
      rfl rfl rfl hno⟩

/-! ## Unfolding the partitioning -/

theorem generateLoop_found {c : restorer} {pos blockEnd : Nat} {list : List Stmt} {ext : Bool}
    {units : List CoverableUnit} {last end_ : Nat} {stmt : Stmt}
    (h : scanBasicBlock list 0 blockEnd = (last, end_, some stmt)) :
    generateLoop c pos blockEnd list ext units =
      match list.drop last with
      | [] => closeRegion (Walk c stmt) pos end_ last (getCoverableUnits (Walk c stmt) stmt) units
      | next :: _ =>
        generateLoop
          (closeRegion (Walk c stmt) pos end_ last (getCoverableUnits (Walk c stmt) stmt) units).2
          next.Pos blockEnd (list.drop last) false
          (closeRegion (Walk c stmt) pos end_ last (getCoverableUnits (Walk c stmt) stmt) units).1 := by
  rw [generateLoop]
  split
  · rename_i heq
    rw [h] at heq
    cases heq
    split <;> rename_i hd <;> simp [hd]
  · rename_i heq
    rw [h] at heq
    cases heq

theorem generateLoop_none {c : restorer} {pos blockEnd : Nat} {list : List Stmt} {ext : Bool}
    {units : List CoverableUnit} {last end_ : Nat}
    (h : scanBasicBlock list 0 blockEnd = (last, end_, none)) :
    generateLoop c pos blockEnd list ext units =
      match list.drop last with
      | [] => closeRegion c pos (if ext then blockEnd else end_) last [] units
      | next :: _ =>
        generateLoop (closeRegion c pos (if ext then blockEnd else end_) last [] units).2
          next.Pos blockEnd (list.drop last) ext
          (closeRegion c pos (if ext then blockEnd else end_) last [] units).1 := by
  rw [generateLoop]
  split
  · rename_i heq
    rw [h] at heq
    cases heq
  · rename_i heq
    rw [h] at heq
    cases heq
    cases ext
    · simp only [Bool.false_eq_true, if_false]
      split <;> rename_i hd <;> simp [hd]
    · simp only [if_true]
      split <;> rename_i hd <;> simp [hd]

theorem scanBasicBlock_plain : ∀ (ps : List (Nat × Nat)) (last end_ : Nat),
    scanBasicBlock (ps.map (fun p => Stmt.Other p.1 p.2)) last end_ =
      (last + ps.length, ((ps.map Prod.snd).getLast?).getD end_, none)
  | [], last, end_ => by simp [scanBasicBlock]
  | p :: ps, last, end_ => by
    rw [List.map_cons, scanBasicBlock, if_neg (by simp [endsBasicSourceBlock]),
      scanBasicBlock_plain ps]
    simp only [List.length_cons, Prod.mk.injEq, and_true, statementBoundary, List.map_cons,
      List.getLast?_cons, Option.getD_some]
    omega

theorem scanBasicBlock_prefix (stmt : Stmt) (rest : List Stmt)
    (hs : endsBasicSourceBlock stmt = true) : ∀ (ps : List (Nat × Nat)) (last end_ : Nat),
    scanBasicBlock (ps.map (fun p => Stmt.Other p.1 p.2) ++ stmt :: rest) last end_ =
      (last + ps.length + 1, statementBoundary stmt, some stmt)
  | [], last, end_ => by simp [scanBasicBlock, hs]
  | p :: ps, last, end_ => by
    rw [List.map_cons, List.cons_append, scanBasicBlock, if_neg (by simp [endsBasicSourceBlock]),
      scanBasicBlock_prefix stmt rest hs ps]
    simp only [List.length_cons, Prod.mk.injEq, and_true]
    omega

theorem plain_length (ps : List (Nat × Nat)) : (plain ps).length = ps.length := by
  simp [plain]

/-- The trailing region: a run of plain statements up to the end of the list is
closed at the end of its last statement, or at the block end when the block is
still unbroken. -/
theorem generateLoop_plain (c : restorer) (pos blockEnd : Nat) (p : Nat × Nat)
    (ps : List (Nat × Nat)) (ext : Bool) (units : List CoverableUnit) :
    generateLoop c pos blockEnd (plain (p :: ps)) ext units =
      closeRegion c pos (if ext then blockEnd else lastEnd p ps) (ps.length + 1) [] units := by
  have hscan := scanBasicBlock_plain (p :: ps) 0 blockEnd
  have hlast : (((p :: ps).map Prod.snd).getLast?).getD blockEnd = lastEnd p ps := by
    simp [lastEnd, List.getLast?_cons]
  rw [hlast] at hscan
  have hd : List.drop (0 + (p :: ps).length) (List.map (fun p => Stmt.Other p.1 p.2) (p :: ps)) =
      [] := List.drop_eq_nil_of_le (by simp)
  rw [plain, generateLoop_none hscan, hd]
  simp

/-- A block of plain statements yields one unit from its opening brace to just
past its closing brace and adds no edge. -/
theorem VisitBlockStmt_plain (c : restorer) (lb rb : Nat) (p : Nat × Nat) (ps : List (Nat × Nat))
    (h : lb ≠ rb + 1) :
    VisitBlockStmt c lb rb (plain (p :: ps)) =
      { c with coverableUnits := fun q =>
          if q = lb then some [createCoverableUnit c lb (rb + 1) (ps.length + 1)]
          else c.coverableUnits q } := by
  rw [VisitBlockStmt, generateCoverableUnits, if_neg (by simp [plain]), generateLoop_plain]
  simp [closeRegion, h]

theorem createCoverableUnit_eq (c : restorer) (start end_ numStmt : Nat) :
    createCoverableUnit c start end_ numStmt = spanUnit c.fset start end_ numStmt := rfl

/-- The state after the visit of a function body of the shape of the test, from
a state with no edges: the units of the two blocks and the two edges. -/
theorem VisitBlockStmt_ifShape (c : restorer) (lb rb ifPos ilb irb : Nat)
    (pre : List (Nat × Nat)) (b : Nat × Nat) (bs : List (Nat × Nat)) (t : Nat × Nat)
    (ts : List (Nat × Nat)) (hup : c.upstream = fun _ => none)
    (hlead : lb ≠ ilb) (hbody : ilb ≠ irb + 1) (htrail : t.1 ≠ lastEnd t ts)
    (hne : spanUnit c.fset t.1 (lastEnd t ts) (ts.length + 1) ≠
      spanUnit c.fset ilb (irb + 1) (bs.length + 1)) :
    VisitBlockStmt c lb rb (ifShape pre ifPos ilb irb (b :: bs) (t :: ts)) =
      { fset := c.fset
        coverableUnits := fun q =>
          if q = lb then
            some [spanUnit c.fset lb ilb (pre.length + 1),
              spanUnit c.fset t.1 (lastEnd t ts) (ts.length + 1)]
          else if q = ilb then some [spanUnit c.fset ilb (irb + 1) (bs.length + 1)]
          else c.coverableUnits q
        upstream := fun u =>
          if u = spanUnit c.fset ilb (irb + 1) (bs.length + 1) ∨
              u = spanUnit c.fset t.1 (lastEnd t ts) (ts.length + 1) then
            some [spanUnit c.fset lb ilb (pre.length + 1)]
          else none } := by
  have hscan := scanBasicBlock_prefix (Stmt.IfStmt ifPos ilb irb (plain (b :: bs)) none)
    (plain (t :: ts)) rfl pre 0 (rb + 1)
  have hdrop : List.drop (0 + pre.length + 1) (ifShape pre ifPos ilb irb (b :: bs) (t :: ts)) =
      plain (t :: ts) := by
    have : 0 + pre.length + 1 = (plain pre).length + 1 := by simp [plain]
    rw [this, ifShape, List.drop_append, List.drop_succ_cons, List.drop_zero]
  rw [VisitBlockStmt, generateCoverableUnits, if_neg (by simp [ifShape]), ifShape, plain,
    generateLoop_found hscan]
  rw [← plain, ← ifShape, hdrop]
  rw [Walk]
  simp only [VisitBlockStmt_plain c ilb irb b bs hbody]
  have hplain : plain (t :: ts) = Stmt.Other t.1 t.2 :: plain ts := by simp [plain]
  rw [hplain]
  simp only []
  rw [← hplain, generateLoop_plain]
  simp only [closeRegion, getCoverableUnits, createCoverableUnit_eq, appendUpstream, ne_eq, hlead,
    Stmt.Pos, statementBoundary, zero_add,
    htrail, not_false_eq_true, if_true, if_false, Bool.false_eq_true, List.foldl_cons,
    List.foldl_nil, Option.getD_some, List.nil_append, List.append_nil, List.getLast?_nil,
    List.getLast?_singleton, hup, Option.getD_none, List.singleton_append, restorer.mk.injEq,
    true_and]
  funext u
  by_cases h1 : u = spanUnit c.fset t.1 (lastEnd t ts) (ts.length + 1)
  · simp [h1, hne]
  · by_cases h2 : u = spanUnit c.fset ilb (irb + 1) (bs.length + 1)
    · simp [h2, hne, Ne.symm hne]
    · simp [h1, h2]

theorem gridPos_injective : Function.Injective gridPos := by
  intro a b h
  simp only [gridPos, Prod.mk.injEq] at h
  omega

theorem spanUnit_ne_of_start {fset : Nat → Nat × Nat} (hinj : Function.Injective fset)
    {s1 e1 n1 s2 e2 n2 : Nat} (h : s1 ≠ s2) : spanUnit fset s1 e1 n1 ≠ spanUnit fset s2 e2 n2 := by
  intro heq
  simp only [spanUnit, CoverableUnit.mk.injEq] at heq
  exact h (hinj (Prod.ext heq.1 heq.2.1))

/-- Propagation on three distinct units `L`, `B`, `T` with the edges `B → L` and
`T → L`: a seed at `B` marks `B` and `L`, a seed at `T` marks `T` and `L`. -/
theorem recoverCounters_fork (c : restorer) (L B T : CoverableUnit) (v : Nat)
    (hLB : L ≠ B) (hLT : L ≠ T) (hBT : B ≠ T) (hv : v ≠ 0)
    (hup : c.upstream = fun u => if u = B ∨ u = T then some [L] else none) :
    recoverCounters c [0, v, 0] ⟨[L, B, T]⟩ = some [1, 1, 0] ∧
    recoverCounters c [0, 0, v] ⟨[L, B, T]⟩ = some [1, 0, 1] := by
  constructor
  · apply runLoop_of_iterLoop 4
    simp [iterLoop, loopBody, seedQueue, buildCounterIdx, lookupIdx, hup, hv, hLB, hLT, hBT,
      Ne.symm hLB, Ne.symm hLT, Ne.symm hBT]
  · apply runLoop_of_iterLoop 4
    simp [iterLoop, loopBody, seedQueue, buildCounterIdx, lookupIdx, hup, hv, hLB, hLT, hBT,
      Ne.symm hLB, Ne.symm hLT, Ne.symm hBT]

/-- C9: for the function body `if cond { A() }; B()` at positions in source
order under an injective position table, partitioning emits the leading unit,
the if-body unit and the trailing unit, and `recoverCounters` on these three units
gives `[1, 1, 0]` for a nonzero counter only at the `A()` unit and `[1, 0, 1]` for
a nonzero counter only at the `B()` unit. -/
theorem if_call_scenario (fset : Nat → Nat × Nat) (lb rb ifPos ilb irb aPos aEnd bPos bEnd v : Nat)
    (hinj : Function.Injective fset) (hlead : lb < ilb) (hbody : ilb < irb) (hafter : irb < bPos)
    (htrail : bPos < bEnd) (hv : v ≠ 0) :
    ∃ c, generateUpstreamMapping (newRestorer fset)
        (.ok ⟨[⟨lb, rb, [Stmt.IfStmt ifPos ilb irb [Stmt.Other aPos aEnd] none,
          Stmt.Other bPos bEnd]⟩]⟩) = .ok c ∧
      c.coverableUnits lb = some [spanUnit fset lb ilb 1, spanUnit fset bPos bEnd 1] ∧
      c.coverableUnits ilb = some [spanUnit fset ilb (irb + 1) 1] ∧
      recoverCounters c [0, v, 0]
        ⟨[spanUnit fset lb ilb 1, spanUnit fset ilb (irb + 1) 1, spanUnit fset bPos bEnd 1]⟩ =
          some [1, 1, 0] ∧
      recoverCounters c [0, 0, v]
        ⟨[spanUnit fset lb ilb 1, spanUnit fset ilb (irb + 1) 1, spanUnit fset bPos bEnd 1]⟩ =
          some [1, 0, 1] := by
  have hstate := VisitBlockStmt_ifShape (newRestorer fset) lb rb ifPos ilb irb [] (aPos, aEnd) []
    (bPos, bEnd) [] rfl (by omega) (by omega) (by simp [lastEnd]; omega)
    (spanUnit_ne_of_start hinj (by simp only; omega))
  simp only [ifShape, plain, List.map_nil, List.map_cons, List.nil_append, lastEnd,
    List.getLast?_singleton, Option.getD_some, List.length_nil, zero_add, newRestorer] at hstate
  refine ⟨VisitBlockStmt (newRestorer fset) lb rb
    [Stmt.IfStmt ifPos ilb irb [Stmt.Other aPos aEnd] none, Stmt.Other bPos bEnd], rfl, ?_⟩
  simp only [newRestorer]
  rw [hstate]
  refine ⟨by simp, ?_, ?_⟩
  · have : ilb ≠ lb := by omega
    simp [this]
  · exact recoverCounters_fork _ _ _ _ v (spanUnit_ne_of_start hinj (by omega))
      (spanUnit_ne_of_start hinj (by omega)) (spanUnit_ne_of_start hinj (by omega)) hv rfl

/-- Witness of C9: the braces, the call `A()` and the call `B()` laid out on a
grid of 100 columns. -/
theorem if_call_scenario_witness :
    Function.Injective gridPos ∧ 513 < 722 ∧ 722 < 902 ∧ 902 < 1002 ∧ 1002 < 1018 ∧ 4 ≠ 0 ∧
    ∃ c, generateUpstreamMapping (newRestorer gridPos)
        (.ok ⟨[⟨513, 1101, [Stmt.IfStmt 702 722 902 [Stmt.Other 803 820] none,
          Stmt.Other 1002 1018]⟩]⟩) = .ok c ∧
      c.coverableUnits 513 = some [spanUnit gridPos 513 722 1, spanUnit gridPos 1002 1018 1] ∧
      c.coverableUnits 722 = some [spanUnit gridPos 722 (902 + 1) 1] ∧
      recoverCounters c [0, 4, 0]
        ⟨[spanUnit gridPos 513 722 1, spanUnit gridPos 722 (902 + 1) 1,
          spanUnit gridPos 1002 1018 1]⟩ = some [1, 1, 0] ∧
      recoverCounters c [0, 0, 4]
        ⟨[spanUnit gridPos 513 722 1, spanUnit gridPos 722 (902 + 1) 1,
          spanUnit gridPos 1002 1018 1]⟩ = some [1, 0, 1] :=
  ⟨gridPos_injective, by decide, by decide, by decide, by decide, by decide,
    if_call_scenario gridPos 513 1101 702 722 902 803 820 1002 1018 4 gridPos_injective
      (by decide) (by decide) (by decide) (by decide) (by decide)⟩

/-- C10: for a function body of `m` plain statements, an `if` without `else`
whose body holds `k ≥ 1` plain statements, and `n ≥ 1` plain statements, at
positions in source order under an injective position table,
`generateUpstreamMapping` from empty maps leaves `upstream` with exactly two
keys, the if-body unit (if-body opening brace to just past its closing brace, `k`
statements) and the trailing unit (from the start of the first trailing
statement to where the last one ends, `n` statements), each mapped to the
one-element list holding
the leading unit (function opening brace to if-body opening brace, `m + 1`
statements). Here `m = pre.length`, `k = bs.length + 1`, `n = ts.length + 1`. -/
theorem generateUpstreamMapping_ifShape (fset : Nat → Nat × Nat) (lb rb ifPos ilb irb : Nat)
    (pre : List (Nat × Nat)) (b : Nat × Nat) (bs : List (Nat × Nat)) (t : Nat × Nat)
    (ts : List (Nat × Nat)) (hinj : Function.Injective fset) (hlead : lb < ilb)
    (hbody : ilb < irb) (hafter : irb < t.1) (htrail : t.1 < lastEnd t ts) :
    ∃ c, generateUpstreamMapping (newRestorer fset)
        (.ok ⟨[⟨lb, rb, ifShape pre ifPos ilb irb (b :: bs) (t :: ts)⟩]⟩) = .ok c ∧
      spanUnit fset ilb (irb + 1) (bs.length + 1) ≠
        spanUnit fset t.1 (lastEnd t ts) (ts.length + 1) ∧
      ∀ u, c.upstream u =
        if u = spanUnit fset ilb (irb + 1) (bs.length + 1) ∨
            u = spanUnit fset t.1 (lastEnd t ts) (ts.length + 1) then
          some [spanUnit fset lb ilb (pre.length + 1)]
        else none := by
  have hne : spanUnit fset t.1 (lastEnd t ts) (ts.length + 1) ≠
      spanUnit fset ilb (irb + 1) (bs.length + 1) := spanUnit_ne_of_start hinj (by omega)
  have hstate := VisitBlockStmt_ifShape (newRestorer fset) lb rb ifPos ilb irb pre b bs t ts rfl
    (by omega) (by omega) (by omega) hne
  refine ⟨VisitBlockStmt (newRestorer fset) lb rb (ifShape pre ifPos ilb irb (b :: bs) (t :: ts)),
    rfl, Ne.symm hne, ?_⟩
  intro u
  rw [hstate]
  rfl

/-- Witness of C10: the fixture of the test, `m = k = n = 1`, with the units
`5:13-7:22` (2 statements), `7:22-9:3` (1) and `10:2-10:18` (1). -/
theorem generateUpstreamMapping_ifShape_witness :
    Function.Injective gridPos ∧ 513 < 722 ∧ 722 < 902 ∧ 902 < (1002, 1018).1 ∧
    (1002, 1018).1 < lastEnd (1002, 1018) [] ∧
    spanUnit gridPos 513 722 ([(602, 620)].length + 1) = leadUnit ∧
    spanUnit gridPos 722 (902 + 1) (([] : List (Nat × Nat)).length + 1) = bodyUnit ∧
    spanUnit gridPos (1002, 1018).1 (lastEnd (1002, 1018) [])
      (([] : List (Nat × Nat)).length + 1) = trailUnit ∧
    ∃ c, generateUpstreamMapping (newRestorer gridPos)
        (.ok ⟨[⟨513, 1101, ifShape [(602, 620)] 702 722 902 ((803, 820) :: []) ((1002, 1018) :: [])⟩]⟩) =
          .ok c ∧
      spanUnit gridPos 722 (902 + 1) (([] : List (Nat × Nat)).length + 1) ≠
        spanUnit gridPos (1002, 1018).1 (lastEnd (1002, 1018) [])
          (([] : List (Nat × Nat)).length + 1) ∧
      ∀ u, c.upstream u =
        if u = spanUnit gridPos 722 (902 + 1) (([] : List (Nat × Nat)).length + 1) ∨
            u = spanUnit gridPos (1002, 1018).1 (lastEnd (1002, 1018) [])
              (([] : List (Nat × Nat)).length + 1) then
          some [spanUnit gridPos 513 722 ([(602, 620)].length + 1)]
        else none :=
  ⟨gridPos_injective, by decide, by decide, by decide, by decide, by decide, by decide, by decide,
    generateUpstreamMapping_ifShape gridPos 513 1101 702 722 902 [(602, 620)] (803, 820) []
      (1002, 1018) [] gridPos_injective (by decide) (by decide) (by decide) (by decide)⟩

/-! ## Claims on the empty block, the index range and `VisitFunc` -/

/-- C14: for every call of `generateCoverableUnits` with an empty statement
list the result is exactly one unit, with statement count 0, from the insert
position to the block end, and the state, the implication graph included, is
what it was; through `Visit` the unit runs from just after the opening brace to
just past the closing brace. -/
theorem generateCoverableUnits_empty (c : restorer) (pos insertPos blockEnd lb rb : Nat)
    (ext : Bool) :
    generateCoverableUnits c pos insertPos blockEnd [] ext =
      ([spanUnit c.fset insertPos blockEnd 0], c) ∧
    (spanUnit c.fset insertPos blockEnd 0).NxStmts = 0 ∧
    (VisitBlockStmt c lb rb []).coverableUnits lb = some [spanUnit c.fset (lb + 1) (rb + 1) 0] ∧
    (VisitBlockStmt c lb rb []).upstream = c.upstream := by
  have h : ∀ p i e x, generateCoverableUnits c p i e [] x = ([spanUnit c.fset i e 0], c) := by
    intro p i e x
    rw [generateCoverableUnits]
    simp [createCoverableUnit_eq]
  refine ⟨h _ _ _ _, rfl, ?_, ?_⟩
  · rw [VisitBlockStmt, h]
    simp
  · rw [VisitBlockStmt, h]

theorem iterLoop_inv {c : restorer} {fd : FuncDesc} {counters : List Nat} :
    ∀ (n : Nat) (s0 : LoopState), Inv c fd counters s0 →
      iterLoop c fd (buildCounterIdx fd.Units 0 (fun _ => none)) n s0 ≠ .fault ∧
      ∀ s, iterLoop c fd (buildCounterIdx fd.Units 0 (fun _ => none)) n s0 = .next s →
        Inv c fd counters s
  | 0, s0, hinv => by
    refine ⟨by simp [iterLoop], ?_⟩
    intro s hs
    simp only [iterLoop, LoopStep.next.injEq] at hs
    exact hs ▸ hinv
  | n + 1, s0, hinv => by
    cases hq : s0.queue with
    | nil =>
      have hexit := (@loopBody_exit_iff c fd (buildCounterIdx fd.Units 0 (fun _ => none)) s0
        s0.newCounters).2 ⟨hq, rfl⟩
      simp [iterLoop, hexit]
    | cons idx queue =>
      obtain ⟨s2, hstep, hinv2, _⟩ := inv_next hinv hq
      rw [iterLoop, hstep]
      exact iterLoop_inv n s2 hinv2

/-- C19: for every unit list, every graph (edges to units absent from the list
included) and every counter array of the same length, the loop never faults, the
call returns, and in every state the loop reaches every index in the work queue
is smaller than the length of the unit list and of the output array, so the read
`fd.Units[idx]` and the write `newCounters[idx]` are in range. -/
theorem recoverCounters_in_range (c : restorer) (fd : FuncDesc) (counters : List Nat) (n : Nat)
    (hlen : counters.length = fd.Units.length) :
    iterLoop c fd (buildCounterIdx fd.Units 0 (fun _ => none)) n
        ⟨seedQueue counters 0, List.replicate fd.Units.length 0⟩ ≠ .fault ∧
    (∀ s, iterLoop c fd (buildCounterIdx fd.Units 0 (fun _ => none)) n
        ⟨seedQueue counters 0, List.replicate fd.Units.length 0⟩ = .next s →
      ∀ idx ∈ s.queue, idx < fd.Units.length ∧ idx < s.newCounters.length) ∧
    (recoverCounters c counters fd).isSome = true := by
  obtain ⟨h1, h2⟩ := iterLoop_inv n _ (inv_init c fd counters hlen)
  refine ⟨h1, ?_, ?_⟩
  · intro s hs idx hidx
    have hinv := h2 s hs
    exact ⟨hinv.qlt idx hidx, hinv.len ▸ hinv.qlt idx hidx⟩
  · obtain ⟨out, _, hout, _⟩ := recoverCounters_run c fd counters hlen
    simp [hout]

/-- Witness of C19: the graph whose only edge leaves the unit list, after two
rounds of the loop. -/
theorem recoverCounters_in_range_witness :
    [0, 1].length = pairFd.Units.length ∧
    iterLoop strayEdgeGraph pairFd (buildCounterIdx pairFd.Units 0 (fun _ => none)) 2
        ⟨seedQueue [0, 1] 0, List.replicate pairFd.Units.length 0⟩ ≠ .fault ∧
    (∀ s, iterLoop strayEdgeGraph pairFd (buildCounterIdx pairFd.Units 0 (fun _ => none)) 2
        ⟨seedQueue [0, 1] 0, List.replicate pairFd.Units.length 0⟩ = .next s →
      ∀ idx ∈ s.queue, idx < pairFd.Units.length ∧ idx < s.newCounters.length) ∧
    (recoverCounters strayEdgeGraph [0, 1] pairFd).isSome = true :=
  ⟨rfl, recoverCounters_in_range strayEdgeGraph pairFd [0, 1] 2 rfl⟩

/-- C18: when the counter map of the wrapped consumer holds an entry for the
key `(pkgIdx, fnIdx)`, `recoverCounters` returns for its array whenever the array
has as many counters as the function has units, and whenever it returns,
`VisitFunc` hands the wrapped consumer a map in which that entry has the array
that `recoverCounters` returns for the previous array and the unit list, and in
which every other entry, and the rest of the consumer, is unchanged; when the
map holds no entry for the key it hands the consumer on unchanged. With a
wrapped `VisitFunc` that leaves the map alone this is the map after `VisitFunc`. -/
theorem VisitFunc_replaces_counters {σ : Type} (c : restorer)
    (opVisitFunc : dstate σ → Nat → Nat → FuncDesc → dstate σ) (op : dstate σ)
    (pkgIdx fnIdx : Nat) (fd : FuncDesc)
    (hop : ∀ d p f g, (opVisitFunc d p f g).mm = d.mm) :
    (∀ v, op.mm ⟨pkgIdx, fnIdx⟩ = some v →
      (v.Counters.length = fd.Units.length →
        (recoverCounters c v.Counters fd).isSome = true) ∧
      ∀ out, recoverCounters c v.Counters fd = some out →
        ∃ op1,
          VisitFunc c opVisitFunc op pkgIdx fnIdx fd = some (opVisitFunc op1 pkgIdx fnIdx fd) ∧
          op1.rest = op.rest ∧
          op1.mm ⟨pkgIdx, fnIdx⟩ = some { v with Counters := out } ∧
          (∀ k, k ≠ ⟨pkgIdx, fnIdx⟩ → op1.mm k = op.mm k) ∧
          (opVisitFunc op1 pkgIdx fnIdx fd).mm ⟨pkgIdx, fnIdx⟩ =
            some { v with Counters := out } ∧
          (∀ k, k ≠ ⟨pkgIdx, fnIdx⟩ → (opVisitFunc op1 pkgIdx fnIdx fd).mm k = op.mm k)) ∧
    (op.mm ⟨pkgIdx, fnIdx⟩ = none →
      VisitFunc c opVisitFunc op pkgIdx fnIdx fd = some (opVisitFunc op pkgIdx fnIdx fd) ∧
      (opVisitFunc op pkgIdx fnIdx fd).mm = op.mm) := by
  constructor
  · intro v hv
    constructor
    · intro hlen
      obtain ⟨out, hout, _⟩ := recoverCounters_spec c fd v.Counters hlen
      rw [hout]
      rfl
    · intro out hout
      refine ⟨{ op with mm := fun k =>
        if k = ⟨pkgIdx, fnIdx⟩ then some { v with Counters := out } else op.mm k }, ?_, rfl,
        by simp, ?_, ?_, ?_⟩
      · simp only [VisitFunc, hv, hout]
      · intro k hk
        simp [hk]
      · rw [hop]
        simp
      · intro k hk
        rw [hop]
        simp [hk]
  · intro hnone
    exact ⟨by simp only [VisitFunc, hnone], hop _ _ _ _⟩

/-- Witness of C18: a consumer whose `VisitFunc` does nothing, a map with one
entry, for function 2 of package 1, the fixture graph and unit list. -/
theorem VisitFunc_replaces_counters_witness :
    (∀ (d : dstate Unit) (p f : Nat) (g : FuncDesc),
      ((fun x _ _ _ => x : dstate Unit → Nat → Nat → FuncDesc → dstate Unit) d p f g).mm = d.mm) ∧
    oneEntry.mm ⟨1, 2⟩ = some ⟨1, 2, [0, 4, 0]⟩ ∧
    (⟨1, 2, [0, 4, 0]⟩ : FuncPayload).Counters.length = wantFd.Units.length ∧
    recoverCounters wantGraph [0, 4, 0] wantFd = some [1, 1, 0] ∧
    ((∀ v, oneEntry.mm ⟨1, 2⟩ = some v →
      (v.Counters.length = wantFd.Units.length →
        (recoverCounters wantGraph v.Counters wantFd).isSome = true) ∧
      ∀ out, recoverCounters wantGraph v.Counters wantFd = some out →
        ∃ op1,
          VisitFunc wantGraph (fun x _ _ _ => x) oneEntry 1 2 wantFd =
            some ((fun x _ _ _ => x : dstate Unit → Nat → Nat → FuncDesc → dstate Unit)
              op1 1 2 wantFd) ∧
          op1.rest = oneEntry.rest ∧
          op1.mm ⟨1, 2⟩ = some { v with Counters := out } ∧
          (∀ k, k ≠ ⟨1, 2⟩ → op1.mm k = oneEntry.mm k) ∧
          ((fun x _ _ _ => x : dstate Unit → Nat → Nat → FuncDesc → dstate Unit)
            op1 1 2 wantFd).mm ⟨1, 2⟩ = some { v with Counters := out } ∧
          (∀ k, k ≠ ⟨1, 2⟩ →
            ((fun x _ _ _ => x : dstate Unit → Nat → Nat → FuncDesc → dstate Unit)
              op1 1 2 wantFd).mm k = oneEntry.mm k)) ∧
    (oneEntry.mm ⟨1, 2⟩ = none →
      VisitFunc wantGraph (fun x _ _ _ => x) oneEntry 1 2 wantFd =
        some ((fun x _ _ _ => x : dstate Unit → Nat → Nat → FuncDesc → dstate Unit)
          oneEntry 1 2 wantFd) ∧
      ((fun x _ _ _ => x : dstate Unit → Nat → Nat → FuncDesc → dstate Unit)
        oneEntry 1 2 wantFd).mm = oneEntry.mm)) :=
  ⟨fun _ _ _ _ => rfl, by decide, rfl, runLoop_of_iterLoop 4 _ _ (by decide),
    VisitFunc_replaces_counters wantGraph (fun x _ _ _ => x) oneEntry 1 2 wantFd
      (fun _ _ _ _ => rfl)⟩

/-! ## The loop of the partitioning, region by region -/

theorem scanBasicBlock_nonEnding : ∀ (l : List Stmt) (last end_ : Nat), NonEnding l →
    scanBasicBlock l last end_ = (last + l.length, lastBoundary l end_, none)
  | [], last, end_, _ => by simp [scanBasicBlock, lastBoundary]
  | a :: l, last, end_, h => by
    have ha : endsBasicSourceBlock a = false := h a (by simp)
    have hl : NonEnding l := fun x hx => h x (by simp [hx])
    rw [scanBasicBlock, if_neg (by simp [ha]), scanBasicBlock_nonEnding l _ _ hl]
    simp only [List.length_cons, Prod.mk.injEq, and_true, lastBoundary, List.getLast?_cons]
    refine ⟨by omega, ?_⟩
    cases l.getLast? <;> simp

theorem scanBasicBlock_first (t : Stmt) (rest : List Stmt) (ht : endsBasicSourceBlock t = true) :
    ∀ (pre : List Stmt) (last end_ : Nat), NonEnding pre →
    scanBasicBlock (pre ++ t :: rest) last end_ =
      (last + pre.length + 1, statementBoundary t, some t)
  | [], last, end_, _ => by simp [scanBasicBlock, ht]
  | a :: pre, last, end_, h => by
    have ha : endsBasicSourceBlock a = false := h a (by simp)
    have hl : NonEnding pre := fun x hx => h x (by simp [hx])
    rw [List.cons_append, scanBasicBlock, if_neg (by simp [ha]),
      scanBasicBlock_first t rest ht pre _ _ hl]
    simp only [List.length_cons, Prod.mk.injEq, and_true]
    omega

/-- A statement list holds no statement that ends a basic block, or splits at
the first one that does. -/
theorem split_first : ∀ (l : List Stmt),
    NonEnding l ∨ ∃ pre t rest, l = pre ++ t :: rest ∧ NonEnding pre ∧
      endsBasicSourceBlock t = true
  | [] => Or.inl (fun _ h => by simp at h)
  | a :: l => by
    cases ha : endsBasicSourceBlock a with
    | true => exact Or.inr ⟨[], a, l, rfl, fun _ h => by simp at h, ha⟩
    | false =>
      rcases split_first l with h | ⟨pre, t, rest, hl, hpre, ht⟩
      · left
        intro x hx
        rcases List.mem_cons.1 hx with hx | hx
        · exact hx ▸ ha
        · exact h x hx
      · right
        refine ⟨a :: pre, t, rest, by simp [hl], ?_, ht⟩
        intro x hx
        rcases List.mem_cons.1 hx with hx | hx
        · exact hx ▸ ha
        · exact hpre x hx

/-- A list with no statement that ends a basic block is one region, closed at
the end of its last statement, or at the block end while the block is unbroken. -/
theorem generateLoop_nonEnding (c : restorer) (pos blockEnd : Nat) (l : List Stmt) (ext : Bool)
    (units : List CoverableUnit) (h : NonEnding l) :
    generateLoop c pos blockEnd l ext units =
      closeRegion c pos (if ext then blockEnd else lastBoundary l blockEnd) l.length [] units := by
  have hscan := scanBasicBlock_nonEnding l 0 blockEnd h
  have hd : List.drop (0 + l.length) l = [] := List.drop_eq_nil_of_le (by simp)
  rw [generateLoop_none hscan, hd]
  simp

/-- The region of a statement that ends a basic block and is the last of the
list. -/
theorem generateLoop_last (c : restorer) (pos blockEnd : Nat) (pre : List Stmt) (t : Stmt)
    (ext : Bool) (units : List CoverableUnit) (hpre : NonEnding pre)
    (ht : endsBasicSourceBlock t = true) :
    generateLoop c pos blockEnd (pre ++ [t]) ext units =
      closeRegion (Walk c t) pos (statementBoundary t) (pre.length + 1)
        (getCoverableUnits (Walk c t) t) units := by
  have hscan := scanBasicBlock_first t [] ht pre 0 blockEnd hpre
  have hd : List.drop (0 + pre.length + 1) (pre ++ [t]) = [] :=
    List.drop_eq_nil_of_le (by simp)
  rw [generateLoop_found hscan, hd]
  simp

/-- The region of a statement that ends a basic block and is followed by more
statements: the loop goes on with the statements after it. -/
theorem generateLoop_more (c : restorer) (pos blockEnd : Nat) (pre : List Stmt) (t nx : Stmt)
    (rs : List Stmt) (ext : Bool) (units : List CoverableUnit) (hpre : NonEnding pre)
    (ht : endsBasicSourceBlock t = true) :
    generateLoop c pos blockEnd (pre ++ t :: nx :: rs) ext units =
      generateLoop
        (closeRegion (Walk c t) pos (statementBoundary t) (pre.length + 1)
          (getCoverableUnits (Walk c t) t) units).2
        nx.Pos blockEnd (nx :: rs) false
        (closeRegion (Walk c t) pos (statementBoundary t) (pre.length + 1)
          (getCoverableUnits (Walk c t) t) units).1 := by
  have hscan := scanBasicBlock_first t (nx :: rs) ht pre 0 blockEnd hpre
  have hd : List.drop (0 + pre.length + 1) (pre ++ t :: nx :: rs) = nx :: rs := by
    have : 0 + pre.length + 1 = pre.length + 1 := by omega
    rw [this, List.drop_append, List.drop_succ_cons, List.drop_zero]
  rw [generateLoop_found hscan, hd]
  simp only [zero_add]

theorem sizeOf_append_cons (t : Stmt) (rest : List Stmt) : ∀ (pre : List Stmt),
    sizeOf t < sizeOf (pre ++ t :: rest) ∧ sizeOf rest < sizeOf (pre ++ t :: rest)
  | [] => by
    simp only [List.nil_append, List.cons.sizeOf_spec]
    omega
  | a :: pre => by
    have := sizeOf_append_cons t rest pre
    simp only [List.cons_append, List.cons.sizeOf_spec]
    omega

/-- Induction over the statements the way the partitioning recurses: a statement
from its nested lists and its `else`, a list from its first statement that ends a
basic block and the statements after that one. -/
theorem partition_induction {P : Stmt → Prop} {Q : List Stmt → Prop}
    (hBlock : ∀ lb rb l, (l ≠ [] → Q l) → P (.BlockStmt lb rb l))
    (hIf : ∀ p lb rb l els, (l ≠ [] → Q l) → (∀ e, els = some e → P e) →
      P (.IfStmt p lb rb l els))
    (hFor : ∀ p lb rb l, (l ≠ [] → Q l) → P (.ForStmt p lb rb l))
    (hLabeled : ∀ p s, P s → P (.LabeledStmt p s))
    (hOther : ∀ p e, P (.Other p e))
    (hNone : ∀ l, l ≠ [] → NonEnding l → Q l)
    (hLast : ∀ pre t, NonEnding pre → endsBasicSourceBlock t = true → P t → Q (pre ++ [t]))
    (hMore : ∀ pre t nx rs, NonEnding pre → endsBasicSourceBlock t = true → P t →
      Q (nx :: rs) → Q (pre ++ t :: nx :: rs)) :
    (∀ s, P s) ∧ (∀ l, l ≠ [] → Q l) := by
  have key : ∀ n, (∀ s, sizeOf s ≤ n → P s) ∧ (∀ l, sizeOf l ≤ n → l ≠ [] → Q l) := by
    intro n
    induction n with
    | zero =>
      constructor
      · intro s hs
        cases s <;> simp at hs
      · intro l hl hne
        cases l with
        | nil => exact absurd rfl hne
        | cons a l => simp at hl
    | succ n ih =>
      obtain ⟨ihW, ihL⟩ := ih
      constructor
      · intro s hs
        cases s with
        | BlockStmt lb rb l =>
          simp only [Stmt.BlockStmt.sizeOf_spec] at hs
          exact hBlock lb rb l (ihL l (by omega))
        | IfStmt p lb rb l els =>
          simp only [Stmt.IfStmt.sizeOf_spec] at hs
          refine hIf p lb rb l els (ihL l (by omega)) ?_
          intro e he
          subst he
          simp only [Option.some.sizeOf_spec] at hs
          exact ihW e (by omega)
        | ForStmt p lb rb l =>
          simp only [Stmt.ForStmt.sizeOf_spec] at hs
          exact hFor p lb rb l (ihL l (by omega))
        | LabeledStmt p s =>
          simp only [Stmt.LabeledStmt.sizeOf_spec] at hs
          exact hLabeled p s (ihW s (by omega))
        | Other p e => exact hOther p e
      · intro l hl hne
        rcases split_first l with h | ⟨pre, t, rest, rfl, hpre, ht⟩
        · exact hNone l hne h
        · have hsz := sizeOf_append_cons t rest pre
          cases rest with
          | nil => exact hLast pre t hpre ht (ihW t (by omega))
          | cons nx rs =>
            exact hMore pre t nx rs hpre ht (ihW t (by omega)) (ihL (nx :: rs) (by omega) (by simp))
  exact ⟨fun s => (key (sizeOf s)).1 s le_rfl, fun l => (key (sizeOf l)).2 l le_rfl⟩

theorem Walk_block (c : restorer) (lb rb : Nat) (l : List Stmt) :
    Walk c (.BlockStmt lb rb l) = VisitBlockStmt c lb rb l := by
  rw [Walk]

theorem Walk_if (c : restorer) (p lb rb : Nat) (l : List Stmt) (els : Option Stmt) :
    Walk c (.IfStmt p lb rb l els) =
      match els with
      | some e => Walk (VisitBlockStmt c lb rb l) e
      | none => VisitBlockStmt c lb rb l := by
  cases els <;> rw [Walk]

theorem Walk_for (c : restorer) (p lb rb : Nat) (l : List Stmt) :
    Walk c (.ForStmt p lb rb l) = VisitBlockStmt c lb rb l := by
  rw [Walk]

theorem Walk_labeled (c : restorer) (p : Nat) (s : Stmt) :
    Walk c (.LabeledStmt p s) = Walk c s := by
  rw [Walk]

theorem Walk_other (c : restorer) (p e : Nat) : Walk c (.Other p e) = c := by
  rw [Walk]

theorem generateCoverableUnits_nil (c : restorer) (pos insertPos blockEnd : Nat) (ext : Bool) :
    generateCoverableUnits c pos insertPos blockEnd [] ext =
      ([spanUnit c.fset insertPos blockEnd 0], c) := by
  rw [generateCoverableUnits]
  simp [createCoverableUnit_eq]

theorem generateCoverableUnits_ne_nil (c : restorer) (pos insertPos blockEnd : Nat)
    (l : List Stmt) (ext : Bool) (h : l ≠ []) :
    generateCoverableUnits c pos insertPos blockEnd l ext = generateLoop c pos blockEnd l ext [] := by
  rw [generateCoverableUnits, if_neg (by simpa using h)]

theorem VisitBlockStmt_eq (c : restorer) (lb rb : Nat) (l : List Stmt) :
    VisitBlockStmt c lb rb l =
      { (generateCoverableUnits c lb (lb + 1) (rb + 1) l true).2 with
        coverableUnits := fun p =>
          if p = lb then some (generateCoverableUnits c lb (lb + 1) (rb + 1) l true).1
          else (generateCoverableUnits c lb (lb + 1) (rb + 1) l true).2.coverableUnits p } := by
  rw [VisitBlockStmt]

/-! ## Relations between the state before and after the partitioning -/

theorem closeRegion_rel (R : restorer → restorer → Prop) (hrefl : ∀ c, R c c)
    (htrans : ∀ a b c, R a b → R b c → R a c) (happ : ∀ c k u, R c (appendUpstream c k u))
    (c : restorer) (pos end_ last : Nat) (providers units : List CoverableUnit) :
    R c (closeRegion c pos end_ last providers units).2 := by
  have hfold : ∀ (ps : List CoverableUnit) (c0 : restorer) (unit : CoverableUnit),
      R c0 (ps.foldl (fun c u => appendUpstream c u unit) c0) := by
    intro ps
    induction ps with
    | nil => intro c0 unit; exact hrefl c0
    | cons a ps ih =>
      intro c0 unit
      exact htrans _ _ _ (happ c0 a unit) (ih _ unit)
  unfold closeRegion
  split
  · simp only
    split
    · exact htrans _ _ _ (hfold _ _ _) (happ _ _ _)
    · exact hfold _ _ _
  · exact hrefl c

/-- A reflexive and transitive relation that every write of the partitioning
respects holds between the state before and the state after a walk, a visit of a
block and a run of `generateCoverableUnits`. -/
theorem partition_rel (R : restorer → restorer → Prop) (hrefl : ∀ c, R c c)
    (htrans : ∀ a b c, R a b → R b c → R a c) (happ : ∀ c k u, R c (appendUpstream c k u))
    (hstore : ∀ (c : restorer) f, R c { c with coverableUnits := f }) :
    (∀ s c, R c (Walk c s)) ∧
    (∀ l c lb rb, R c (VisitBlockStmt c lb rb l)) ∧
    (∀ l c pos insertPos blockEnd ext,
      R c (generateCoverableUnits c pos insertPos blockEnd l ext).2) ∧
    (∀ l c pos blockEnd ext units, R c (generateLoop c pos blockEnd l ext units).2) := by
  have hG : ∀ l, (l ≠ [] → ∀ c pos blockEnd ext units,
      R c (generateLoop c pos blockEnd l ext units).2) →
      ∀ c pos insertPos blockEnd ext,
        R c (generateCoverableUnits c pos insertPos blockEnd l ext).2 := by
    intro l hl c pos insertPos blockEnd ext
    cases l with
    | nil =>
      rw [generateCoverableUnits_nil]
      exact hrefl c
    | cons a l =>
      rw [generateCoverableUnits_ne_nil _ _ _ _ _ _ (by simp)]
      exact hl (by simp) _ _ _ _ _
  have hV : ∀ l, (l ≠ [] → ∀ c pos blockEnd ext units,
      R c (generateLoop c pos blockEnd l ext units).2) →
      ∀ c lb rb, R c (VisitBlockStmt c lb rb l) := by
    intro l hl c lb rb
    rw [VisitBlockStmt_eq]
    exact htrans _ _ _ (hG l hl c _ _ _ _) (hstore _ _)
  have hmain := partition_induction (P := fun s => ∀ c, R c (Walk c s))
    (Q := fun l => ∀ c pos blockEnd ext units, R c (generateLoop c pos blockEnd l ext units).2)
    (fun lb rb l hl c => by rw [Walk_block]; exact hV l hl c lb rb)
    (fun p lb rb l els hl he c => by
      rw [Walk_if]
      cases els with
      | none => exact hV l hl c lb rb
      | some e => exact htrans _ _ _ (hV l hl c lb rb) (he e rfl _))
    (fun p lb rb l hl c => by rw [Walk_for]; exact hV l hl c lb rb)
    (fun p s hs c => by rw [Walk_labeled]; exact hs c)
    (fun p e c => by rw [Walk_other]; exact hrefl c)
    (fun l _ hne c pos blockEnd ext units => by
      rw [generateLoop_nonEnding c pos blockEnd l ext units hne]
      exact closeRegion_rel R hrefl htrans happ _ _ _ _ _ _)
    (fun pre t hpre ht hW c pos blockEnd ext units => by
      rw [generateLoop_last c pos blockEnd pre t ext units hpre ht]
      exact htrans _ _ _ (hW c) (closeRegion_rel R hrefl htrans happ _ _ _ _ _ _))
    (fun pre t nx rs hpre ht hW hL c pos blockEnd ext units => by
      rw [generateLoop_more c pos blockEnd pre t nx rs ext units hpre ht]
      exact htrans _ _ _ (htrans _ _ _ (hW c) (closeRegion_rel R hrefl htrans happ _ _ _ _ _ _))
        (hL _ _ _ _ _))
  have hL : ∀ l c pos blockEnd ext units, R c (generateLoop c pos blockEnd l ext units).2 := by
    intro l c pos blockEnd ext units
    cases l with
    | nil =>
      rw [generateLoop_nonEnding c pos blockEnd [] ext units (fun _ h => by simp at h)]
      exact closeRegion_rel R hrefl htrans happ _ _ _ _ _ _
    | cons a l => exact hmain.2 (a :: l) (by simp) _ _ _ _ _
  exact ⟨hmain.1, fun l => hV l (fun _ => hL l), fun l => hG l (fun _ => hL l), hL⟩

/-- The position table is never written. -/
theorem partition_fset :
    (∀ s c, (Walk c s).fset = c.fset) ∧
    (∀ l c lb rb, (VisitBlockStmt c lb rb l).fset = c.fset) ∧
    (∀ l c pos insertPos blockEnd ext,
      (generateCoverableUnits c pos insertPos blockEnd l ext).2.fset = c.fset) ∧
    (∀ l c pos blockEnd ext units, (generateLoop c pos blockEnd l ext units).2.fset = c.fset) :=
  partition_rel (fun c c2 => c2.fset = c.fset) (fun _ => rfl)
    (fun _ _ _ h1 h2 => h2.trans h1) (fun _ _ _ => rfl) (fun _ _ => rfl)

theorem appendUpstream_implied (c : restorer) (key unit u p : CoverableUnit) :
    p ∈ implied (appendUpstream c key unit) u ↔
      p ∈ implied c u ∨ (u = key ∧ p = unit) := by
  unfold implied appendUpstream
  by_cases h : u = key
  · subst h
    simp
  · simp [h]

theorem partition_upMono :
    (∀ s c, UpMono c (Walk c s)) ∧
    (∀ l c lb rb, UpMono c (VisitBlockStmt c lb rb l)) ∧
    (∀ l c pos insertPos blockEnd ext,
      UpMono c (generateCoverableUnits c pos insertPos blockEnd l ext).2) ∧
    (∀ l c pos blockEnd ext units, UpMono c (generateLoop c pos blockEnd l ext units).2) :=
  partition_rel UpMono (fun _ _ _ h => h) (fun _ _ _ h1 h2 u p h => h2 u p (h1 u p h))
    (fun c k unit u p h => (appendUpstream_implied c k unit u p).2 (Or.inl h))
    (fun _ _ _ _ h => h)

/-! ## The units of the regions -/

theorem closeRegion_units (c : restorer) (pos end_ last : Nat)
    (providers units : List CoverableUnit) :
    (closeRegion c pos end_ last providers units).1 =
      if pos ≠ end_ then units ++ [spanUnit c.fset pos end_ last] else units := by
  unfold closeRegion
  split <;> simp [createCoverableUnit_eq]

theorem closeRegion_fset (c : restorer) (pos end_ last : Nat)
    (providers units : List CoverableUnit) :
    (closeRegion c pos end_ last providers units).2.fset = c.fset :=
  closeRegion_rel (fun c c2 => c2.fset = c.fset) (fun _ => rfl)
    (fun _ _ _ h1 h2 => h2.trans h1) (fun _ _ _ => rfl) _ _ _ _ _ _

theorem closeRegion_upMono (c : restorer) (pos end_ last : Nat)
    (providers units : List CoverableUnit) :
    UpMono c (closeRegion c pos end_ last providers units).2 :=
  closeRegion_rel UpMono (fun _ _ _ h => h) (fun _ _ _ h1 h2 u p h => h2 u p (h1 u p h))
    (fun c k unit u p h => (appendUpstream_implied c k unit u p).2 (Or.inl h)) _ _ _ _ _ _

theorem closeRegion_prefix (c : restorer) (pos end_ last : Nat)
    (providers units : List CoverableUnit) :
    ∃ new, (closeRegion c pos end_ last providers units).1 = units ++ new := by
  rw [closeRegion_units]
  split
  · exact ⟨_, rfl⟩
  · exact ⟨[], by simp⟩

/-- The units emitted so far stay, in order, at the front of the result. -/
theorem generateLoop_prefix : ∀ (l : List Stmt) (c : restorer) (pos blockEnd : Nat) (ext : Bool)
    (units : List CoverableUnit), ∃ new, (generateLoop c pos blockEnd l ext units).1 = units ++ new := by
  have hmain := partition_induction (P := fun _ => True)
    (Q := fun l => ∀ (c : restorer) (pos blockEnd : Nat) (ext : Bool) (units : List CoverableUnit),
      ∃ new, (generateLoop c pos blockEnd l ext units).1 = units ++ new)
    (fun _ _ _ _ => trivial) (fun _ _ _ _ _ _ _ => trivial) (fun _ _ _ _ _ => trivial)
    (fun _ _ _ => trivial) (fun _ _ => trivial)
    (fun l _ hne c pos blockEnd ext units => by
      rw [generateLoop_nonEnding c pos blockEnd l ext units hne]
      exact closeRegion_prefix _ _ _ _ _ _)
    (fun pre t hpre ht _ c pos blockEnd ext units => by
      rw [generateLoop_last c pos blockEnd pre t ext units hpre ht]
      exact closeRegion_prefix _ _ _ _ _ _)
    (fun pre t nx rs hpre ht _ hL c pos blockEnd ext units => by
      rw [generateLoop_more c pos blockEnd pre t nx rs ext units hpre ht]
      obtain ⟨n1, h1⟩ := closeRegion_prefix (Walk c t) pos (statementBoundary t) (pre.length + 1)
        (getCoverableUnits (Walk c t) t) units
      obtain ⟨n2, h2⟩ := hL (closeRegion (Walk c t) pos (statementBoundary t) (pre.length + 1)
        (getCoverableUnits (Walk c t) t) units).2 nx.Pos blockEnd false
        (closeRegion (Walk c t) pos (statementBoundary t) (pre.length + 1)
          (getCoverableUnits (Walk c t) t) units).1
      exact ⟨n1 ++ n2, by rw [h2, h1, List.append_assoc]⟩)
  intro l c pos blockEnd ext units
  cases l with
  | nil =>
    rw [generateLoop_nonEnding c pos blockEnd [] ext units (fun _ h => by simp at h)]
    exact closeRegion_prefix _ _ _ _ _ _
  | cons a l => exact hmain.2 (a :: l) (by simp) _ _ _ _ _

theorem regionPos_cons (pos : Nat) (a : Stmt) (pre : List Stmt) (s : Stmt) (rest : List Stmt) :
    regionPos pos (a :: pre) (s :: rest) = s.Pos := rfl

/-- The loop reaches every region start: run on `pre ++ rest`, where the last
statement of `pre` ends a basic block, it comes to run on `rest` from the start
of `rest`, with the block broken, the units so far kept, the graph grown and the
position table as it was. -/
theorem generateLoop_reach (blockEnd : Nat) : ∀ (n : Nat) (pre rest : List Stmt),
    pre.length ≤ n → AtRegionStart pre → rest ≠ [] →
    ∀ (c : restorer) (pos : Nat) (ext : Bool) (units : List CoverableUnit),
    ∃ c2 units2, generateLoop c pos blockEnd (pre ++ rest) ext units =
        generateLoop c2 (regionPos pos pre rest) blockEnd rest (regionExt ext pre) units2 ∧
      c2.fset = c.fset ∧ UpMono c c2 ∧ ∃ new, units2 = units ++ new := by
  intro n
  induction n with
  | zero =>
    intro pre rest hlen _ _ c pos ext units
    have hpre : pre = [] := List.length_eq_zero.1 (by omega)
    subst hpre
    exact ⟨c, units, rfl, rfl, fun _ _ h => h, [], by simp⟩
  | succ n ih =>
    intro pre rest hlen hstart hrest c pos ext units
    cases hlast : pre.getLast? with
    | none =>
      have hpre : pre = [] := List.getLast?_eq_none_iff.1 hlast
      subst hpre
      exact ⟨c, units, rfl, rfl, fun _ _ h => h, [], by simp⟩
    | some t0 =>
      have ht0 := hstart t0 hlast
      have hmem : t0 ∈ pre := List.mem_of_mem_getLast? hlast
      rcases split_first pre with hne | ⟨a, t1, b, hsplit, ha, ht1⟩
      · rw [hne t0 hmem] at ht0
        simp at ht0
      · obtain ⟨nx, rs, hnx⟩ : ∃ nx rs, b ++ rest = nx :: rs := by
          cases hb : b ++ rest with
          | nil => simp [hrest] at hb
          | cons nx rs => exact ⟨nx, rs, rfl⟩
        have hlist : pre ++ rest = a ++ t1 :: nx :: rs := by
          rw [hsplit, List.append_assoc, List.cons_append, hnx]
        rw [hlist, generateLoop_more c pos blockEnd a t1 nx rs ext units ha ht1, ← hnx]
        obtain ⟨n1, hn1⟩ := closeRegion_prefix (Walk c t1) pos (statementBoundary t1)
          (a.length + 1) (getCoverableUnits (Walk c t1) t1) units
        have hfs : (closeRegion (Walk c t1) pos (statementBoundary t1) (a.length + 1)
            (getCoverableUnits (Walk c t1) t1) units).2.fset = c.fset :=
          (closeRegion_fset _ _ _ _ _ _).trans (partition_fset.1 t1 c)
        have hmono : UpMono c (closeRegion (Walk c t1) pos (statementBoundary t1) (a.length + 1)
            (getCoverableUnits (Walk c t1) t1) units).2 :=
          fun u p h => closeRegion_upMono _ _ _ _ _ _ u p (partition_upMono.1 t1 c u p h)
        have hpos : regionPos pos pre rest = regionPos nx.Pos b rest ∧
            regionExt ext pre = regionExt false b := by
          cases rest with
          | nil => exact absurd rfl hrest
          | cons r0 rest0 =>
            rw [hsplit]
            cases b with
            | nil =>
              simp only [List.nil_append, List.cons.injEq] at hnx
              cases a <;> simp [regionPos, regionExt, hnx.1]
            | cons b0 b1 => cases a <;> simp [regionPos, regionExt]
        have hbstart : AtRegionStart b := by
          intro t hbt
          apply hstart t
          have hbne : b ≠ [] := by
            intro hb
            simp [hb] at hbt
          rw [hsplit, ← List.singleton_append, ← List.append_assoc,
            List.getLast?_append_of_ne_nil _ hbne]
          exact hbt
        have hblen : b.length ≤ n := by
          have : pre.length = a.length + 1 + b.length := by
            rw [hsplit]
            simp
            omega
          omega
        obtain ⟨c2, units2, heq, hfs2, hmono2, n2, hn2⟩ := ih b rest hblen hbstart hrest
          (closeRegion (Walk c t1) pos (statementBoundary t1) (a.length + 1)
            (getCoverableUnits (Walk c t1) t1) units).2 nx.Pos false
          (closeRegion (Walk c t1) pos (statementBoundary t1) (a.length + 1)
            (getCoverableUnits (Walk c t1) t1) units).1
        refine ⟨c2, units2, ?_, hfs2.trans hfs, fun u p h => hmono2 u p (hmono u p h),
          n1 ++ n2, by rw [hn2, hn1, List.append_assoc]⟩
        rw [heq, hpos.1, hpos.2]

/-! ## Claims on the regions of a block -/

theorem inf1Body_units :
    (generateCoverableUnits (newRestorer gridPos) 513 (513 + 1) (1101 + 1) inf1Body true).1 =
      [leadUnit, trailUnit] := by
  have hstate := VisitBlockStmt_ifShape (newRestorer gridPos) 513 1101 702 722 902 [(602, 620)]
    (803, 820) [] (1002, 1018) [] rfl (by decide) (by decide) (by decide) (by decide)
  have hkey := congrArg (fun c => c.coverableUnits 513) hstate
  rw [VisitBlockStmt_eq] at hkey
  simp only [if_true, Option.some.injEq] at hkey
  rw [inf1Body, hkey]
  decide

/-- C11, as stated, fails on the fixture of the test: the block of the function
ends at `11:2`, and the last unit emitted for it, the trailing unit, ends at
`10:18`, the end of the last statement. -/
theorem last_unit_block_end_counterexample :
    inf1Body ≠ [] ∧
    (generateCoverableUnits (newRestorer gridPos) 513 (513 + 1) (1101 + 1) inf1Body true).1.getLast? =
      some trailUnit ∧
    (trailUnit.EnLine, trailUnit.EnCol) = gridPos 1018 ∧
    (trailUnit.EnLine, trailUnit.EnCol) ≠ gridPos (1101 + 1) := by
  refine ⟨by simp [inf1Body, ifShape], ?_, by decide, by decide⟩
  rw [inf1Body_units]
  rfl

/-- C11, amended: for a non-empty statement list `pre ++ seg` or
`pre ++ seg ++ [t]`, where `pre` is empty or ends with a region-ending statement
and `seg` holds none, the last region ends at `blockEnd` only when `pre` is empty
(no region-ending statement in the list) and `extendToClosingBrace` is set; after
a region-ending statement the region of the trailing statements `seg` ends where
the last statement ends, and the region that a final region-ending statement `t`
closes ends at the opening brace of its body. When that region is not empty its
unit is the last unit emitted. -/
theorem generateCoverableUnits_last_region (c : restorer) (pos insertPos blockEnd : Nat)
    (ext : Bool) (pre seg : List Stmt) (hstart : AtRegionStart pre) (hseg : NonEnding seg) :
    (seg ≠ [] →
      regionPos pos pre seg ≠
        (if regionExt ext pre = true then blockEnd else lastBoundary seg blockEnd) →
      (generateCoverableUnits c pos insertPos blockEnd (pre ++ seg) ext).1.getLast? =
        some (spanUnit c.fset (regionPos pos pre seg)
          (if regionExt ext pre = true then blockEnd else lastBoundary seg blockEnd) seg.length)) ∧
    (∀ t, endsBasicSourceBlock t = true →
      regionPos pos pre (seg ++ [t]) ≠ statementBoundary t →
      (generateCoverableUnits c pos insertPos blockEnd (pre ++ (seg ++ [t])) ext).1.getLast? =
        some (spanUnit c.fset (regionPos pos pre (seg ++ [t])) (statementBoundary t)
          (seg.length + 1))) := by
  constructor
  · intro hne hpos
    obtain ⟨c2, units2, heq, hfs, _, _⟩ := generateLoop_reach blockEnd pre.length pre seg le_rfl
      hstart hne c pos ext []
    rw [generateCoverableUnits_ne_nil _ _ _ _ _ _ (by simp [hne]), heq,
      generateLoop_nonEnding _ _ _ _ _ _ hseg, closeRegion_units, if_pos hpos, hfs]
    simp
  · intro t ht hpos
    obtain ⟨c2, units2, heq, hfs, _, _⟩ := generateLoop_reach blockEnd pre.length pre (seg ++ [t])
      le_rfl hstart (by simp) c pos ext []
    rw [generateCoverableUnits_ne_nil _ _ _ _ _ _ (by simp), heq,
      generateLoop_last _ _ _ _ _ _ _ hseg ht, closeRegion_units, if_pos hpos,
      partition_fset.1 t c2, hfs]
    simp

/-- Witness of amended C11: the fixture of the test, `pre` the assignment and
the `if`, `seg` the trailing call. -/
theorem generateCoverableUnits_last_region_witness :
    AtRegionStart (plain [(602, 620)] ++ [Stmt.IfStmt 702 722 902 (plain [(803, 820)]) none]) ∧
    NonEnding (plain [(1002, 1018)]) ∧
    (plain [(1002, 1018)] ≠ [] →
      regionPos 513 (plain [(602, 620)] ++ [Stmt.IfStmt 702 722 902 (plain [(803, 820)]) none])
          (plain [(1002, 1018)]) ≠
        (if regionExt true
            (plain [(602, 620)] ++ [Stmt.IfStmt 702 722 902 (plain [(803, 820)]) none]) = true
          then 1102 else lastBoundary (plain [(1002, 1018)]) 1102) →
      (generateCoverableUnits (newRestorer gridPos) 513 514 1102
        ((plain [(602, 620)] ++ [Stmt.IfStmt 702 722 902 (plain [(803, 820)]) none]) ++
          plain [(1002, 1018)]) true).1.getLast? =
        some (spanUnit (newRestorer gridPos).fset
          (regionPos 513
            (plain [(602, 620)] ++ [Stmt.IfStmt 702 722 902 (plain [(803, 820)]) none])
            (plain [(1002, 1018)]))
          (if regionExt true
              (plain [(602, 620)] ++ [Stmt.IfStmt 702 722 902 (plain [(803, 820)]) none]) = true
            then 1102 else lastBoundary (plain [(1002, 1018)]) 1102)
          (plain [(1002, 1018)]).length)) ∧
    spanUnit gridPos 1002 1018 1 = trailUnit :=
  have hstart : AtRegionStart
      (plain [(602, 620)] ++ [Stmt.IfStmt 702 722 902 (plain [(803, 820)]) none]) := by
    intro t ht
    simp [plain] at ht
    rw [← ht]
    rfl
  have hseg : NonEnding (plain [(1002, 1018)]) := by
    intro s hs
    simp [plain] at hs
    rw [hs]
    rfl
  ⟨hstart, hseg,
    (generateCoverableUnits_last_region (newRestorer gridPos) 513 514 1102 true
      (plain [(602, 620)] ++ [Stmt.IfStmt 702 722 902 (plain [(803, 820)]) none])
      (plain [(1002, 1018)]) hstart hseg).1, by decide⟩

/-- C13 on the failing input `L: for ... { A() }; B()` in a block from `5:13` to
`10:1`: `endsBasicSourceBlock` is false for the labeled loop though it is true
for the loop and though `statementBoundary` does look through the label; the
block is one unit of two statements up to the block end and the state is
untouched, so the loop body is never partitioned. Without the label there are
two units, split at the opening brace of the loop body. -/
theorem labeled_loop_not_transparent :
    endsBasicSourceBlock (.LabeledStmt 602 loopStmt) = false ∧
    endsBasicSourceBlock loopStmt = true ∧
    statementBoundary (.LabeledStmt 602 loopStmt) = statementBoundary loopStmt ∧
    generateCoverableUnits (newRestorer gridPos) 513 514 1002 labeledLoopBody true =
      ([spanUnit gridPos 513 1002 2], newRestorer gridPos) ∧
    (newRestorer gridPos).coverableUnits 620 = none ∧
    (generateCoverableUnits (newRestorer gridPos) 513 514 1002 loopBody2 true).1 =
      [spanUnit gridPos 513 620 1, spanUnit gridPos 902 910 1] ∧
    (generateCoverableUnits (newRestorer gridPos) 513 514 1002 loopBody2 true).2.coverableUnits 620 =
      some [spanUnit gridPos 620 803 1] := by
  refine ⟨rfl, rfl, rfl, ?_, rfl, ?_⟩
  · have hne : NonEnding labeledLoopBody := by
      intro s hs
      simp only [labeledLoopBody, List.mem_cons, List.mem_singleton, List.not_mem_nil,
        or_false] at hs
      rcases hs with hs | hs <;> (rw [hs]; rfl)
    rw [generateCoverableUnits_ne_nil _ _ _ _ _ _ (by simp [labeledLoopBody]),
      generateLoop_nonEnding _ _ _ _ _ _ hne]
    simp [closeRegion, createCoverableUnit_eq, labeledLoopBody, newRestorer]
  · have hwalk := VisitBlockStmt_plain (newRestorer gridPos) 620 802 (703, 710) [] (by decide)
    have hbody : plain [(703, 710)] = [Stmt.Other 703 710] := rfl
    rw [hbody, ← Walk_for (newRestorer gridPos) 609, ← loopStmt] at hwalk
    have hmore := generateLoop_more (newRestorer gridPos) 513 1002 [] loopStmt (.Other 902 910) []
      true [] (fun _ h => by simp at h) rfl
    have hne : NonEnding [Stmt.Other 902 910] := by
      intro s hs
      simp only [List.mem_singleton] at hs
      rw [hs]
      rfl
    rw [generateCoverableUnits_ne_nil _ _ _ _ _ _ (by simp [loopBody2]), loopBody2]
    simp only [List.nil_append] at hmore
    rw [hmore, generateLoop_nonEnding _ _ _ _ _ _ hne, hwalk]
    simp [closeRegion, createCoverableUnit_eq, newRestorer, getCoverableUnits, loopStmt,
      statementBoundary, Stmt.Pos, lastBoundary, appendUpstream]

/-- C17: for every block whose closing brace lies after its opening brace and
whose statements all have their boundary (the end of a plain statement, the
opening brace of a nested body) after the opening brace, `Visit` stores for the
block a unit list that is not empty, whether or not the block has statements. -/
theorem VisitBlockStmt_nonempty (c : restorer) (lb rb : Nat) (list : List Stmt)
    (hbrace : lb < rb) (hin : ∀ s ∈ list, lb < statementBoundary s) :
    ∃ units, (VisitBlockStmt c lb rb list).coverableUnits lb = some units ∧ units ≠ [] := by
  refine ⟨(generateCoverableUnits c lb (lb + 1) (rb + 1) list true).1,
    by rw [VisitBlockStmt_eq]; simp, ?_⟩
  cases hl : list with
  | nil =>
    rw [generateCoverableUnits_nil]
    simp
  | cons a l =>
    rw [← hl, generateCoverableUnits_ne_nil _ _ _ _ _ _ (by simp [hl])]
    rcases split_first list with hne | ⟨pre, t, rest, hsplit, hpre, ht⟩
    · rw [generateLoop_nonEnding _ _ _ _ _ _ hne, closeRegion_units]
      simp only [if_true]
      rw [if_pos (by omega)]
      simp
    · have hb : lb ≠ statementBoundary t := by
        have := hin t (by simp [hsplit])
        omega
      cases rest with
      | nil =>
        rw [hsplit, generateLoop_last _ _ _ _ _ _ _ hpre ht, closeRegion_units, if_pos hb]
        simp
      | cons nx rs =>
        rw [hsplit, generateLoop_more _ _ _ _ _ _ _ _ _ hpre ht]
        obtain ⟨new, hnew⟩ := generateLoop_prefix (nx :: rs)
          (closeRegion (Walk c t) lb (statementBoundary t) (pre.length + 1)
            (getCoverableUnits (Walk c t) t) []).2 nx.Pos (rb + 1) false
          (closeRegion (Walk c t) lb (statementBoundary t) (pre.length + 1)
            (getCoverableUnits (Walk c t) t) []).1
        rw [hnew, closeRegion_units, if_pos hb]
        simp

/-- Witness of C17: the function body of the fixture, between `5:13` and `11:1`. -/
theorem VisitBlockStmt_nonempty_witness :
    513 < 1101 ∧ (∀ s ∈ inf1Body, 513 < statementBoundary s) ∧
    ∃ units, (VisitBlockStmt (newRestorer gridPos) 513 1101 inf1Body).coverableUnits 513 =
      some units ∧ units ≠ [] :=
  have hin : ∀ s ∈ inf1Body, 513 < statementBoundary s := by
    intro s hs
    simp only [inf1Body, ifShape, plain, List.map_cons, List.map_nil, List.cons_append,
      List.nil_append, List.mem_cons, List.mem_singleton, List.not_mem_nil, or_false] at hs
    rcases hs with hs | hs | hs <;> (rw [hs]; decide)
  ⟨by decide, hin, VisitBlockStmt_nonempty (newRestorer gridPos) 513 1101 inf1Body (by decide) hin⟩

/-! ## Statement counts and sequential edges -/

theorem region_shift (pos : Nat) (ext : Bool) (pre0 : List Stmt) (t nx : Stmt)
    (rs pre1 rest : List Stmt) (ht : endsBasicSourceBlock t = true) (hstart : AtRegionStart pre1)
    (hrest : rest ≠ []) (hsplit : nx :: rs = pre1 ++ rest) :
    AtRegionStart (pre0 ++ t :: pre1) ∧
    regionPos pos (pre0 ++ t :: pre1) rest = regionPos nx.Pos pre1 rest ∧
    regionExt ext (pre0 ++ t :: pre1) = regionExt false pre1 := by
  refine ⟨?_, ?_, ?_⟩
  · intro x hx
    rw [List.getLast?_append_cons, List.getLast?_cons] at hx
    cases hl : pre1.getLast? with
    | none =>
      rw [hl] at hx
      simp only [Option.getD_none, Option.some.injEq] at hx
      exact hx ▸ ht
    | some y =>
      rw [hl] at hx
      simp only [Option.getD_some, Option.some.injEq] at hx
      exact hx ▸ hstart y hl
  · cases rest with
    | nil => exact absurd rfl hrest
    | cons r0 rest0 =>
      cases pre1 with
      | nil =>
        simp only [List.nil_append, List.cons.injEq] at hsplit
        cases pre0 <;> simp [regionPos, hsplit.1]
      | cons b0 b1 => cases pre0 <;> simp [regionPos]
  · cases pre1 <;> cases pre0 <;> simp [regionExt]

theorem RegionUnit_shift (fset : Nat → Nat × Nat) (pos blockEnd : Nat) (ext : Bool)
    (pre0 : List Stmt) (t nx : Stmt) (rs : List Stmt) (u : CoverableUnit)
    (ht : endsBasicSourceBlock t = true) (h : RegionUnit fset nx.Pos blockEnd false (nx :: rs) u) :
    RegionUnit fset pos blockEnd ext (pre0 ++ t :: nx :: rs) u := by
  rcases h with ⟨pre1, seg, t1, post, hsplit, hstart, hseg, ht1, hu⟩ |
    ⟨pre1, seg, hsplit, hstart, hseg, hne, hu⟩
  · obtain ⟨h1, h2, _⟩ := region_shift pos ext pre0 t nx rs pre1 (seg ++ t1 :: post) ht hstart
      (by simp) hsplit
    refine Or.inl ⟨pre0 ++ t :: pre1, seg, t1, post, ?_, h1, hseg, ht1, ?_⟩
    · rw [hsplit, List.append_assoc, List.cons_append]
    · rw [h2]
      exact hu
  · obtain ⟨h1, h2, h3⟩ := region_shift pos ext pre0 t nx rs pre1 seg ht hstart hne hsplit
    refine Or.inr ⟨pre0 ++ t :: pre1, seg, ?_, h1, hseg, hne, ?_⟩
    · rw [hsplit, List.append_assoc, List.cons_append]
    · rw [h2, h3]
      exact hu

theorem atRegionStart_nil : AtRegionStart [] := by
  intro t ht
  simp at ht

/-- Every unit the loop adds is the unit of a region of the list. -/
theorem generateLoop_regionUnit : ∀ (l : List Stmt), l ≠ [] → ∀ (c : restorer)
    (pos blockEnd : Nat) (ext : Bool) (units : List CoverableUnit),
    ∀ u ∈ (generateLoop c pos blockEnd l ext units).1,
      u ∈ units ∨ RegionUnit c.fset pos blockEnd ext l u := by
  have hclose : ∀ (c : restorer) (pos end_ last : Nat) (providers units : List CoverableUnit),
      ∀ u ∈ (closeRegion c pos end_ last providers units).1,
        u ∈ units ∨ u = spanUnit c.fset pos end_ last := by
    intro c pos end_ last providers units u hu
    rw [closeRegion_units] at hu
    split at hu
    · simpa using hu
    · exact Or.inl hu
  refine (partition_induction (P := fun _ => True)
    (Q := fun l => ∀ (c : restorer) (pos blockEnd : Nat) (ext : Bool)
      (units : List CoverableUnit), ∀ u ∈ (generateLoop c pos blockEnd l ext units).1,
        u ∈ units ∨ RegionUnit c.fset pos blockEnd ext l u)
    (fun _ _ _ _ => trivial) (fun _ _ _ _ _ _ _ => trivial) (fun _ _ _ _ _ => trivial)
    (fun _ _ _ => trivial) (fun _ _ => trivial) ?_ ?_ ?_).2
  · intro l hl hne c pos blockEnd ext units u hu
    rw [generateLoop_nonEnding c pos blockEnd l ext units hne] at hu
    rcases hclose _ _ _ _ _ _ u hu with h | h
    · exact Or.inl h
    · exact Or.inr (Or.inr ⟨[], l, rfl, atRegionStart_nil, hne, hl, h⟩)
  · intro pre t hpre ht _ c pos blockEnd ext units u hu
    rw [generateLoop_last c pos blockEnd pre t ext units hpre ht] at hu
    rcases hclose _ _ _ _ _ _ u hu with h | h
    · exact Or.inl h
    · rw [partition_fset.1 t c] at h
      exact Or.inr (Or.inl ⟨[], pre, t, [], rfl, atRegionStart_nil, hpre, ht, h⟩)
  · intro pre t nx rs hpre ht _ hL c pos blockEnd ext units u hu
    rw [generateLoop_more c pos blockEnd pre t nx rs ext units hpre ht] at hu
    rcases hL _ _ _ _ _ u hu with h | h
    · rcases hclose _ _ _ _ _ _ u h with h | h
      · exact Or.inl h
      · rw [partition_fset.1 t c] at h
        exact Or.inr (Or.inl ⟨[], pre, t, nx :: rs, rfl, atRegionStart_nil, hpre, ht, h⟩)
    · rw [closeRegion_fset, partition_fset.1 t c] at h
      exact Or.inr (RegionUnit_shift c.fset pos blockEnd ext pre t nx rs u ht h)

theorem inf1Body_eq : inf1Body =
    [Stmt.Other 602 620, Stmt.IfStmt 702 722 902 [Stmt.Other 803 820] none,
      Stmt.Other 1002 1018] := rfl

/-- C12, as stated, fails on the fixture of the test: one statement comes
before the `if`, and the unit of that region, the first unit emitted, has
statement count 2, since the `if` is counted. -/
theorem count_without_terminator_counterexample :
    inf1Body = [Stmt.Other 602 620] ++ Stmt.IfStmt 702 722 902 [Stmt.Other 803 820] none ::
      [Stmt.Other 1002 1018] ∧
    endsBasicSourceBlock (Stmt.IfStmt 702 722 902 [Stmt.Other 803 820] none) = true ∧
    [Stmt.Other 602 620].length = 1 ∧
    (generateCoverableUnits (newRestorer gridPos) 513 (513 + 1) (1101 + 1) inf1Body true).1.head? =
      some leadUnit ∧
    leadUnit.NxStmts = 2 := by
  refine ⟨rfl, rfl, rfl, ?_, rfl⟩
  rw [inf1Body_units]
  rfl

/-- C12, amended: for every non-empty statement list, each unit that
`generateCoverableUnits` emits is the unit of a region of the list, and its
statement count is the number of statements of the region with the
region-ending statement (block, if, for) counted: `seg.length + 1` for a region
of the statements `seg` closed by the region-ending statement `t`, and
`seg.length` for the region of the trailing statements `seg` that runs to the
end of the list. -/
theorem generateCoverableUnits_counts (c : restorer) (pos insertPos blockEnd : Nat)
    (list : List Stmt) (ext : Bool) (u : CoverableUnit) (hl : list ≠ [])
    (hu : u ∈ (generateCoverableUnits c pos insertPos blockEnd list ext).1) :
    (∃ pre seg t post, list = pre ++ (seg ++ t :: post) ∧ AtRegionStart pre ∧ NonEnding seg ∧
      endsBasicSourceBlock t = true ∧
      u = spanUnit c.fset (regionPos pos pre (seg ++ t :: post)) (statementBoundary t)
        (seg.length + 1) ∧ u.NxStmts = seg.length + 1) ∨
    (∃ pre seg, list = pre ++ seg ∧ AtRegionStart pre ∧ NonEnding seg ∧ seg ≠ [] ∧
      u = spanUnit c.fset (regionPos pos pre seg)
        (if regionExt ext pre = true then blockEnd else lastBoundary seg blockEnd) seg.length ∧
      u.NxStmts = seg.length) := by
  rw [generateCoverableUnits_ne_nil _ _ _ _ _ _ hl] at hu
  rcases generateLoop_regionUnit list hl c pos blockEnd ext [] u hu with h | h
  · simp at h
  · rcases h with ⟨pre, seg, t, post, h1, h2, h3, h4, h5⟩ | ⟨pre, seg, h1, h2, h3, h4, h5⟩
    · exact Or.inl ⟨pre, seg, t, post, h1, h2, h3, h4, h5, by rw [h5]; rfl⟩
    · exact Or.inr ⟨pre, seg, h1, h2, h3, h4, h5, by rw [h5]; rfl⟩

/-- Witness of amended C12: the leading unit of the fixture of the test. -/
theorem generateCoverableUnits_counts_witness :
    inf1Body ≠ [] ∧
    leadUnit ∈ (generateCoverableUnits (newRestorer gridPos) 513 (513 + 1) (1101 + 1)
      inf1Body true).1 ∧
    ((∃ pre seg t post, inf1Body = pre ++ (seg ++ t :: post) ∧ AtRegionStart pre ∧
      NonEnding seg ∧ endsBasicSourceBlock t = true ∧
      leadUnit = spanUnit (newRestorer gridPos).fset (regionPos 513 pre (seg ++ t :: post))
        (statementBoundary t) (seg.length + 1) ∧ leadUnit.NxStmts = seg.length + 1) ∨
    (∃ pre seg, inf1Body = pre ++ seg ∧ AtRegionStart pre ∧ NonEnding seg ∧ seg ≠ [] ∧
      leadUnit = spanUnit (newRestorer gridPos).fset (regionPos 513 pre seg)
        (if regionExt true pre = true then 1101 + 1 else lastBoundary seg (1101 + 1))
        seg.length ∧
      leadUnit.NxStmts = seg.length)) :=
  have hl : inf1Body ≠ [] := by simp [inf1Body_eq]
  have hu : leadUnit ∈ (generateCoverableUnits (newRestorer gridPos) 513 (513 + 1) (1101 + 1)
      inf1Body true).1 := by
    rw [inf1Body_units]
    simp
  ⟨hl, hu, generateCoverableUnits_counts (newRestorer gridPos) 513 (513 + 1) (1101 + 1) inf1Body
    true leadUnit hl hu⟩

theorem closeRegion_prev (c : restorer) (pos end_ last : Nat)
    (providers units : List CoverableUnit) (prev : CoverableUnit) (hpos : pos ≠ end_)
    (hlast : units.getLast? = some prev) :
    prev ∈ implied (closeRegion c pos end_ last providers units).2 (spanUnit c.fset pos end_ last) := by
  unfold closeRegion
  rw [if_pos hpos]
  simp only [hlast, createCoverableUnit_eq]
  exact (appendUpstream_implied _ _ _ _ _).2 (Or.inr ⟨rfl, rfl⟩)

theorem closeRegion_chain (c : restorer) (pos end_ last : Nat)
    (providers units : List CoverableUnit)
    (h : List.Chain' (fun a b => a ∈ implied c b) units) :
    List.Chain' (fun a b => a ∈ implied (closeRegion c pos end_ last providers units).2 b)
      (closeRegion c pos end_ last providers units).1 := by
  have hmono := closeRegion_upMono c pos end_ last providers units
  have hold : List.Chain' (fun a b => a ∈ implied (closeRegion c pos end_ last providers units).2 b)
      units := h.imp (fun a b hab => hmono b a hab)
  rw [closeRegion_units]
  by_cases hpos : pos = end_
  · rw [if_neg (by simpa using hpos)]
    exact hold
  · rw [if_pos hpos]
    refine List.chain'_append.2 ⟨hold, List.chain'_singleton _, ?_⟩
    intro x hx y hy
    simp only [List.head?_cons, Option.mem_def, Option.some.injEq] at hy
    subst hy
    exact closeRegion_prev c pos end_ last providers units x hpos hx

/-- In the result of the loop every unit has the unit before it among its
implied units, if that held of the units the loop was entered with. -/
theorem generateLoop_chain : ∀ (l : List Stmt) (c : restorer) (pos blockEnd : Nat) (ext : Bool)
    (units : List CoverableUnit), List.Chain' (fun a b => a ∈ implied c b) units →
    List.Chain' (fun a b => a ∈ implied (generateLoop c pos blockEnd l ext units).2 b)
      (generateLoop c pos blockEnd l ext units).1 := by
  have hwalk : ∀ (t : Stmt) (c : restorer) (units : List CoverableUnit),
      List.Chain' (fun a b => a ∈ implied c b) units →
      List.Chain' (fun a b => a ∈ implied (Walk c t) b) units :=
    fun t c units h => h.imp (fun a b hab => partition_upMono.1 t c b a hab)
  have hmain := partition_induction (P := fun _ => True)
    (Q := fun l => ∀ (c : restorer) (pos blockEnd : Nat) (ext : Bool)
      (units : List CoverableUnit), List.Chain' (fun a b => a ∈ implied c b) units →
      List.Chain' (fun a b => a ∈ implied (generateLoop c pos blockEnd l ext units).2 b)
        (generateLoop c pos blockEnd l ext units).1)
    (fun _ _ _ _ => trivial) (fun _ _ _ _ _ _ _ => trivial) (fun _ _ _ _ _ => trivial)
    (fun _ _ _ => trivial) (fun _ _ => trivial)
    (fun l _ hne c pos blockEnd ext units h => by
      rw [generateLoop_nonEnding c pos blockEnd l ext units hne]
      exact closeRegion_chain _ _ _ _ _ _ h)
    (fun pre t hpre ht _ c pos blockEnd ext units h => by
      rw [generateLoop_last c pos blockEnd pre t ext units hpre ht]
      exact closeRegion_chain _ _ _ _ _ _ (hwalk t c units h))
    (fun pre t nx rs hpre ht _ hL c pos blockEnd ext units h => by
      rw [generateLoop_more c pos blockEnd pre t nx rs ext units hpre ht]
      exact hL _ _ _ _ _ (closeRegion_chain _ _ _ _ _ _ (hwalk t c units h)))
  intro l c pos blockEnd ext units h
  cases l with
  | nil =>
    rw [generateLoop_nonEnding c pos blockEnd [] ext units (fun _ h => by simp at h)]
    exact closeRegion_chain _ _ _ _ _ _ h
  | cons a l => exact hmain.2 (a :: l) (by simp) _ _ _ _ _ h

theorem chain_getElem {R : CoverableUnit → CoverableUnit → Prop} :
    ∀ (l : List CoverableUnit) (i : Nat) (a b : CoverableUnit), List.Chain' R l →
      l[i]? = some a → l[i + 1]? = some b → R a b
  | [], _, _, _, _, h, _ => by simp at h
  | [_], _, _, _, _, _, h => by simp at h
  | x :: y :: l, 0, a, b, hc, ha, hb => by
    simp only [List.getElem?_cons_zero, Option.some.injEq, zero_add, List.getElem?_cons_succ]
      at ha hb
    subst ha
    subst hb
    exact (List.chain'_cons.1 hc).1
  | x :: y :: l, i + 1, a, b, hc, ha, hb => by
    rw [List.getElem?_cons_succ] at ha hb
    exact chain_getElem (y :: l) i a b (List.chain'_cons.1 hc).2 ha hb

/-- C16: for every statement list and every two units that
`generateCoverableUnits` emits consecutively for it (positions `i` and `i + 1` of
the result), after the call the later unit has the one before it among its
implied units in `upstream`. -/
theorem generateCoverableUnits_sequential (c : restorer) (pos insertPos blockEnd : Nat)
    (list : List Stmt) (ext : Bool) (i : Nat) (a b : CoverableUnit)
    (ha : (generateCoverableUnits c pos insertPos blockEnd list ext).1[i]? = some a)
    (hb : (generateCoverableUnits c pos insertPos blockEnd list ext).1[i + 1]? = some b) :
    ∃ units, (generateCoverableUnits c pos insertPos blockEnd list ext).2.upstream b = some units ∧
      a ∈ units := by
  have hchain : List.Chain'
      (fun a b => a ∈ implied (generateCoverableUnits c pos insertPos blockEnd list ext).2 b)
      (generateCoverableUnits c pos insertPos blockEnd list ext).1 := by
    cases list with
    | nil =>
      rw [generateCoverableUnits_nil]
      exact List.chain'_singleton _
    | cons s l =>
      rw [generateCoverableUnits_ne_nil _ _ _ _ _ _ (by simp)]
      exact generateLoop_chain _ _ _ _ _ _ List.chain'_nil
  exact mem_implied.1 (chain_getElem _ i a b hchain ha hb)

/-- Witness of C16: the leading unit and the trailing unit of the fixture of
the test, emitted one after the other for the function body. -/
theorem generateCoverableUnits_sequential_witness :
    (generateCoverableUnits (newRestorer gridPos) 513 (513 + 1) (1101 + 1) inf1Body true).1[0]? =
      some leadUnit ∧
    (generateCoverableUnits (newRestorer gridPos) 513 (513 + 1) (1101 + 1) inf1Body
      true).1[0 + 1]? = some trailUnit ∧
    ∃ units, (generateCoverableUnits (newRestorer gridPos) 513 (513 + 1) (1101 + 1) inf1Body
      true).2.upstream trailUnit = some units ∧ leadUnit ∈ units :=
  have ha : (generateCoverableUnits (newRestorer gridPos) 513 (513 + 1) (1101 + 1) inf1Body
      true).1[0]? = some leadUnit := by
    rw [inf1Body_units]
    rfl
  have hb : (generateCoverableUnits (newRestorer gridPos) 513 (513 + 1) (1101 + 1) inf1Body
      true).1[0 + 1]? = some trailUnit := by
    rw [inf1Body_units]
    rfl
  ⟨ha, hb, generateCoverableUnits_sequential (newRestorer gridPos) 513 (513 + 1) (1101 + 1)
    inf1Body true 0 leadUnit trailUnit ha hb⟩

/-! ## Containment edges -/

/-- The units of the loop depend on the state only through the position table. -/
theorem generateLoop_units_congr : ∀ (l : List Stmt) (c c2 : restorer) (pos blockEnd : Nat)
    (ext : Bool) (units : List CoverableUnit), c.fset = c2.fset →
    (generateLoop c pos blockEnd l ext units).1 = (generateLoop c2 pos blockEnd l ext units).1 := by
  have hmain := partition_induction (P := fun _ => True)
    (Q := fun l => ∀ (c c2 : restorer) (pos blockEnd : Nat) (ext : Bool)
      (units : List CoverableUnit), c.fset = c2.fset →
      (generateLoop c pos blockEnd l ext units).1 = (generateLoop c2 pos blockEnd l ext units).1)
    (fun _ _ _ _ => trivial) (fun _ _ _ _ _ _ _ => trivial) (fun _ _ _ _ _ => trivial)
    (fun _ _ _ => trivial) (fun _ _ => trivial)
    (fun l _ hne c c2 pos blockEnd ext units h => by
      rw [generateLoop_nonEnding c pos blockEnd l ext units hne,
        generateLoop_nonEnding c2 pos blockEnd l ext units hne, closeRegion_units,
        closeRegion_units, h])
    (fun pre t hpre ht _ c c2 pos blockEnd ext units h => by
      rw [generateLoop_last c pos blockEnd pre t ext units hpre ht,
        generateLoop_last c2 pos blockEnd pre t ext units hpre ht, closeRegion_units,
        closeRegion_units, partition_fset.1 t c, partition_fset.1 t c2, h])
    (fun pre t nx rs hpre ht _ hL c c2 pos blockEnd ext units h => by
      rw [generateLoop_more c pos blockEnd pre t nx rs ext units hpre ht,
        generateLoop_more c2 pos blockEnd pre t nx rs ext units hpre ht]
      have hu : (closeRegion (Walk c t) pos (statementBoundary t) (pre.length + 1)
          (getCoverableUnits (Walk c t) t) units).1 =
          (closeRegion (Walk c2 t) pos (statementBoundary t) (pre.length + 1)
            (getCoverableUnits (Walk c2 t) t) units).1 := by
        rw [closeRegion_units, closeRegion_units, partition_fset.1 t c, partition_fset.1 t c2, h]
      rw [hu]
      apply hL
      rw [closeRegion_fset, closeRegion_fset, partition_fset.1 t c, partition_fset.1 t c2, h])
  intro l c c2 pos blockEnd ext units h
  cases l with
  | nil =>
    rw [generateLoop_nonEnding c pos blockEnd [] ext units (fun _ h => by simp at h),
      generateLoop_nonEnding c2 pos blockEnd [] ext units (fun _ h => by simp at h),
      closeRegion_units, closeRegion_units, h]
  | cons a l => exact hmain.2 (a :: l) (by simp) _ _ _ _ _ _ h

theorem generateCoverableUnits_blockUnits (c : restorer) (lb rb : Nat) (l : List Stmt) :
    (generateCoverableUnits c lb (lb + 1) (rb + 1) l true).1 = blockUnits c.fset lb rb l := by
  unfold blockUnits
  cases l with
  | nil =>
    rw [generateCoverableUnits_nil, generateCoverableUnits_nil]
    rfl
  | cons a l =>
    rw [generateCoverableUnits_ne_nil _ _ _ _ _ _ (by simp),
      generateCoverableUnits_ne_nil _ _ _ _ _ _ (by simp)]
    exact generateLoop_units_congr _ _ _ _ _ _ _ rfl

theorem VisitBlockStmt_key (c : restorer) (lb rb : Nat) (l : List Stmt) :
    (VisitBlockStmt c lb rb l).coverableUnits lb = some (blockUnits c.fset lb rb l) := by
  rw [VisitBlockStmt_eq, ← generateCoverableUnits_blockUnits]
  simp

theorem bracesList_append : ∀ (a b : List Stmt), bracesList (a ++ b) = bracesList a ++ bracesList b
  | [], b => by simp [bracesList]
  | x :: a, b => by
    rw [List.cons_append, bracesList, bracesList, bracesList_append a b, List.append_assoc]

theorem closeRegion_coverableUnits (c : restorer) (pos end_ last : Nat)
    (providers units : List CoverableUnit) :
    (closeRegion c pos end_ last providers units).2.coverableUnits = c.coverableUnits :=
  closeRegion_rel (fun c c2 => c2.coverableUnits = c.coverableUnits) (fun _ => rfl)
    (fun _ _ _ h1 h2 => h2.trans h1) (fun _ _ _ => rfl) _ _ _ _ _ _

/-- The walk of a statement writes `coverableUnits` only at opening braces of
blocks in the statement. -/
theorem partition_frame :
    (∀ s c key, key ∉ braces s → (Walk c s).coverableUnits key = c.coverableUnits key) ∧
    (∀ l, l ≠ [] → ∀ c pos blockEnd ext units key, key ∉ bracesList l →
      (generateLoop c pos blockEnd l ext units).2.coverableUnits key = c.coverableUnits key) := by
  have hV : ∀ l, (l ≠ [] → ∀ c pos blockEnd ext units key, key ∉ bracesList l →
      (generateLoop c pos blockEnd l ext units).2.coverableUnits key = c.coverableUnits key) →
      ∀ c lb rb key, key ≠ lb → key ∉ bracesList l →
        (VisitBlockStmt c lb rb l).coverableUnits key = c.coverableUnits key := by
    intro l hl c lb rb key hk hkl
    rw [VisitBlockStmt_eq]
    simp only [hk, if_false]
    cases l with
    | nil => rw [generateCoverableUnits_nil]
    | cons a l =>
      rw [generateCoverableUnits_ne_nil _ _ _ _ _ _ (by simp)]
      exact hl (by simp) _ _ _ _ _ _ hkl
  refine partition_induction
    (P := fun s => ∀ c key, key ∉ braces s → (Walk c s).coverableUnits key = c.coverableUnits key)
    (Q := fun l => ∀ c pos blockEnd ext units key, key ∉ bracesList l →
      (generateLoop c pos blockEnd l ext units).2.coverableUnits key = c.coverableUnits key)
    ?_ ?_ ?_ ?_ ?_ ?_ ?_ ?_
  · intro lb rb l hl c key hk
    simp only [braces, List.mem_cons, not_or] at hk
    rw [Walk_block]
    exact hV l hl c lb rb key hk.1 hk.2
  · intro p lb rb l els hl he c key hk
    rw [Walk_if]
    cases els with
    | none =>
      simp only [braces, List.mem_cons, List.mem_append, not_or] at hk
      exact hV l hl c lb rb key hk.1 hk.2.1
    | some e =>
      simp only [braces, List.mem_cons, List.mem_append, not_or] at hk
      simp only
      rw [he e rfl _ key hk.2.2]
      exact hV l hl c lb rb key hk.1 hk.2.1
  · intro p lb rb l hl c key hk
    simp only [braces, List.mem_cons, not_or] at hk
    rw [Walk_for]
    exact hV l hl c lb rb key hk.1 hk.2
  · intro p s hs c key hk
    simp only [braces] at hk
    rw [Walk_labeled]
    exact hs c key hk
  · intro p e c key _
    rw [Walk_other]
  · intro l _ hne c pos blockEnd ext units key _
    rw [generateLoop_nonEnding c pos blockEnd l ext units hne, closeRegion_coverableUnits]
  · intro pre t hpre ht hW c pos blockEnd ext units key hk
    rw [bracesList_append] at hk
    simp only [bracesList, List.mem_append, not_or, List.append_nil] at hk
    rw [generateLoop_last c pos blockEnd pre t ext units hpre ht, closeRegion_coverableUnits]
    exact hW c key hk.2
  · intro pre t nx rs hpre ht hW hL c pos blockEnd ext units key hk
    rw [bracesList_append] at hk
    have hk2 : key ∉ braces t ∧ key ∉ bracesList (nx :: rs) := by
      rw [bracesList] at hk
      simp only [List.mem_append, not_or] at hk
      exact ⟨hk.2.1, hk.2.2⟩
    rw [generateLoop_more c pos blockEnd pre t nx rs ext units hpre ht,
      hL _ _ _ _ _ key hk2.2, closeRegion_coverableUnits]
    exact hW c key hk2.1

/-- After the walk of a statement `getCoverableUnits` gives the unit list of
its nested body. -/
theorem getCoverableUnits_Walk : ∀ (s : Stmt) (c : restorer), ElseBracesDistinct s →
    getCoverableUnits (Walk c s) s = nestedUnits c.fset s := by
  refine (partition_induction
    (P := fun s => ∀ (c : restorer), ElseBracesDistinct s →
      getCoverableUnits (Walk c s) s = nestedUnits c.fset s)
    (Q := fun _ => True) ?_ ?_ ?_ ?_ ?_ (fun _ _ _ => trivial) (fun _ _ _ _ _ => trivial)
    (fun _ _ _ _ _ _ _ _ => trivial)).1
  · intro lb rb l _ c _
    rw [Walk_block, getCoverableUnits, VisitBlockStmt_key, nestedUnits]
    rfl
  · intro p lb rb l els _ he c hd
    rw [Walk_if]
    cases els with
    | none =>
      simp only [getCoverableUnits, nestedUnits, VisitBlockStmt_key, Option.getD_some]
    | some e =>
      simp only [ElseBracesDistinct] at hd
      simp only [getCoverableUnits, nestedUnits]
      rw [partition_frame.1 e _ lb hd.1, VisitBlockStmt_key, he e rfl _ hd.2,
        partition_fset.2.1 l c lb rb]
      rfl
  · intro p lb rb l _ c _
    rw [Walk_for, getCoverableUnits, VisitBlockStmt_key, nestedUnits]
    rfl
  · intro p s _ c _
    simp [getCoverableUnits, nestedUnits]
  · intro p e c _
    simp [getCoverableUnits, nestedUnits]

theorem closeRegion_providers (c : restorer) (pos end_ last : Nat)
    (providers units : List CoverableUnit) (hpos : pos ≠ end_) :
    ∀ u ∈ providers,
      spanUnit c.fset pos end_ last ∈ implied (closeRegion c pos end_ last providers units).2 u := by
  have hfold : ∀ (ps : List CoverableUnit) (c0 : restorer) (unit : CoverableUnit),
      UpMono c0 (ps.foldl (fun c u => appendUpstream c u unit) c0) ∧
      ∀ u ∈ ps, unit ∈ implied (ps.foldl (fun c u => appendUpstream c u unit) c0) u := by
    intro ps
    induction ps with
    | nil =>
      intro c0 unit
      exact ⟨fun _ _ h => h, fun u hu => by simp at hu⟩
    | cons a ps ih =>
      intro c0 unit
      obtain ⟨h1, h2⟩ := ih (appendUpstream c0 a unit) unit
      refine ⟨fun u p h => h1 u p ((appendUpstream_implied c0 a unit u p).2 (Or.inl h)), ?_⟩
      intro u hu
      rcases List.mem_cons.1 hu with hu | hu
      · subst hu
        exact h1 u unit ((appendUpstream_implied c0 u unit u unit).2 (Or.inr ⟨rfl, rfl⟩))
      · exact h2 u hu
  intro u hu
  unfold closeRegion
  rw [if_pos hpos]
  simp only [createCoverableUnit_eq]
  split
  · exact (appendUpstream_implied _ _ _ _ _).2 (Or.inl ((hfold providers c _).2 u hu))
  · exact (hfold providers c _).2 u hu

theorem blockUnits_plain (fset : Nat → Nat × Nat) (lb rb : Nat) (p : Nat × Nat)
    (ps : List (Nat × Nat)) (h : lb ≠ rb + 1) :
    blockUnits fset lb rb (plain (p :: ps)) = [spanUnit fset lb (rb + 1) (ps.length + 1)] := by
  have h1 := VisitBlockStmt_key (newRestorer fset) lb rb (plain (p :: ps))
  rw [VisitBlockStmt_plain (newRestorer fset) lb rb p ps h] at h1
  simp only [if_true, Option.some.injEq, createCoverableUnit_eq] at h1
  exact h1.symm

/-- C15: for every statement list and every statement `t` in it that ends a
basic region (block, if, for), `seg` being the statements of the region before
`t` and `pre` the statements before the region: when the leading region is not
empty, its unit is emitted and, after `generateCoverableUnits`, every unit `u` of
the unit list of the nested body of `t` (for an `if`: the units of the body, then
those of the `else` branch, through the chain of `else if`) has the unit of the
leading region among its implied units in `upstream`. The braces of an `if`
chain are at distinct positions. -/
theorem generateCoverableUnits_containment (c : restorer) (pos insertPos blockEnd : Nat)
    (ext : Bool) (pre seg : List Stmt) (t : Stmt) (post : List Stmt) (u : CoverableUnit)
    (hstart : AtRegionStart pre) (hseg : NonEnding seg) (ht : endsBasicSourceBlock t = true)
    (hd : ElseBracesDistinct t)
    (hemit : regionPos pos pre (seg ++ t :: post) ≠ statementBoundary t)
    (hu : u ∈ nestedUnits c.fset t) :
    spanUnit c.fset (regionPos pos pre (seg ++ t :: post)) (statementBoundary t) (seg.length + 1) ∈
      (generateCoverableUnits c pos insertPos blockEnd (pre ++ (seg ++ t :: post)) ext).1 ∧
    ∃ units,
      (generateCoverableUnits c pos insertPos blockEnd (pre ++ (seg ++ t :: post)) ext).2.upstream u =
        some units ∧
      spanUnit c.fset (regionPos pos pre (seg ++ t :: post)) (statementBoundary t)
        (seg.length + 1) ∈ units := by
  obtain ⟨c2, units2, heq, hfs, _, _⟩ := generateLoop_reach blockEnd pre.length pre
    (seg ++ t :: post) le_rfl hstart (by simp) c pos ext []
  have hfs2 : (Walk c2 t).fset = c.fset := (partition_fset.1 t c2).trans hfs
  have hprov : u ∈ getCoverableUnits (Walk c2 t) t := by
    rw [getCoverableUnits_Walk t c2 hd, hfs]
    exact hu
  have hedge := closeRegion_providers (Walk c2 t) (regionPos pos pre (seg ++ t :: post))
    (statementBoundary t) (seg.length + 1) (getCoverableUnits (Walk c2 t) t) units2 hemit u hprov
  have hunit : spanUnit c.fset (regionPos pos pre (seg ++ t :: post)) (statementBoundary t)
      (seg.length + 1) ∈ (closeRegion (Walk c2 t) (regionPos pos pre (seg ++ t :: post))
        (statementBoundary t) (seg.length + 1) (getCoverableUnits (Walk c2 t) t) units2).1 := by
    rw [closeRegion_units, if_pos hemit, hfs2]
    simp
  rw [hfs2] at hedge
  rw [generateCoverableUnits_ne_nil _ _ _ _ _ _ (by simp), heq]
  cases post with
  | nil =>
    rw [generateLoop_last _ _ _ _ _ _ _ hseg ht]
    exact ⟨hunit, mem_implied.1 hedge⟩
  | cons nx rs =>
    rw [generateLoop_more _ _ _ _ _ _ _ _ _ hseg ht]
    constructor
    · obtain ⟨new, hnew⟩ := generateLoop_prefix (nx :: rs)
        (closeRegion (Walk c2 t) (regionPos pos pre (seg ++ t :: nx :: rs)) (statementBoundary t)
          (seg.length + 1) (getCoverableUnits (Walk c2 t) t) units2).2 nx.Pos blockEnd false
        (closeRegion (Walk c2 t) (regionPos pos pre (seg ++ t :: nx :: rs)) (statementBoundary t)
          (seg.length + 1) (getCoverableUnits (Walk c2 t) t) units2).1
      rw [hnew]
      exact List.mem_append_left _ hunit
    · exact mem_implied.1 (partition_upMono.2.2.2 _ _ _ _ _ _ _ _ hedge)

/-- Witness of C15: the `if` of the fixture of the test, with the assignment
before it as `seg` and the if-body unit as `u`. -/
theorem generateCoverableUnits_containment_witness :
    AtRegionStart [] ∧ NonEnding [Stmt.Other 602 620] ∧
    endsBasicSourceBlock (Stmt.IfStmt 702 722 902 (plain [(803, 820)]) none) = true ∧
    ElseBracesDistinct (Stmt.IfStmt 702 722 902 (plain [(803, 820)]) none) ∧
    regionPos 513 [] ([Stmt.Other 602 620] ++
        Stmt.IfStmt 702 722 902 (plain [(803, 820)]) none :: [Stmt.Other 1002 1018]) ≠
      statementBoundary (Stmt.IfStmt 702 722 902 (plain [(803, 820)]) none) ∧
    bodyUnit ∈ nestedUnits (newRestorer gridPos).fset
      (Stmt.IfStmt 702 722 902 (plain [(803, 820)]) none) ∧
    spanUnit gridPos 513 722 2 = leadUnit ∧
    (spanUnit (newRestorer gridPos).fset
        (regionPos 513 [] ([Stmt.Other 602 620] ++
          Stmt.IfStmt 702 722 902 (plain [(803, 820)]) none :: [Stmt.Other 1002 1018]))
        (statementBoundary (Stmt.IfStmt 702 722 902 (plain [(803, 820)]) none))
        ([Stmt.Other 602 620].length + 1) ∈
      (generateCoverableUnits (newRestorer gridPos) 513 514 1102
        ([] ++ ([Stmt.Other 602 620] ++
          Stmt.IfStmt 702 722 902 (plain [(803, 820)]) none :: [Stmt.Other 1002 1018])) true).1 ∧
    ∃ units,
      (generateCoverableUnits (newRestorer gridPos) 513 514 1102
        ([] ++ ([Stmt.Other 602 620] ++
          Stmt.IfStmt 702 722 902 (plain [(803, 820)]) none :: [Stmt.Other 1002 1018]))
        true).2.upstream bodyUnit = some units ∧
      spanUnit (newRestorer gridPos).fset
        (regionPos 513 [] ([Stmt.Other 602 620] ++
          Stmt.IfStmt 702 722 902 (plain [(803, 820)]) none :: [Stmt.Other 1002 1018]))
        (statementBoundary (Stmt.IfStmt 702 722 902 (plain [(803, 820)]) none))
        ([Stmt.Other 602 620].length + 1) ∈ units) :=
  have hseg : NonEnding [Stmt.Other 602 620] := by
    intro s hs
    simp only [List.mem_singleton] at hs
    rw [hs]
    rfl
  have hu : bodyUnit ∈ nestedUnits (newRestorer gridPos).fset
      (Stmt.IfStmt 702 722 902 (plain [(803, 820)]) none) := by
    simp only [nestedUnits, newRestorer, List.append_nil]
    rw [blockUnits_plain gridPos 722 902 (803, 820) [] (by decide)]
    decide
  ⟨atRegionStart_nil, hseg, rfl, trivial, by decide, hu, by decide,
    generateCoverableUnits_containment (newRestorer gridPos) 513 514 1102 true []
      [Stmt.Other 602 620] (Stmt.IfStmt 702 722 902 (plain [(803, 820)]) none)
      [Stmt.Other 1002 1018] bodyUnit atRegionStart_nil hseg rfl trivial (by decide) hu⟩

/-! ## Every edge goes backward -/

theorem wellFormed_bounds : ∀ (s : Stmt), WellFormed s →
    s.Pos ≤ statementBoundary s ∧ statementBoundary s ≤ s.End ∧
      (endsBasicSourceBlock s = true → statementBoundary s < s.End) := by
  refine (partition_induction
    (P := fun s => WellFormed s → s.Pos ≤ statementBoundary s ∧ statementBoundary s ≤ s.End ∧
      (endsBasicSourceBlock s = true → statementBoundary s < s.End))
    (Q := fun _ => True) ?_ ?_ ?_ ?_ ?_ (fun _ _ _ => trivial) (fun _ _ _ _ _ => trivial)
    (fun _ _ _ _ _ _ _ _ => trivial)).1
  · intro lb rb l _ h
    simp only [WellFormed] at h
    simp only [Stmt.Pos, statementBoundary, Stmt.End]
    omega
  · intro p lb rb l els _ he h
    cases els with
    | none =>
      simp only [WellFormed] at h
      simp only [Stmt.Pos, statementBoundary, Stmt.End]
      omega
    | some e =>
      simp only [WellFormed] at h
      have := he e rfl h.2.2.2.2
      simp only [Stmt.Pos, statementBoundary, Stmt.End]
      omega
  · intro p lb rb l _ h
    simp only [WellFormed] at h
    simp only [Stmt.Pos, statementBoundary, Stmt.End]
    omega
  · intro p s hs h
    simp only [WellFormed] at h
    have := hs h.2
    simp only [Stmt.Pos, statementBoundary, Stmt.End, endsBasicSourceBlock]
    refine ⟨by omega, by omega, by simp⟩
  · intro p e h
    simp only [WellFormed] at h
    simp only [Stmt.Pos, statementBoundary, Stmt.End, endsBasicSourceBlock]
    refine ⟨by omega, by omega, by simp⟩

theorem wellFormedList_mono (lo lo2 hi : Nat) (l : List Stmt) (h : lo2 ≤ lo)
    (hl : WellFormedList lo hi l) : WellFormedList lo2 hi l := by
  cases l with
  | nil => simp [WellFormedList]
  | cons a l =>
    simp only [WellFormedList] at hl ⊢
    exact ⟨by omega, hl.2⟩

theorem wellFormedList_split (hi : Nat) (t : Stmt) (rest : List Stmt) :
    ∀ (pre : List Stmt) (lo : Nat), WellFormedList lo hi (pre ++ t :: rest) →
      lo ≤ t.Pos ∧ WellFormed t ∧ WellFormedList t.End hi rest
  | [], lo, h => by
    simp only [List.nil_append, WellFormedList] at h
    exact ⟨h.1, h.2.1, h.2.2.2⟩
  | a :: pre, lo, h => by
    simp only [List.cons_append, WellFormedList] at h
    have ih := wellFormedList_split hi t rest pre a.End h.2.2.2
    have ha := wellFormed_bounds a h.2.1
    exact ⟨by omega, ih.2⟩

theorem appendUpstream_backward {fset : Nat → Nat × Nat} {c : restorer} (key unit : CoverableUnit)
    (h : Backward fset c) (hedge : EdgeBackward fset key unit) :
    Backward fset (appendUpstream c key unit) where
  table := h.table
  edges := by
    intro u p hp
    rcases (appendUpstream_implied c key unit u p).1 hp with h1 | ⟨h1, h2⟩
    · exact h.edges u p h1
    · rw [h1, h2]
      exact hedge
  keys := h.keys

theorem closeRegion_backward {fset : Nat → Nat × Nat} {c : restorer} (lo pos end_ last : Nat)
    (providers units : List CoverableUnit) (h : Backward fset c)
    (hprov : ∀ u ∈ providers, SpanFrom fset end_ u) (hle : providers = [] ∨ pos ≤ end_)
    (hunits : ∀ p ∈ units, SpanBefore fset lo pos p) :
    Backward fset (closeRegion c pos end_ last providers units).2 := by
  unfold closeRegion
  split
  · rename_i hpos
    have hfold : ∀ (ps : List CoverableUnit) (c0 : restorer), Backward fset c0 →
        (∀ u ∈ ps, EdgeBackward fset u (spanUnit fset pos end_ last)) →
        Backward fset (ps.foldl (fun c u => appendUpstream c u (spanUnit fset pos end_ last)) c0) := by
      intro ps
      induction ps with
      | nil => intro c0 h0 _; exact h0
      | cons a ps ih =>
        intro c0 h0 hps
        exact ih _ (appendUpstream_backward a _ h0 (hps a (by simp)))
          (fun u hu => hps u (by simp [hu]))
    have hedges : ∀ u ∈ providers, EdgeBackward fset u (spanUnit fset pos end_ last) := by
      intro u hu
      obtain ⟨s0, e0, n0, hu0, hs0⟩ := hprov u hu
      have hpe : pos ≤ end_ := by
        rcases hle with hle | hle
        · rw [hle] at hu
          simp at hu
        · exact hle
      exact ⟨s0, e0, n0, pos, end_, last, hu0, rfl, hs0, by omega⟩
    simp only [createCoverableUnit_eq, h.table]
    have h1 := hfold providers c h hedges
    split
    · rename_i prev hprev
      obtain ⟨s2, e2, n2, hp, he, hs, _⟩ := hunits prev (List.mem_of_mem_getLast? hprev)
      exact appendUpstream_backward _ _ h1 ⟨pos, end_, last, s2, e2, n2, rfl, hp, he, hs⟩
    · exact h1
  · exact h

theorem getCoverableUnits_spanFrom {fset : Nat → Nat × Nat} : ∀ (s : Stmt) (c : restorer),
    Backward fset c → WellFormed s →
    ∀ u ∈ getCoverableUnits c s, SpanFrom fset (statementBoundary s) u := by
  have hkey : ∀ (c : restorer) (lb : Nat), Backward fset c →
      ∀ u ∈ (c.coverableUnits lb).getD [], SpanFrom fset lb u := by
    intro c lb h u hu
    cases hc : c.coverableUnits lb with
    | none => simp [hc] at hu
    | some units =>
      rw [hc] at hu
      exact h.keys lb units hc u hu
  refine (partition_induction
    (P := fun s => ∀ (c : restorer), Backward fset c → WellFormed s →
      ∀ u ∈ getCoverableUnits c s, SpanFrom fset (statementBoundary s) u)
    (Q := fun _ => True) ?_ ?_ ?_ ?_ ?_ (fun _ _ _ => trivial) (fun _ _ _ _ _ => trivial)
    (fun _ _ _ _ _ _ _ _ => trivial)).1
  · intro lb rb l _ c h _ u hu
    exact hkey c lb h u hu
  · intro p lb rb l els _ he c h hwf u hu
    cases els with
    | none =>
      simp only [getCoverableUnits, List.append_nil] at hu
      exact hkey c lb h u hu
    | some e =>
      simp only [getCoverableUnits, List.mem_append] at hu
      rcases hu with hu | hu
      · exact hkey c lb h u hu
      · simp only [WellFormed] at hwf
        obtain ⟨s0, e0, n0, hu0, hs0⟩ := he e rfl c h hwf.2.2.2.2 u hu
        have hb := wellFormed_bounds e hwf.2.2.2.2
        exact ⟨s0, e0, n0, hu0, by simp only [statementBoundary]; omega⟩
  · intro p lb rb l _ c h _ u hu
    exact hkey c lb h u hu
  · intro p s _ c _ _ u hu
    simp [getCoverableUnits] at hu
  · intro p e c _ _ u hu
    simp [getCoverableUnits] at hu

theorem store_backward {fset : Nat → Nat × Nat} {c : restorer} (key : Nat)
    (units : List CoverableUnit) (h : Backward fset c) (hu : ∀ u ∈ units, SpanFrom fset key u) :
    Backward fset
      { c with coverableUnits := fun p =>
          if p = key then some units else c.coverableUnits p } where
  table := h.table
  edges := h.edges
  keys := by
    intro k us hk u hmem
    simp only at hk
    split at hk
    · rename_i hkk
      simp only [Option.some.injEq] at hk
      subst hk
      subst hkk
      exact hu u hmem
    · exact h.keys k us hk u hmem

theorem closeRegion_spanFrom {fset : Nat → Nat × Nat} {c : restorer} (lo pos end_ last : Nat)
    (providers units : List CoverableUnit) (htable : c.fset = fset) (hlo : lo ≤ pos)
    (hunits : ∀ p ∈ units, SpanFrom fset lo p) :
    ∀ u ∈ (closeRegion c pos end_ last providers units).1, SpanFrom fset lo u := by
  intro u hu
  rw [closeRegion_units] at hu
  split at hu
  · rcases List.mem_append.1 hu with h | h
    · exact hunits u h
    · simp only [List.mem_singleton] at h
      exact ⟨pos, end_, last, by rw [h, htable], hlo⟩
  · exact hunits u hu

theorem closeRegion_spanBefore {fset : Nat → Nat × Nat} {c : restorer}
    (lo pos pos2 end_ last : Nat) (providers units : List CoverableUnit) (htable : c.fset = fset)
    (hlo : lo ≤ pos) (hend : end_ ≤ pos2) (hpos : pos < pos2)
    (hunits : ∀ p ∈ units, SpanBefore fset lo pos p) :
    ∀ u ∈ (closeRegion c pos end_ last providers units).1, SpanBefore fset lo pos2 u := by
  have hold : ∀ p ∈ units, SpanBefore fset lo pos2 p := by
    intro p hp
    obtain ⟨s, e, n, h1, h2, h3, h4⟩ := hunits p hp
    exact ⟨s, e, n, h1, by omega, by omega, h4⟩
  intro u hu
  rw [closeRegion_units] at hu
  split at hu
  · rcases List.mem_append.1 hu with h | h
    · exact hold u h
    · simp only [List.mem_singleton] at h
      exact ⟨pos, end_, last, by rw [h, htable], hend, hpos, hlo⟩
  · exact hold u hu

theorem spanBefore_spanFrom {fset : Nat → Nat × Nat} {lo pos : Nat} {units : List CoverableUnit}
    (h : ∀ p ∈ units, SpanBefore fset lo pos p) : ∀ p ∈ units, SpanFrom fset lo p := by
  intro p hp
  obtain ⟨s, e, n, h1, _, _, h4⟩ := h p hp
  exact ⟨s, e, n, h1, h4⟩

/-- The partitioning of well-formed statements keeps every edge backward. -/
theorem partition_backward (fset : Nat → Nat × Nat) :
    (∀ s, WellFormed s → ∀ c, Backward fset c → Backward fset (Walk c s)) ∧
    (∀ l, l ≠ [] → ∀ (hi : Nat) (c : restorer) (pos blockEnd : Nat) (ext : Bool)
      (units : List CoverableUnit) (lo : Nat), WellFormedList pos hi l → Backward fset c →
      lo ≤ pos → (∀ p ∈ units, SpanBefore fset lo pos p) →
      Backward fset (generateLoop c pos blockEnd l ext units).2 ∧
      ∀ u ∈ (generateLoop c pos blockEnd l ext units).1, SpanFrom fset lo u) := by
  have hV : ∀ (l : List Stmt) (lb rb : Nat), lb < rb → WellFormedList (lb + 1) rb l →
      (l ≠ [] → ∀ (hi : Nat) (c : restorer) (pos blockEnd : Nat) (ext : Bool)
        (units : List CoverableUnit) (lo : Nat), WellFormedList pos hi l → Backward fset c →
        lo ≤ pos → (∀ p ∈ units, SpanBefore fset lo pos p) →
        Backward fset (generateLoop c pos blockEnd l ext units).2 ∧
        ∀ u ∈ (generateLoop c pos blockEnd l ext units).1, SpanFrom fset lo u) →
      ∀ c, Backward fset c → Backward fset (VisitBlockStmt c lb rb l) := by
    intro l lb rb hb hwf hl c h
    rw [VisitBlockStmt_eq]
    cases l with
    | nil =>
      rw [generateCoverableUnits_nil]
      refine store_backward lb _ h ?_
      intro u hu
      simp only [List.mem_singleton] at hu
      exact ⟨lb + 1, rb + 1, 0, by rw [hu, h.table], by omega⟩
    | cons a l =>
      rw [generateCoverableUnits_ne_nil _ _ _ _ _ _ (by simp)]
      obtain ⟨h1, h2⟩ := hl (by simp) rb c lb (rb + 1) true [] lb
        (wellFormedList_mono (lb + 1) lb rb _ (by omega) hwf) h le_rfl (fun p hp => by simp at hp)
      exact store_backward lb _ h1 h2
  refine partition_induction
    (P := fun s => WellFormed s → ∀ c, Backward fset c → Backward fset (Walk c s))
    (Q := fun l => ∀ (hi : Nat) (c : restorer) (pos blockEnd : Nat) (ext : Bool)
      (units : List CoverableUnit) (lo : Nat), WellFormedList pos hi l → Backward fset c →
      lo ≤ pos → (∀ p ∈ units, SpanBefore fset lo pos p) →
      Backward fset (generateLoop c pos blockEnd l ext units).2 ∧
      ∀ u ∈ (generateLoop c pos blockEnd l ext units).1, SpanFrom fset lo u)
    ?_ ?_ ?_ ?_ ?_ ?_ ?_ ?_
  · intro lb rb l hl hwf c h
    simp only [WellFormed] at hwf
    rw [Walk_block]
    exact hV l lb rb hwf.1 hwf.2 hl c h
  · intro p lb rb l els hl he hwf c h
    rw [Walk_if]
    cases els with
    | none =>
      simp only [WellFormed] at hwf
      exact hV l lb rb hwf.2.1 hwf.2.2.1 hl c h
    | some e =>
      simp only [WellFormed] at hwf
      exact he e rfl hwf.2.2.2.2 _ (hV l lb rb hwf.2.1 hwf.2.2.1 hl c h)
  · intro p lb rb l hl hwf c h
    simp only [WellFormed] at hwf
    rw [Walk_for]
    exact hV l lb rb hwf.2.1 hwf.2.2 hl c h
  · intro p s hs hwf c h
    simp only [WellFormed] at hwf
    rw [Walk_labeled]
    exact hs hwf.2 c h
  · intro p e _ c h
    rw [Walk_other]
    exact h
  · intro l _ hne hi c pos blockEnd ext units lo _ h hlo hunits
    rw [generateLoop_nonEnding c pos blockEnd l ext units hne]
    exact ⟨closeRegion_backward lo pos _ _ [] units h (fun u hu => by simp at hu) (Or.inl rfl)
      hunits, closeRegion_spanFrom lo pos _ _ [] units h.table hlo (spanBefore_spanFrom hunits)⟩
  · intro pre t hpre ht hW hi c pos blockEnd ext units lo hwf h hlo hunits
    obtain ⟨hpos, hwft, _⟩ := wellFormedList_split hi t [] pre pos hwf
    have hb := wellFormed_bounds t hwft
    have h1 := hW hwft c h
    rw [generateLoop_last c pos blockEnd pre t ext units hpre ht]
    exact ⟨closeRegion_backward lo pos _ _ _ units h1 (getCoverableUnits_spanFrom t _ h1 hwft)
      (Or.inr (by omega)) hunits,
      closeRegion_spanFrom lo pos _ _ _ units h1.table hlo (spanBefore_spanFrom hunits)⟩
  · intro pre t nx rs hpre ht hW hL hi c pos blockEnd ext units lo hwf h hlo hunits
    obtain ⟨hpos, hwft, hrest⟩ := wellFormedList_split hi t (nx :: rs) pre pos hwf
    have hb := wellFormed_bounds t hwft
    have hstrict := hb.2.2 ht
    have h1 := hW hwft c h
    simp only [WellFormedList] at hrest
    have hrest2 : WellFormedList nx.Pos hi (nx :: rs) := by
      simp only [WellFormedList]
      exact ⟨le_rfl, hrest.2⟩
    have h2 := closeRegion_backward lo pos (statementBoundary t) (pre.length + 1)
      (getCoverableUnits (Walk c t) t) units h1 (getCoverableUnits_spanFrom t _ h1 hwft)
      (Or.inr (by omega)) hunits
    have h3 := closeRegion_spanBefore lo pos nx.Pos (statementBoundary t) (pre.length + 1)
      (getCoverableUnits (Walk c t) t) units h1.table hlo (by omega) (by omega) hunits
    rw [generateLoop_more c pos blockEnd pre t nx rs ext units hpre ht]
    exact hL hi _ nx.Pos blockEnd false _ lo hrest2 h2 (by omega) h3

theorem spanUnit_start_inj {fset : Nat → Nat × Nat} (hinj : Function.Injective fset)
    {s e n s2 e2 n2 : Nat} (h : spanUnit fset s e n = spanUnit fset s2 e2 n2) : s = s2 := by
  by_contra hne
  exact spanUnit_ne_of_start hinj hne h

/-- Along a chain of backward edges the start position strictly decreases. -/
theorem backward_reach {fset : Nat → Nat × Nat} {c : restorer}
    (hedges : ∀ u p, Implies c u p → EdgeBackward fset u p) (hinj : Function.Injective fset)
    {u v : CoverableUnit} (h : Reachable c u v) :
    ∀ s e n, u = spanUnit fset s e n → ∃ s2 e2 n2, v = spanUnit fset s2 e2 n2 ∧ s2 < s := by
  induction h with
  | single huv =>
    intro s e n hu
    obtain ⟨s1, e1, n1, s2, e2, n2, h1, h2, _, h4⟩ := hedges _ _ huv
    have := spanUnit_start_inj hinj (hu.symm.trans h1)
    exact ⟨s2, e2, n2, h2, by omega⟩
  | tail _ hvw ih =>
    intro s e n hu
    obtain ⟨sv, ev, nv, hv, hlt⟩ := ih s e n hu
    obtain ⟨s1, e1, n1, s2, e2, n2, h1, h2, _, h4⟩ := hedges _ _ hvw
    have := spanUnit_start_inj hinj (hv.symm.trans h1)
    exact ⟨s2, e2, n2, h2, by omega⟩

theorem backward_acyclic {fset : Nat → Nat × Nat} {c : restorer}
    (hedges : ∀ u p, Implies c u p → EdgeBackward fset u p) (hinj : Function.Injective fset)
    (u : CoverableUnit) : ¬ Reachable c u u := by
  intro h
  have hspan : ∃ s e n, u = spanUnit fset s e n := by
    cases h with
    | single huv =>
      obtain ⟨_, _, _, s2, e2, n2, _, h2, _, _⟩ := hedges _ _ huv
      exact ⟨s2, e2, n2, h2⟩
    | tail _ hvw =>
      obtain ⟨_, _, _, s2, e2, n2, _, h2, _, _⟩ := hedges _ _ hvw
      exact ⟨s2, e2, n2, h2⟩
  obtain ⟨s, e, n, hu⟩ := hspan
  obtain ⟨s2, e2, n2, hu2, hlt⟩ := backward_reach hedges hinj h s e n hu
  have := spanUnit_start_inj hinj (hu.symm.trans hu2)
  omega

theorem newRestorer_backward (fset : Nat → Nat × Nat) : Backward fset (newRestorer fset) where
  table := rfl
  edges := by
    intro u p hp
    simp [implied, newRestorer] at hp
  keys := by
    intro key units hk
    simp [newRestorer] at hk

theorem foldl_backward (fset : Nat → Nat × Nat) : ∀ (decls : List FuncDecl) (c : restorer),
    Backward fset c →
    (∀ d ∈ decls, WellFormed (.BlockStmt d.Lbrace d.Rbrace d.List)) →
    Backward fset (decls.foldl (fun c n => VisitBlockStmt c n.Lbrace n.Rbrace n.List) c)
  | [], c, h, _ => h
  | d :: decls, c, h, hwf => by
    rw [List.foldl_cons]
    apply foldl_backward fset decls _ _ (fun x hx => hwf x (by simp [hx]))
    rw [← Walk_block]
    exact (partition_backward fset).1 _ (hwf d (by simp)) c h

/-- C20: for every parsed file whose function bodies have well-formed
positions (each statement starts at or after the end of the one before, the
braces of a nested body lie inside its statement, in order), every edge `u → p`
of the graph that `generateUpstreamMapping` builds from empty maps joins units of
two spans of which `p` ends at or before the position where `u` starts and
starts strictly before it; so, with a position table that tells positions
apart, no chain of edges returns to its first unit. -/
theorem generateUpstreamMapping_backward (fset : Nat → Nat × Nat) (f : File)
    (hwf : ∀ d ∈ f.Decls, WellFormed (.BlockStmt d.Lbrace d.Rbrace d.List)) :
    ∃ c, generateUpstreamMapping (newRestorer fset) (.ok f) = .ok c ∧
      (∀ u p, Implies c u p → EdgeBackward fset u p) ∧
      (Function.Injective fset → ∀ u, ¬ Reachable c u u) := by
  have h := foldl_backward fset f.Decls (newRestorer fset) (newRestorer_backward fset) hwf
  refine ⟨_, rfl, fun u p hp => h.edges u p (mem_implied.2 hp), fun hinj u => ?_⟩
  exact backward_acyclic (fun u p hp => h.edges u p (mem_implied.2 hp)) hinj u

/-- Witness of C20: the file of the fixture of the test. -/
theorem generateUpstreamMapping_backward_witness :
    (∀ d ∈ inf1File.Decls, WellFormed (.BlockStmt d.Lbrace d.Rbrace d.List)) ∧
    ∃ c, generateUpstreamMapping (newRestorer gridPos) (.ok inf1File) = .ok c ∧
      (∀ u p, Implies c u p → EdgeBackward gridPos u p) ∧
      (Function.Injective gridPos → ∀ u, ¬ Reachable c u u) :=
  have hwf : ∀ d ∈ inf1File.Decls, WellFormed (.BlockStmt d.Lbrace d.Rbrace d.List) := by
    intro d hd
    simp only [inf1File, List.mem_singleton] at hd
    subst hd
    simp [WellFormed, WellFormedList, inf1Body_eq, Stmt.Pos, Stmt.End]
  ⟨hwf, generateUpstreamMapping_backward gridPos inf1File hwf⟩

end Covdata
